import Mathlib

/-!
# Fractal explorer: a shallow embedding of the rendering core

The C++ sources under `src/cpp` are embedded as pure Lean functions.

* `double` values are modelled by an arbitrary linearly ordered field `K` with a
  floor function (exact arithmetic); every definition is executable at `K = ℚ`.
  The natural logarithm used by smooth colouring is passed as a function `log`,
  which is `Real.log` in the statements that speak about logarithms.
* The viewport mapper, `zoom`, `pan` and the palette lookup are embedded a second
  time in IEEE 754 binary64 arithmetic (definitions with the suffix `F64`): every
  `double` operation is the exact operation followed by rounding to nearest, ties
  to even.  The statements about these functions say which of the two they use.
* `int` values are modelled by `Int`.  Where an `int` operation can leave the
  32-bit range it is wrapped by `wrap32` (two's complement); operations that
  cannot overflow (loop counters bounded by an `int`, divisions by a positive
  constant) are plain `Int` operations.
* `uint8_t` values are natural numbers reduced modulo 256 at every conversion.
* Loops that need not terminate take a fuel argument and return `none` when it
  runs out; an out-of-bounds write or a failing allocation is `none` as well.
-/

set_option autoImplicit false

namespace Fractal

/-! ## Machine integers -/

/-- Two's-complement reduction of an integer to the 32-bit `int` range. -/
def wrap32 (n : Int) : Int := (n + 2147483648) % 4294967296 - 2147483648

/-- The values an `int` can hold. -/
def inInt32 (n : Int) : Prop := -2147483648 ≤ n ∧ n ≤ 2147483647

instance (n : Int) : Decidable (inInt32 n) := by
  unfold inInt32; infer_instance

/-- Conversion `static_cast<int>(double)`: truncation toward zero. -/
def truncToInt {K : Type} [LinearOrderedField K] [FloorRing K] (x : K) : Int :=
  if 0 ≤ x then ⌊x⌋ else ⌈x⌉

/-- Conversion `static_cast<uint8_t>(double)`: truncation, then reduction modulo 256. -/
def toUInt8 {K : Type} [LinearOrderedField K] [FloorRing K] (x : K) : Nat :=
  (truncToInt x % 256).toNat

/-! ## Data model (`fractal_engine.h`, `tile_manager.h`, `progressive_renderer.h`) -/

/-- The struct `Viewport`. -/
structure Viewport (K : Type) where
  center_x : K
  center_y : K
  scale : K
  width : Int
  height : Int

/-- The struct `RenderParams`. -/
structure RenderParams (K : Type) where
  max_iterations : Int
  bailout_radius : K
  smooth_coloring : Bool
  palette_id : Int

/-- The enum `FractalType`. -/
inductive FractalType where
  | MANDELBROT
  | JULIA
  deriving DecidableEq, Repr

/-- The struct `FractalPoint`. -/
structure FractalPoint (K : Type) where
  iterations : Int
  smooth_value : K
  inside_set : Bool

/-- The struct `Color`; each channel is a `uint8_t`. -/
structure Color where
  r : Nat
  g : Nat
  b : Nat
  a : Nat
  deriving DecidableEq, Repr

/-- The struct `Tile`. -/
structure Tile where
  x : Int
  y : Int
  width : Int
  height : Int
  deriving DecidableEq, Repr

/-- The enum `RenderPass`. -/
inductive RenderPass where
  | PASS_PREVIEW
  | PASS_LOW
  | PASS_MEDIUM
  | PASS_HIGH
  deriving DecidableEq, Repr

/-- The struct `ProgressiveRenderParams`. -/
structure ProgressiveRenderParams (K : Type) where
  pass : RenderPass
  resolution_scale : K
  max_iterations : Int

/-! ## Viewport mapper (`fractal_engine.cpp`, `viewport.cpp`) -/

section ViewportMapper

variable {K : Type} [LinearOrderedField K]

/-- `FractalEngine::screenToComplex` in exact arithmetic; the two output parameters are
returned as a pair.  `FractalEngine.screenToComplexF64` is the same function with every
`double` operation rounded. -/
def FractalEngine.screenToComplex (screen_x screen_y : Int) (viewport : Viewport K) : K × K :=
  (((screen_x : K) - (viewport.width : K) / 2.0) * viewport.scale + viewport.center_x,
   ((screen_y : K) - (viewport.height : K) / 2.0) * viewport.scale + viewport.center_y)

/-- `ViewportManager::zoom` in exact arithmetic; `ViewportManager.zoomF64` is the same
function with every `double` operation rounded. -/
def ViewportManager.zoom (current : Viewport K) (factor : K) (focus_x focus_y : Int) :
    Viewport K :=
  let focus_real := ((focus_x : K) - (current.width : K) / 2.0) * current.scale + current.center_x
  let focus_imag := ((focus_y : K) - (current.height : K) / 2.0) * current.scale + current.center_y
  let result_scale := current.scale * factor
  let new_focus_real :=
    ((focus_x : K) - (current.width : K) / 2.0) * result_scale + current.center_x
  let new_focus_imag :=
    ((focus_y : K) - (current.height : K) / 2.0) * result_scale + current.center_y
  { current with
    scale := result_scale
    center_x := current.center_x - (new_focus_real - focus_real)
    center_y := current.center_y - (new_focus_imag - focus_imag) }

/-- `ViewportManager::pan` in exact arithmetic; `ViewportManager.panF64` is the same
function with every `double` operation rounded. -/
def ViewportManager.pan (current : Viewport K) (dx dy : Int) : Viewport K :=
  { current with
    center_x := current.center_x - (dx : K) * current.scale
    center_y := current.center_y - (dy : K) * current.scale }

/-- `ViewportManager::createMandelbrotView`. -/
def ViewportManager.createMandelbrotView (width height : Int) : Viewport K :=
  ⟨-0.5, 0.0, 0.004, width, height⟩

/-- `ViewportManager::createJuliaView`. -/
def ViewportManager.createJuliaView (width height : Int) : Viewport K :=
  ⟨0.0, 0.0, 0.004, width, height⟩

/-- `ViewportManager::createDefault`. -/
def ViewportManager.createDefault (width height : Int) : Viewport K :=
  ViewportManager.createMandelbrotView width height

end ViewportMapper

/-! ## Progressive pass scheduler (`progressive_renderer.cpp`) -/

/-- `ProgressiveRenderer::getPassParams`; `/` on `int` truncates toward zero. -/
def ProgressiveRenderer.getPassParams {K : Type} [LinearOrderedField K]
    (pass : RenderPass) (base_max_iterations : Int) : ProgressiveRenderParams K :=
  match pass with
  | RenderPass.PASS_PREVIEW =>
      { pass := pass, resolution_scale := 0.25,
        max_iterations := max 100 (Int.tdiv base_max_iterations 10) }
  | RenderPass.PASS_LOW =>
      { pass := pass, resolution_scale := 0.5,
        max_iterations := max 200 (Int.tdiv base_max_iterations 5) }
  | RenderPass.PASS_MEDIUM =>
      { pass := pass, resolution_scale := 0.75,
        max_iterations := max 500 (Int.tdiv base_max_iterations 2) }
  | RenderPass.PASS_HIGH =>
      { pass := pass, resolution_scale := 1.0,
        max_iterations := base_max_iterations }

/-- `ProgressiveRenderer::getAdaptiveIterations`. -/
def ProgressiveRenderer.getAdaptiveIterations (pass : RenderPass) (base_max_iterations : Int) :
    Int :=
  (ProgressiveRenderer.getPassParams (K := ℚ) pass base_max_iterations).max_iterations

/-! ## Escape-time evaluators (`mandelbrot.cpp`, `julia.cpp`) -/

/-- The local variables of the iteration loop of both evaluators. -/
structure IterState (K : Type) where
  z_real : K
  z_imag : K
  z_real2 : K
  z_imag2 : K
  iter : Int

section Evaluators

variable {K : Type} [LinearOrderedField K]

/-- `Mandelbrot::inMainCardioid`. -/
def Mandelbrot.inMainCardioid (c_real c_imag : K) : Bool :=
  let q := (c_real - 0.25) * (c_real - 0.25) + c_imag * c_imag
  decide (q * (q + (c_real - 0.25)) ≤ 0.25 * c_imag * c_imag)

/-- `Mandelbrot::inPeriod2Bulb`. -/
def Mandelbrot.inPeriod2Bulb (c_real c_imag : K) : Bool :=
  let dx := c_real + 1.0
  decide (dx * dx + c_imag * c_imag ≤ 0.0625)

/-- The `while` loop of `Mandelbrot::compute`, run from the state `s` to its exit.
`iter++` cannot overflow: it is only executed when `iter < max_iterations`. -/
def Mandelbrot.compute.loop (c_real c_imag : K) (max_iterations : Int) (bailout_radius : K)
    (s : IterState K) : IterState K :=
  if s.z_real2 + s.z_imag2 ≤ bailout_radius ∧ s.iter < max_iterations then
    let z_imag := 2.0 * s.z_real * s.z_imag + c_imag
    let z_real := s.z_real2 - s.z_imag2 + c_real
    Mandelbrot.compute.loop c_real c_imag max_iterations bailout_radius
      ⟨z_real, z_imag, z_real * z_real, z_imag * z_imag, s.iter + 1⟩
  else s
termination_by (max_iterations - s.iter).toNat
decreasing_by
  simp_wf
  omega

/-- The smooth-colouring tail shared textually by both `compute` functions: from the loop's
final state to the returned `FractalPoint`. -/
def smoothResult (log : K → K) (s : IterState K) (max_iterations : Int)
    (smooth_coloring : Bool) : FractalPoint K :=
  let iter := s.iter
  let inside_set := decide (iter ≥ max_iterations)
  if smooth_coloring = true ∧ iter < max_iterations then
    let log_zn := log (s.z_real2 + s.z_imag2) / 2.0
    let nu := log (log_zn / log 2.0) / log 2.0
    { iterations := iter, smooth_value := (iter : K) + 1.0 - nu, inside_set := inside_set }
  else
    { iterations := iter, smooth_value := (iter : K), inside_set := inside_set }

/-- `Mandelbrot::compute`. -/
def Mandelbrot.compute (log : K → K) (c_real c_imag : K) (max_iterations : Int)
    (bailout_radius : K) (smooth_coloring : Bool) : FractalPoint K :=
  if Mandelbrot.inMainCardioid c_real c_imag = true then
    { iterations := max_iterations, smooth_value := (max_iterations : K), inside_set := true }
  else if Mandelbrot.inPeriod2Bulb c_real c_imag = true then
    { iterations := max_iterations, smooth_value := (max_iterations : K), inside_set := true }
  else
    smoothResult log
      (Mandelbrot.compute.loop c_real c_imag max_iterations bailout_radius
        ⟨0.0, 0.0, 0.0, 0.0, 0⟩)
      max_iterations smooth_coloring

/-- The `while` loop of `Julia::compute`, run from the state `s` to its exit. -/
def Julia.compute.loop (c_real c_imag : K) (max_iterations : Int) (bailout_radius : K)
    (s : IterState K) : IterState K :=
  if s.z_real2 + s.z_imag2 ≤ bailout_radius ∧ s.iter < max_iterations then
    let z_imag := 2.0 * s.z_real * s.z_imag + c_imag
    let z_real := s.z_real2 - s.z_imag2 + c_real
    Julia.compute.loop c_real c_imag max_iterations bailout_radius
      ⟨z_real, z_imag, z_real * z_real, z_imag * z_imag, s.iter + 1⟩
  else s
termination_by (max_iterations - s.iter).toNat
decreasing_by
  simp_wf
  omega

/-- `Julia::compute`. -/
def Julia.compute (log : K → K) (z_real z_imag c_real c_imag : K) (max_iterations : Int)
    (bailout_radius : K) (smooth_coloring : Bool) : FractalPoint K :=
  smoothResult log
    (Julia.compute.loop c_real c_imag max_iterations bailout_radius
      ⟨z_real, z_imag, z_real * z_real, z_imag * z_imag, 0⟩)
    max_iterations smooth_coloring

/-- `FractalEngine::computeMandelbrot`. -/
def FractalEngine.computeMandelbrot (log : K → K) (c_real c_imag : K)
    (params : RenderParams K) : FractalPoint K :=
  Mandelbrot.compute log c_real c_imag params.max_iterations params.bailout_radius
    params.smooth_coloring

/-- `FractalEngine::computeJulia`. -/
def FractalEngine.computeJulia (log : K → K) (z_real z_imag c_real c_imag : K)
    (params : RenderParams K) : FractalPoint K :=
  Julia.compute log z_real z_imag c_real c_imag params.max_iterations params.bailout_radius
    params.smooth_coloring

end Evaluators

/-! ## Palette (`color_palette.cpp`) -/

/-- The class `ColorPalette`: its only data member is the vector `palette_`. -/
structure ColorPalette where
  palette_ : List Color
  deriving DecidableEq, Repr

/-- The constructor `Color(red, green, blue)` applied to three `double` values that are
converted by `static_cast<uint8_t>`; alpha takes its default 255. -/
def Color.ofChannels (c : ℚ × ℚ × ℚ) : Color :=
  ⟨toUInt8 c.1, toUInt8 c.2.1, toUInt8 c.2.2, 255⟩

/-- `std::fmod(a, b)`: the remainder of the division truncated toward zero. -/
def fmod (a b : ℚ) : ℚ := a - b * (truncToInt (a / b) : ℚ)

/-- Body of the loop of `generateClassicPalette`: the channel values of entry `i` before
their conversion to `uint8_t`. -/
def ColorPalette.generateClassicPalette.channels (i : Nat) : ℚ × ℚ × ℚ :=
  let t : ℚ := (i : ℚ) / ((256 - 1 : Int) : ℚ)
  if t < 0.5 then
    let local_t := t * 2.0
    (0, local_t * 255, 255)
  else
    let local_t := (t - 0.5) * 2.0
    (local_t * 255, 255, (1.0 - local_t) * 255)

/-- `ColorPalette::generateClassicPalette`: `palette_` is cleared, then filled. -/
def ColorPalette.generateClassicPalette (_self : ColorPalette) : ColorPalette :=
  ⟨(List.range 256).map fun i => Color.ofChannels (generateClassicPalette.channels i)⟩

/-- Body of the loop of `generateRainbowPalette`. -/
def ColorPalette.generateRainbowPalette.channels (i : Nat) : ℚ × ℚ × ℚ :=
  let hue : ℚ := (i : ℚ) / ((256 : Int) : ℚ) * 360.0
  let c : ℚ := 1.0
  let x : ℚ := c * (1.0 - |fmod (hue / 60.0) 2.0 - 1.0|)
  let m : ℚ := 0.0
  let rgb : ℚ × ℚ × ℚ :=
    if hue < 60 then (c, x, 0)
    else if hue < 120 then (x, c, 0)
    else if hue < 180 then (0, c, x)
    else if hue < 240 then (0, x, c)
    else if hue < 300 then (x, 0, c)
    else (c, 0, x)
  ((rgb.1 + m) * 255, (rgb.2.1 + m) * 255, (rgb.2.2 + m) * 255)

/-- `ColorPalette::generateRainbowPalette`. -/
def ColorPalette.generateRainbowPalette (_self : ColorPalette) : ColorPalette :=
  ⟨(List.range 256).map fun i => Color.ofChannels (generateRainbowPalette.channels i)⟩

/-- Body of the loop of `generateFirePalette`. -/
def ColorPalette.generateFirePalette.channels (i : Nat) : ℚ × ℚ × ℚ :=
  let t : ℚ := (i : ℚ) / ((256 - 1 : Int) : ℚ)
  if t < 0.25 then
    let local_t := t * 4.0
    (local_t * 255, 0, 0)
  else if t < 0.5 then
    let local_t := (t - 0.25) * 4.0
    (255, local_t * 165, 0)
  else if t < 0.75 then
    let local_t := (t - 0.5) * 4.0
    (255, 165 + local_t * 90, 0)
  else
    let local_t := (t - 0.75) * 4.0
    (255, 255, local_t * 255)

/-- `ColorPalette::generateFirePalette`. -/
def ColorPalette.generateFirePalette (_self : ColorPalette) : ColorPalette :=
  ⟨(List.range 256).map fun i => Color.ofChannels (generateFirePalette.channels i)⟩

/-- Body of the loop of `generateIcePalette`. -/
def ColorPalette.generateIcePalette.channels (i : Nat) : ℚ × ℚ × ℚ :=
  let t : ℚ := (i : ℚ) / ((256 - 1 : Int) : ℚ)
  if t < 0.33 then
    let local_t := t * 3.0
    (0, 0, local_t * 255)
  else if t < 0.66 then
    let local_t := (t - 0.33) * 3.0
    (0, local_t * 255, 255)
  else
    let local_t := (t - 0.66) * 3.0
    (local_t * 255, 255, 255)

/-- `ColorPalette::generateIcePalette`. -/
def ColorPalette.generateIcePalette (_self : ColorPalette) : ColorPalette :=
  ⟨(List.range 256).map fun i => Color.ofChannels (generateIcePalette.channels i)⟩

/-- `ColorPalette::generateGrayscalePalette`; `static_cast<uint8_t>(i)` converts an `int`. -/
def ColorPalette.generateGrayscalePalette (_self : ColorPalette) : ColorPalette :=
  ⟨(List.range 256).map fun i => ⟨i % 256, i % 256, i % 256, 255⟩⟩

/-- The constructor `ColorPalette::ColorPalette`. -/
def ColorPalette.new : ColorPalette :=
  ColorPalette.generateClassicPalette ⟨[]⟩

/-- `ColorPalette::initPalette`. -/
def ColorPalette.initPalette (self : ColorPalette) (palette_id : Int) : ColorPalette :=
  if palette_id = 0 then self.generateClassicPalette
  else if palette_id = 1 then self.generateRainbowPalette
  else if palette_id = 2 then self.generateFirePalette
  else if palette_id = 3 then self.generateIcePalette
  else if palette_id = 4 then self.generateGrayscalePalette
  else self.generateClassicPalette

/-- `ColorPalette::setCustomColors`. -/
def ColorPalette.setCustomColors (self : ColorPalette) (colors : List Color) : ColorPalette :=
  if ¬ colors.isEmpty then ⟨colors⟩ else self

section GetColor

variable {K : Type} [LinearOrderedField K] [FloorRing K]

/-- `ColorPalette::interpolateColors` in exact arithmetic; `c2.r - c1.r` is an `int`
subtraction.  `ColorPalette.interpolateColorsF64` is the same function with every `double`
operation rounded. -/
def ColorPalette.interpolateColors (c1 c2 : Color) (t : K) : Color :=
  let t := max 0.0 (min 1.0 t)
  ⟨toUInt8 ((c1.r : K) + t * (((c2.r : Int) - (c1.r : Int) : Int) : K)),
   toUInt8 ((c1.g : K) + t * (((c2.g : Int) - (c1.g : Int) : Int) : K)),
   toUInt8 ((c1.b : K) + t * (((c2.b : Int) - (c1.b : Int) : Int) : K)),
   toUInt8 ((c1.a : K) + t * (((c2.a : Int) - (c1.a : Int) : Int) : K))⟩

/-- `ColorPalette::getColor` in exact arithmetic (`ColorPalette.getColorF64` is the same
function with every `double` operation rounded).  `size_bits` is the width of `size_t`;
the operand of `% palette_.size()` is an `int` converted to `size_t`, and
`static_cast<int>` of a value outside the `int` range is reduced by `wrap32`.  Reading
`palette_[i]` uses a default colour when `i` is out of range, which happens only for an
empty palette or one with more than `INT_MAX` entries. -/
def ColorPalette.getColor (size_bits : Nat) (self : ColorPalette) (smooth_value : K)
    (max_iterations : Int) : Color :=
  if smooth_value ≥ (max_iterations : K) then ⟨0, 0, 0, 255⟩
  else
    let size : Nat := self.palette_.length
    let normalized := smooth_value / (max_iterations : K)
    let palette_index := normalized * (size : K)
    let index1 : Int :=
      wrap32 (((wrap32 (truncToInt palette_index) % (2 : Int) ^ size_bits) % (size : Int)))
    let index2 : Int :=
      wrap32 (((wrap32 (index1 + 1) % (2 : Int) ^ size_bits) % (size : Int)))
    let t := palette_index - (⌊palette_index⌋ : K)
    ColorPalette.interpolateColors
      (self.palette_.getD (index1 % (2 : Int) ^ size_bits).toNat ⟨0, 0, 0, 255⟩)
      (self.palette_.getD (index2 % (2 : Int) ^ size_bits).toNat ⟨0, 0, 0, 255⟩) t

end GetColor

/-! ## Render pipeline (`fractal_engine.cpp`) -/

/-- The assignment `pixel_buffer[index] = value`, where the `int` `index` is converted to
`size_t`: a negative index becomes a huge one.  Writing outside the vector is `none`. -/
def writeByte (pixel_buffer : List Nat) (index : Int) (value : Nat) : Option (List Nat) :=
  if 0 ≤ index ∧ index.toNat < pixel_buffer.length then
    some (pixel_buffer.set index.toNat value)
  else none

/-- The call `pixel_buffer.resize(n)` with an `int` argument: a negative `n` converts to a
size beyond `max_size()` and the call fails; otherwise the vector is cut to `n` elements or
padded with zero bytes. -/
def resizeBuffer (pixel_buffer : List Nat) (n : Int) : Option (List Nat) :=
  if 0 ≤ n then
    some (pixel_buffer.take n.toNat ++ List.replicate (n.toNat - pixel_buffer.length) 0)
  else none

section RenderPipeline

variable {K : Type} [LinearOrderedField K] [FloorRing K]

/-- The colour `renderTile` computes for the pixel `(x, y)` of the tile: the statements
"Convert screen coordinates", "Compute fractal" and "Get color" of the loop body. -/
def FractalEngine.renderTile.pixelColor (size_bits : Nat) (log : K → K)
    (x_start y_start : Int) (viewport : Viewport K) (params : RenderParams K)
    (type : FractalType) (julia_c_real julia_c_imag : K) (palette : ColorPalette)
    (x y : Int) : Color :=
  let complex :=
    FractalEngine.screenToComplex (wrap32 (x_start + x)) (wrap32 (y_start + y)) viewport
  let point :=
    if type = FractalType.MANDELBROT then
      FractalEngine.computeMandelbrot log complex.1 complex.2 params
    else
      FractalEngine.computeJulia log complex.1 complex.2 julia_c_real julia_c_imag params
  palette.getColor size_bits point.smooth_value params.max_iterations

/-- The four writes "Write to buffer" of the loop body of `renderTile`. -/
def FractalEngine.renderTile.writePixel (tile_width : Int) (pixel_buffer : List Nat)
    (x y : Int) (color : Color) : Option (List Nat) :=
  let offset := wrap32 (wrap32 (wrap32 (y * tile_width) + x) * 4)
  (writeByte pixel_buffer (wrap32 (offset + 0)) color.r).bind fun b1 =>
  (writeByte b1 (wrap32 (offset + 1)) color.g).bind fun b2 =>
  (writeByte b2 (wrap32 (offset + 2)) color.b).bind fun b3 =>
  writeByte b3 (wrap32 (offset + 3)) color.a

/-- `FractalEngine::renderTile`: the final contents of `pixel_buffer`, or `none` when the
allocation fails or a write falls outside the vector.  The counters of the two `for` loops
run over `0 .. tile_height - 1` and `0 .. tile_width - 1`. -/
def FractalEngine.renderTile (size_bits : Nat) (log : K → K)
    (x_start y_start tile_width tile_height : Int) (viewport : Viewport K)
    (params : RenderParams K) (type : FractalType) (julia_c_real julia_c_imag : K)
    (pixel_buffer : List Nat) : Option (List Nat) :=
  let palette := ColorPalette.new.initPalette params.palette_id
  (resizeBuffer pixel_buffer (wrap32 (wrap32 (tile_width * tile_height) * 4))).bind fun buf0 =>
  (List.range tile_height.toNat).foldlM
    (fun (buf : List Nat) (y : Nat) =>
      (List.range tile_width.toNat).foldlM
        (fun (buf : List Nat) (x : Nat) =>
          FractalEngine.renderTile.writePixel tile_width buf (x : Int) (y : Int)
            (FractalEngine.renderTile.pixelColor size_bits log x_start y_start viewport params
              type julia_c_real julia_c_imag palette (x : Int) (y : Int)))
        buf)
    buf0

end RenderPipeline

/-! ## Tile planner (`tile_manager.cpp`) -/

/-- The inner `for` loop of `TileManager::generateTiles` (one row of tiles), started at
column `x` with the vector `tiles` built so far.  `x += tile_size` is a 32-bit addition. -/
def TileManager.generateTiles.rowLoop (viewport_width viewport_height tile_size y : Int) :
    Nat → Int → List Tile → Option (List Tile)
  | 0, _, _ => none
  | fuel + 1, x, tiles =>
    if x < viewport_width then
      let tile_width := min tile_size (wrap32 (viewport_width - x))
      let tile_height := min tile_size (wrap32 (viewport_height - y))
      TileManager.generateTiles.rowLoop viewport_width viewport_height tile_size y fuel
        (wrap32 (x + tile_size)) (tiles ++ [⟨x, y, tile_width, tile_height⟩])
    else some tiles

/-- The outer `for` loop of `TileManager::generateTiles`, started at row `y`. -/
def TileManager.generateTiles.colLoop (viewport_width viewport_height tile_size : Int)
    (rowFuel : Nat) : Nat → Int → List Tile → Option (List Tile)
  | 0, _, _ => none
  | fuel + 1, y, tiles =>
    if y < viewport_height then
      match TileManager.generateTiles.rowLoop viewport_width viewport_height tile_size y
          rowFuel 0 tiles with
      | none => none
      | some tiles1 =>
        TileManager.generateTiles.colLoop viewport_width viewport_height tile_size rowFuel fuel
          (wrap32 (y + tile_size)) tiles1
    else some tiles

/-- `TileManager::generateTiles`.  Each of the two loops may run `fuel` iterations; the
result is `none` when a loop has not finished by then. -/
def TileManager.generateTiles (fuel : Nat) (viewport_width viewport_height tile_size : Int) :
    Option (List Tile) :=
  TileManager.generateTiles.colLoop viewport_width viewport_height tile_size fuel fuel 0 []

/-- `TileManager::sortByDistanceFromCenter`; the vector sorted in place is returned.
`std::sort` and `std::hypot` are library functions, taken as the parameters `sort` (applied
to the comparison lambda and the vector) and `hypot`. -/
def TileManager.sortByDistanceFromCenter {K : Type} [LinearOrderedField K]
    (sort : (Tile → Tile → Bool) → List Tile → List Tile) (hypot : K → K → K)
    (tiles : List Tile) (viewport_width viewport_height : Int) : List Tile :=
  let center_x : K := (viewport_width : K) / 2.0
  let center_y : K := (viewport_height : K) / 2.0
  sort (fun a b =>
    let a_center_x : K := (a.x : K) + (a.width : K) / 2.0
    let a_center_y : K := (a.y : K) + (a.height : K) / 2.0
    let b_center_x : K := (b.x : K) + (b.width : K) / 2.0
    let b_center_y : K := (b.y : K) + (b.height : K) / 2.0
    let dist_a := hypot (a_center_x - center_x) (a_center_y - center_y)
    let dist_b := hypot (b_center_x - center_x) (b_center_y - center_y)
    decide (dist_a < dist_b)) tiles

/-- The pixel `(px, py)` lies in the rectangle of tile `t`. -/
def Tile.contains (t : Tile) (px py : Int) : Bool :=
  decide (t.x ≤ px) && decide (px < t.x + t.width) &&
    decide (t.y ≤ py) && decide (py < t.y + t.height)

/-! ## Reachable palette states -/

/-- A call of one of the two mutating member functions of `ColorPalette`. -/
inductive PaletteCall where
  | initPalette (palette_id : Int)
  | setCustomColors (colors : List Color)

/-- The effect of one call on a palette. -/
def ColorPalette.call (self : ColorPalette) : PaletteCall → ColorPalette
  | PaletteCall.initPalette palette_id => self.initPalette palette_id
  | PaletteCall.setCustomColors colors => self.setCustomColors colors

/-- The palette reached from a freshly constructed one by a sequence of calls. -/
def ColorPalette.afterCalls (calls : List PaletteCall) : ColorPalette :=
  calls.foldl ColorPalette.call ColorPalette.new

/-! ## IEEE 754 binary64 arithmetic (`double` with rounding)

The definitions above evaluate `double` expressions in exact arithmetic.  The definitions
of this section evaluate the same source expressions the way the compiled program does:
every `double` operation delivers the exact result rounded to the nearest binary64 value,
each operation rounded on its own (no fused multiply-add, as on x86-64 and WebAssembly).
A finite `double` is the rational number it denotes; `none` stands for a result that is not
finite (an infinity or a NaN).  Conversions from `int` to `double` are exact. -/

/-- Rounding of a rational to the nearest integer, a tie going to the even neighbour. -/
def roundHalfEven (y : ℚ) : Int :=
  if y - (⌊y⌋ : ℚ) < 1 / 2 then ⌊y⌋
  else if 1 / 2 < y - (⌊y⌋ : ℚ) then ⌊y⌋ + 1
  else if ⌊y⌋ % 2 = 0 then ⌊y⌋ else ⌊y⌋ + 1

/-- IEEE 754 binary64 rounding (to nearest, ties to even) of an exact result `x`: the value
keeps 53 significant bits, its last place has exponent at least `-1074`, and the result is
`none` when the rounded value is not finite (`2^1024` or more in magnitude). -/
def F64.round (x : ℚ) : Option ℚ :=
  let q : Int := max (Int.log 2 |x| - 52) (-1074)
  let r : ℚ := (roundHalfEven (x / (2 : ℚ) ^ q) : ℚ) * (2 : ℚ) ^ q
  if |r| < (2 : ℚ) ^ (1024 : Int) then some r else none

/-- The `double` operation `a + b`. -/
def F64.add (a b : ℚ) : Option ℚ := F64.round (a + b)

/-- The `double` operation `a - b`. -/
def F64.sub (a b : ℚ) : Option ℚ := F64.round (a - b)

/-- The `double` operation `a * b`. -/
def F64.mul (a b : ℚ) : Option ℚ := F64.round (a * b)

/-- The `double` operation `a / b`; a zero divisor gives no finite value. -/
def F64.div (a b : ℚ) : Option ℚ := if b = 0 then none else F64.round (a / b)

/-- `FractalEngine::screenToComplex` in binary64 arithmetic; the two output parameters are
returned as a pair. -/
def FractalEngine.screenToComplexF64 (screen_x screen_y : Int) (viewport : Viewport ℚ) :
    Option ℚ × Option ℚ :=
  ((F64.div (viewport.width : ℚ) 2).bind fun half_width =>
    (F64.sub (screen_x : ℚ) half_width).bind fun offset_x =>
    (F64.mul offset_x viewport.scale).bind fun scaled_x =>
    F64.add scaled_x viewport.center_x,
   (F64.div (viewport.height : ℚ) 2).bind fun half_height =>
    (F64.sub (screen_y : ℚ) half_height).bind fun offset_y =>
    (F64.mul offset_y viewport.scale).bind fun scaled_y =>
    F64.add scaled_y viewport.center_y)

/-- `ViewportManager::zoom` in binary64 arithmetic; each `double` field of the result is a
value of its own, finite or not. -/
def ViewportManager.zoomF64 (current : Viewport ℚ) (factor : ℚ) (focus_x focus_y : Int) :
    Viewport (Option ℚ) :=
  let focus_real :=
    (F64.div (current.width : ℚ) 2).bind fun half_width =>
    (F64.sub (focus_x : ℚ) half_width).bind fun offset_x =>
    (F64.mul offset_x current.scale).bind fun scaled_x =>
    F64.add scaled_x current.center_x
  let focus_imag :=
    (F64.div (current.height : ℚ) 2).bind fun half_height =>
    (F64.sub (focus_y : ℚ) half_height).bind fun offset_y =>
    (F64.mul offset_y current.scale).bind fun scaled_y =>
    F64.add scaled_y current.center_y
  let result_scale := F64.mul current.scale factor
  let new_focus_real :=
    (F64.div (current.width : ℚ) 2).bind fun half_width =>
    (F64.sub (focus_x : ℚ) half_width).bind fun offset_x =>
    result_scale.bind fun scale =>
    (F64.mul offset_x scale).bind fun scaled_x =>
    F64.add scaled_x current.center_x
  let new_focus_imag :=
    (F64.div (current.height : ℚ) 2).bind fun half_height =>
    (F64.sub (focus_y : ℚ) half_height).bind fun offset_y =>
    result_scale.bind fun scale =>
    (F64.mul offset_y scale).bind fun scaled_y =>
    F64.add scaled_y current.center_y
  { center_x :=
      new_focus_real.bind fun n => focus_real.bind fun f =>
      (F64.sub n f).bind fun d => F64.sub current.center_x d
    center_y :=
      new_focus_imag.bind fun n => focus_imag.bind fun f =>
      (F64.sub n f).bind fun d => F64.sub current.center_y d
    scale := result_scale
    width := current.width
    height := current.height }

/-- `ViewportManager::pan` in binary64 arithmetic. -/
def ViewportManager.panF64 (current : Viewport ℚ) (dx dy : Int) : Viewport (Option ℚ) :=
  { center_x := (F64.mul (dx : ℚ) current.scale).bind fun d => F64.sub current.center_x d
    center_y := (F64.mul (dy : ℚ) current.scale).bind fun d => F64.sub current.center_y d
    scale := some current.scale
    width := current.width
    height := current.height }

/-- One channel of `ColorPalette::interpolateColors` in binary64 arithmetic: the value
`c1 + t * (c2 - c1)` before its conversion to `uint8_t`. -/
def ColorPalette.interpolateColorsF64.channel (c1 c2 : Nat) (t : ℚ) : Option ℚ :=
  (F64.mul t ((((c2 : Int) - (c1 : Int) : Int)) : ℚ)).bind fun d => F64.add (c1 : ℚ) d

/-- `ColorPalette::interpolateColors` in binary64 arithmetic. -/
def ColorPalette.interpolateColorsF64 (c1 c2 : Color) (t : ℚ) : Option Color :=
  let t := max 0 (min 1 t)
  (ColorPalette.interpolateColorsF64.channel c1.r c2.r t).bind fun r =>
  (ColorPalette.interpolateColorsF64.channel c1.g c2.g t).bind fun g =>
  (ColorPalette.interpolateColorsF64.channel c1.b c2.b t).bind fun b =>
  (ColorPalette.interpolateColorsF64.channel c1.a c2.a t).bind fun a =>
  some ⟨toUInt8 r, toUInt8 g, toUInt8 b, toUInt8 a⟩

/-- `ColorPalette::getColor` in binary64 arithmetic, with the integer conversions of the
exact version; `palette_.size()` is converted to `double` for the product. -/
def ColorPalette.getColorF64 (size_bits : Nat) (self : ColorPalette) (smooth_value : ℚ)
    (max_iterations : Int) : Option Color :=
  if smooth_value ≥ (max_iterations : ℚ) then some ⟨0, 0, 0, 255⟩
  else
    let size : Nat := self.palette_.length
    (F64.div smooth_value (max_iterations : ℚ)).bind fun normalized =>
    (F64.round (size : ℚ)).bind fun size_d =>
    (F64.mul normalized size_d).bind fun palette_index =>
    let index1 : Int :=
      wrap32 (((wrap32 (truncToInt palette_index) % (2 : Int) ^ size_bits) % (size : Int)))
    let index2 : Int :=
      wrap32 (((wrap32 (index1 + 1) % (2 : Int) ^ size_bits) % (size : Int)))
    (F64.sub palette_index (⌊palette_index⌋ : ℚ)).bind fun t =>
    ColorPalette.interpolateColorsF64
      (self.palette_.getD (index1 % (2 : Int) ^ size_bits).toNat ⟨0, 0, 0, 255⟩)
      (self.palette_.getD (index2 % (2 : Int) ^ size_bits).toNat ⟨0, 0, 0, 255⟩) t

/-! ## Specification-side definitions used by the statements -/

/-- The numeric value of a `RenderPass` enumerator. -/
def RenderPass.toNat : RenderPass → Nat
  | RenderPass.PASS_PREVIEW => 0
  | RenderPass.PASS_LOW => 1
  | RenderPass.PASS_MEDIUM => 2
  | RenderPass.PASS_HIGH => 3

/-- Number of steps of size `b` needed to cover `a`: `ceil (a / b)` for positive `a`, `b`. -/
def ceilDiv (a b : Int) : Nat := ((a + b - 1) / b).toNat

/-- The tile in column `k` of row `r` of the raster scan described for `generateTiles`:
origin `(k * tile_size, r * tile_size)`, size `tile_size` clipped at the right and bottom
edges of the viewport. -/
def TileManager.gridTile (viewport_width viewport_height tile_size : Int) (r k : Nat) : Tile :=
  ⟨(k : Int) * tile_size, (r : Int) * tile_size,
    min tile_size (viewport_width - (k : Int) * tile_size),
    min tile_size (viewport_height - (r : Int) * tile_size)⟩

/-- The row-major raster scan described for `generateTiles`:
`ceil (H / tile_size)` rows of `ceil (W / tile_size)` tiles each. -/
def TileManager.gridTiles (viewport_width viewport_height tile_size : Int) : List Tile :=
  (List.range (ceilDiv viewport_height tile_size)).flatMap fun r =>
    (List.range (ceilDiv viewport_width tile_size)).map fun k =>
      TileManager.gridTile viewport_width viewport_height tile_size r k

/-- The total pixel area of a list of tiles. -/
def TileManager.totalArea (tiles : List Tile) : Int :=
  (tiles.map fun t => t.width * t.height).sum

/-- The four bytes `renderTile` stores for a pixel of colour `c`, in buffer order. -/
def Color.bytes (c : Color) : List Nat := [c.r, c.g, c.b, c.a]

/-- The colour the render pipeline is specified to give the pixel at the absolute screen
coordinate `(screen_x, screen_y)`: the palette `initPalette(params.palette_id)` applied to
the smooth value of the selected evaluator (Mandelbrot, else Julia with the given seed) at
`screenToComplex(screen_x, screen_y, viewport)`. -/
def FractalEngine.colorAt {K : Type} [LinearOrderedField K] [FloorRing K] (size_bits : Nat)
    (log : K → K) (viewport : Viewport K) (params : RenderParams K) (type : FractalType)
    (julia_c_real julia_c_imag : K) (screen_x screen_y : Int) : Color :=
  let complex := FractalEngine.screenToComplex screen_x screen_y viewport
  let point :=
    if type = FractalType.MANDELBROT then
      Mandelbrot.compute log complex.1 complex.2 params.max_iterations params.bailout_radius
        params.smooth_coloring
    else
      Julia.compute log complex.1 complex.2 julia_c_real julia_c_imag params.max_iterations
        params.bailout_radius params.smooth_coloring
  (ColorPalette.new.initPalette params.palette_id).getColor size_bits point.smooth_value
    params.max_iterations

/-- The plain iteration `z ↦ z ^ 2 + c` from `z = 0`, on real and imaginary parts: the value
`z_n` after `n` steps, without short-circuits, bailout test or iteration cap. -/
def Mandelbrot.plainOrbit {K : Type} [LinearOrderedField K] (c_real c_imag : K) : Nat → K × K
  | 0 => (0, 0)
  | n + 1 =>
    ((Mandelbrot.plainOrbit c_real c_imag n).1 * (Mandelbrot.plainOrbit c_real c_imag n).1
        - (Mandelbrot.plainOrbit c_real c_imag n).2 * (Mandelbrot.plainOrbit c_real c_imag n).2
        + c_real,
      2 * (Mandelbrot.plainOrbit c_real c_imag n).1 * (Mandelbrot.plainOrbit c_real c_imag n).2
        + c_imag)

/-- The requirement of the C++ standard on a comparison passed to `std::sort`: it induces a
strict weak ordering (irreflexive, transitive, and with a transitive incomparability). -/
def IsStrictWeakOrdering (comp : Tile → Tile → Bool) : Prop :=
  (∀ a, comp a a = false) ∧
  (∀ a b c, comp a b = true → comp b c = true → comp a c = true) ∧
  (∀ a b c, comp a b = false → comp b a = false → comp b c = false → comp c b = false →
    comp a c = false ∧ comp c a = false)

/-- The contract of the C++ standard for `std::sort`: given a strict weak ordering, the
result is a rearrangement of the input in which no element compares less than an earlier
one. -/
def StdSortContract (sort : (Tile → Tile → Bool) → List Tile → List Tile) : Prop :=
  ∀ comp, IsStrictWeakOrdering comp → ∀ l : List Tile,
    (sort comp l).Perm l ∧ (sort comp l).Pairwise (fun a b => comp b a = false)

/-- Insertion sort with a C++-style "less than" comparison: one function that meets the
contract of `std::sort`. -/
def insertionSortBy (comp : Tile → Tile → Bool) (l : List Tile) : List Tile :=
  l.insertionSort (fun a b => comp b a = false)

/-- Every channel of the colour is a `uint8_t` value. -/
def Color.valid (c : Color) : Prop := c.r < 256 ∧ c.g < 256 ∧ c.b < 256 ∧ c.a < 256

instance (c : Color) : Decidable c.valid := by
  unfold Color.valid; infer_instance

/-- One channel of the linear blend described for `getColor`: the integer part of
`c1 + t * (c2 - c1)`. -/
def blendChannel {K : Type} [LinearOrderedField K] [FloorRing K] (c1 c2 : Nat) (t : K) : Nat :=
  ⌊(c1 : K) + t * ((c2 : K) - (c1 : K))⌋.toNat

/-- A palette of `m + 7` colours, black except for two white entries at positions 5 and 6. -/
def ColorPalette.twoWhite (m : Nat) : ColorPalette :=
  ⟨List.replicate 5 ⟨0, 0, 0, 255⟩ ++
    (⟨255, 255, 255, 255⟩ :: ⟨255, 255, 255, 255⟩ :: List.replicate m ⟨0, 0, 0, 255⟩)⟩

/-- The three channel values of a palette entry before their conversion to `uint8_t` all lie
in `[0, 256)`, so the conversion does not wrap. -/
def channelsInRange (c : ℚ × ℚ × ℚ) : Prop :=
  (0 ≤ c.1 ∧ c.1 < 256) ∧ (0 ≤ c.2.1 ∧ c.2.1 < 256) ∧ (0 ≤ c.2.2 ∧ c.2.2 < 256)

instance (c : ℚ × ℚ × ℚ) : Decidable (channelsInRange c) := by
  unfold channelsInRange; infer_instance

/-- The palette entry at the cyclic index `i`: `palette_[i mod n]`. -/
def ColorPalette.entryAt (self : ColorPalette) (i : Int) : Color :=
  self.palette_.getD (i % (self.palette_.length : Int)).toNat ⟨0, 0, 0, 255⟩

/-- Every channel of `out` lies between the corresponding channels of `c1` and `c2`. -/
def Color.between (out c1 c2 : Color) : Prop :=
  (min c1.r c2.r ≤ out.r ∧ out.r ≤ max c1.r c2.r) ∧
  (min c1.g c2.g ≤ out.g ∧ out.g ≤ max c1.g c2.g) ∧
  (min c1.b c2.b ≤ out.b ∧ out.b ≤ max c1.b c2.b) ∧
  (min c1.a c2.a ≤ out.a ∧ out.a ≤ max c1.a c2.a)

instance (out c1 c2 : Color) : Decidable (out.between c1 c2) := by
  unfold Color.between; infer_instance

/-! # Theorems -/

/-! ## The escape-time evaluators: iteration bounds -/

section EvaluatorLemmas

variable {K : Type} [LinearOrderedField K]

/-- What the loop of `Mandelbrot::compute` guarantees on exit: the counter has not
decreased, has not passed `max_iterations`, and the loop condition is false. -/
theorem mandelbrot_loop_spec (c_real c_imag : K) (max_iterations : Int) (bailout_radius : K)
    (s : IterState K) :
    s.iter ≤ (Mandelbrot.compute.loop c_real c_imag max_iterations bailout_radius s).iter ∧
    (s.iter ≤ max_iterations →
      (Mandelbrot.compute.loop c_real c_imag max_iterations bailout_radius s).iter
        ≤ max_iterations) ∧
    ¬ ((Mandelbrot.compute.loop c_real c_imag max_iterations bailout_radius s).z_real2 +
        (Mandelbrot.compute.loop c_real c_imag max_iterations bailout_radius s).z_imag2
          ≤ bailout_radius ∧
      (Mandelbrot.compute.loop c_real c_imag max_iterations bailout_radius s).iter
        < max_iterations) := by
  induction s using Mandelbrot.compute.loop.induct c_real c_imag max_iterations bailout_radius with
  | case1 s h z_imag z_real ih =>
    rw [Mandelbrot.compute.loop, if_pos h]
    simp only at ih ⊢
    exact ⟨by linarith [ih.1], fun _ => ih.2.1 (by omega), ih.2.2⟩
  | case2 s h =>
    rw [Mandelbrot.compute.loop, if_neg h]
    exact ⟨le_refl _, fun h => h, h⟩

/-- What the loop of `Julia::compute` guarantees on exit. -/
theorem julia_loop_spec (c_real c_imag : K) (max_iterations : Int) (bailout_radius : K)
    (s : IterState K) :
    s.iter ≤ (Julia.compute.loop c_real c_imag max_iterations bailout_radius s).iter ∧
    (s.iter ≤ max_iterations →
      (Julia.compute.loop c_real c_imag max_iterations bailout_radius s).iter
        ≤ max_iterations) ∧
    ¬ ((Julia.compute.loop c_real c_imag max_iterations bailout_radius s).z_real2 +
        (Julia.compute.loop c_real c_imag max_iterations bailout_radius s).z_imag2
          ≤ bailout_radius ∧
      (Julia.compute.loop c_real c_imag max_iterations bailout_radius s).iter
        < max_iterations) := by
  induction s using Julia.compute.loop.induct c_real c_imag max_iterations bailout_radius with
  | case1 s h z_imag z_real ih =>
    rw [Julia.compute.loop, if_pos h]
    simp only at ih ⊢
    exact ⟨by linarith [ih.1], fun _ => ih.2.1 (by omega), ih.2.2⟩
  | case2 s h =>
    rw [Julia.compute.loop, if_neg h]
    exact ⟨le_refl _, fun h => h, h⟩

/-- The fields of `smoothResult` that do not depend on the logarithm. -/
theorem smoothResult_iterations (log : K → K) (s : IterState K) (max_iterations : Int)
    (smooth_coloring : Bool) :
    (smoothResult log s max_iterations smooth_coloring).iterations = s.iter ∧
    (smoothResult log s max_iterations smooth_coloring).inside_set
      = decide (s.iter ≥ max_iterations) := by
  unfold smoothResult
  dsimp only
  split <;> exact ⟨rfl, rfl⟩

/-- When the counter reached `max_iterations`, or smooth colouring is off, `smoothResult`
stores the counter as the smooth value. -/
theorem smoothResult_smooth_value_plain (log : K → K) (s : IterState K) (max_iterations : Int)
    (smooth_coloring : Bool) (h : smooth_coloring = false ∨ max_iterations ≤ s.iter) :
    (smoothResult log s max_iterations smooth_coloring).smooth_value = (s.iter : K) := by
  unfold smoothResult
  dsimp only
  split
  · rename_i hc
    rcases h with h | h
    · simp [h] at hc
    · omega
  · rfl

end EvaluatorLemmas

/-- C4: for every input point, `max_iterations > 0` and bailout radius, the result of
`Mandelbrot::compute` and of `Julia::compute` has `0 <= iterations <= max_iterations` and
`inside_set` is true exactly when `iterations == max_iterations`.  Both loops are total
functions whose counter starts at 0 and counts the steps taken, so they stop after at most
`max_iterations` steps. -/
theorem C4_iterations_bounded {K : Type} [LinearOrderedField K] (log : K → K)
    (p_real p_imag c_real c_imag : K) (max_iterations : Int) (bailout_radius : K)
    (smooth_coloring : Bool) (hmax : 0 < max_iterations) :
    (0 ≤ (Mandelbrot.compute log p_real p_imag max_iterations bailout_radius
            smooth_coloring).iterations ∧
      (Mandelbrot.compute log p_real p_imag max_iterations bailout_radius
            smooth_coloring).iterations ≤ max_iterations ∧
      ((Mandelbrot.compute log p_real p_imag max_iterations bailout_radius
            smooth_coloring).inside_set = true ↔
        (Mandelbrot.compute log p_real p_imag max_iterations bailout_radius
            smooth_coloring).iterations = max_iterations)) ∧
    (0 ≤ (Julia.compute log p_real p_imag c_real c_imag max_iterations bailout_radius
            smooth_coloring).iterations ∧
      (Julia.compute log p_real p_imag c_real c_imag max_iterations bailout_radius
            smooth_coloring).iterations ≤ max_iterations ∧
      ((Julia.compute log p_real p_imag c_real c_imag max_iterations bailout_radius
            smooth_coloring).inside_set = true ↔
        (Julia.compute log p_real p_imag c_real c_imag max_iterations bailout_radius
            smooth_coloring).iterations = max_iterations)) := by
  constructor
  · unfold Mandelbrot.compute
    split
    · exact ⟨le_of_lt hmax, le_refl _, by simp⟩
    · split
      · exact ⟨le_of_lt hmax, le_refl _, by simp⟩
      · have hl := mandelbrot_loop_spec p_real p_imag max_iterations bailout_radius
          ⟨0.0, 0.0, 0.0, 0.0, 0⟩
        rw [(smoothResult_iterations _ _ _ _).1, (smoothResult_iterations _ _ _ _).2]
        have h1 := hl.1
        have h2 := hl.2.1 (le_of_lt hmax)
        simp only at h1 h2
        refine ⟨h1, h2, ?_⟩
        simp only [ge_iff_le, decide_eq_true_eq]
        omega
  · unfold Julia.compute
    have hl := julia_loop_spec c_real c_imag max_iterations bailout_radius
      ⟨p_real, p_imag, p_real * p_real, p_imag * p_imag, 0⟩
    rw [(smoothResult_iterations _ _ _ _).1, (smoothResult_iterations _ _ _ _).2]
    have h1 := hl.1
    have h2 := hl.2.1 (le_of_lt hmax)
    simp only at h1 h2
    refine ⟨h1, h2, ?_⟩
    simp only [ge_iff_le, decide_eq_true_eq]
    omega

/-- Witness of C4 at the point `(2, 2)` with 10 iterations and bailout radius 4. -/
theorem C4_iterations_bounded_witness :
    (0 ≤ (Mandelbrot.compute (fun x : ℚ => x) 2 2 10 4 true).iterations ∧
      (Mandelbrot.compute (fun x : ℚ => x) 2 2 10 4 true).iterations ≤ 10 ∧
      ((Mandelbrot.compute (fun x : ℚ => x) 2 2 10 4 true).inside_set = true ↔
        (Mandelbrot.compute (fun x : ℚ => x) 2 2 10 4 true).iterations = 10)) ∧
    (0 ≤ (Julia.compute (fun x : ℚ => x) 2 2 0 1 10 4 true).iterations ∧
      (Julia.compute (fun x : ℚ => x) 2 2 0 1 10 4 true).iterations ≤ 10 ∧
      ((Julia.compute (fun x : ℚ => x) 2 2 0 1 10 4 true).inside_set = true ↔
        (Julia.compute (fun x : ℚ => x) 2 2 0 1 10 4 true).iterations = 10)) :=
  C4_iterations_bounded (fun x : ℚ => x) 2 2 0 1 10 4 true (by decide)

/-- C6: for both evaluators and every `max_iterations > 0`, a result with
`inside_set == true` has `smooth_value == max_iterations`, and with smooth colouring
disabled `smooth_value == iterations`. -/
theorem C6_smooth_value_plain {K : Type} [LinearOrderedField K] (log : K → K)
    (p_real p_imag c_real c_imag : K) (max_iterations : Int) (bailout_radius : K)
    (smooth_coloring : Bool) (hmax : 0 < max_iterations) :
    (((Mandelbrot.compute log p_real p_imag max_iterations bailout_radius
            smooth_coloring).inside_set = true →
        (Mandelbrot.compute log p_real p_imag max_iterations bailout_radius
            smooth_coloring).smooth_value = (max_iterations : K)) ∧
      (smooth_coloring = false →
        (Mandelbrot.compute log p_real p_imag max_iterations bailout_radius
            smooth_coloring).smooth_value =
          ((Mandelbrot.compute log p_real p_imag max_iterations bailout_radius
            smooth_coloring).iterations : K))) ∧
    (((Julia.compute log p_real p_imag c_real c_imag max_iterations bailout_radius
            smooth_coloring).inside_set = true →
        (Julia.compute log p_real p_imag c_real c_imag max_iterations bailout_radius
            smooth_coloring).smooth_value = (max_iterations : K)) ∧
      (smooth_coloring = false →
        (Julia.compute log p_real p_imag c_real c_imag max_iterations bailout_radius
            smooth_coloring).smooth_value =
          ((Julia.compute log p_real p_imag c_real c_imag max_iterations bailout_radius
            smooth_coloring).iterations : K))) := by
  constructor
  · unfold Mandelbrot.compute
    split
    · exact ⟨fun _ => rfl, fun _ => rfl⟩
    · split
      · exact ⟨fun _ => rfl, fun _ => rfl⟩
      · have hl := mandelbrot_loop_spec p_real p_imag max_iterations bailout_radius
          ⟨0.0, 0.0, 0.0, 0.0, 0⟩
        have h2 := hl.2.1 (le_of_lt hmax)
        rw [(smoothResult_iterations _ _ _ _).1, (smoothResult_iterations _ _ _ _).2]
        constructor
        · intro hin
          simp only [ge_iff_le, decide_eq_true_eq] at hin
          rw [smoothResult_smooth_value_plain _ _ _ _ (Or.inr hin)]
          have : (Mandelbrot.compute.loop p_real p_imag max_iterations bailout_radius
              ⟨0.0, 0.0, 0.0, 0.0, 0⟩).iter = max_iterations := le_antisymm h2 hin
          rw [this]
        · intro hs
          rw [smoothResult_smooth_value_plain _ _ _ _ (Or.inl hs)]
  · unfold Julia.compute
    have hl := julia_loop_spec c_real c_imag max_iterations bailout_radius
      ⟨p_real, p_imag, p_real * p_real, p_imag * p_imag, 0⟩
    have h2 := hl.2.1 (le_of_lt hmax)
    rw [(smoothResult_iterations _ _ _ _).1, (smoothResult_iterations _ _ _ _).2]
    constructor
    · intro hin
      simp only [ge_iff_le, decide_eq_true_eq] at hin
      rw [smoothResult_smooth_value_plain _ _ _ _ (Or.inr hin)]
      have : (Julia.compute.loop c_real c_imag max_iterations bailout_radius
          ⟨p_real, p_imag, p_real * p_real, p_imag * p_imag, 0⟩).iter = max_iterations :=
        le_antisymm h2 hin
      rw [this]
    · intro hs
      rw [smoothResult_smooth_value_plain _ _ _ _ (Or.inl hs)]

/-- Witness of C6 at the point `(2, 2)` with 10 iterations and bailout radius 4. -/
theorem C6_smooth_value_plain_witness :
    (((Mandelbrot.compute (fun x : ℚ => x) 2 2 10 4 false).inside_set = true →
        (Mandelbrot.compute (fun x : ℚ => x) 2 2 10 4 false).smooth_value = ((10 : Int) : ℚ)) ∧
      (false = false →
        (Mandelbrot.compute (fun x : ℚ => x) 2 2 10 4 false).smooth_value =
          ((Mandelbrot.compute (fun x : ℚ => x) 2 2 10 4 false).iterations : ℚ))) ∧
    (((Julia.compute (fun x : ℚ => x) 2 2 0 1 10 4 false).inside_set = true →
        (Julia.compute (fun x : ℚ => x) 2 2 0 1 10 4 false).smooth_value = ((10 : Int) : ℚ)) ∧
      (false = false →
        (Julia.compute (fun x : ℚ => x) 2 2 0 1 10 4 false).smooth_value =
          ((Julia.compute (fun x : ℚ => x) 2 2 0 1 10 4 false).iterations : ℚ))) :=
  C6_smooth_value_plain (fun x : ℚ => x) 2 2 0 1 10 4 false (by decide)

/-! ## Viewport mapper -/

/-- C2: in exact arithmetic, zooming about the integer focus point `(fx, fy)` leaves the
complex coordinate under that point unchanged, in both coordinates.  This holds for every
`factor`, in particular for every `factor > 0`. -/
theorem C2_zoom_focus_invariant {K : Type} [LinearOrderedField K] (viewport : Viewport K)
    (factor : K) (fx fy : Int) :
    FractalEngine.screenToComplex fx fy (ViewportManager.zoom viewport factor fx fy)
      = FractalEngine.screenToComplex fx fy viewport := by
  unfold FractalEngine.screenToComplex ViewportManager.zoom
  ext
  · simp only
    ring
  · simp only
    ring

/-! ## Progressive pass scheduler -/

/-- Truncating division of an `int` by a positive constant stays between 0 and the dividend
when the dividend is non-negative, and is non-positive otherwise. -/
theorem tdiv_bounds (a : Int) (k : Int) (hk : 0 < k) :
    (0 ≤ a → Int.tdiv a k = a / k) ∧ (a < 0 → Int.tdiv a k ≤ 0) := by
  constructor
  · intro ha
    exact Int.tdiv_eq_ediv ha (le_of_lt hk)
  · intro ha
    have h1 : 0 ≤ Int.tdiv (-a) k := Int.tdiv_nonneg (by omega) (le_of_lt hk)
    rw [Int.neg_tdiv] at h1
    omega

/-- C3, counterexample: for `base_max_iterations = 100` the Medium pass gets 500 iterations
and the later High pass only 100. -/
theorem C3_passes_monotone_counterexample :
    ¬ ((ProgressiveRenderer.getPassParams (K := ℚ) RenderPass.PASS_MEDIUM 100).max_iterations
        ≤ (ProgressiveRenderer.getPassParams (K := ℚ) RenderPass.PASS_HIGH 100).max_iterations) := by
  decide

/-- C3, amended: for any base budget, a later pass `q` never has a smaller
`resolution_scale` than an earlier pass `p`, and never a smaller `max_iterations` either
when `q` is not the High pass or the base budget is at least 500. -/
theorem C3_passes_monotone {K : Type} [LinearOrderedField K] (base_max_iterations : Int)
    (p q : RenderPass) (hpq : p.toNat ≤ q.toNat) :
    (ProgressiveRenderer.getPassParams (K := K) p base_max_iterations).resolution_scale
      ≤ (ProgressiveRenderer.getPassParams (K := K) q base_max_iterations).resolution_scale ∧
    (q ≠ RenderPass.PASS_HIGH ∨ 500 ≤ base_max_iterations →
      (ProgressiveRenderer.getPassParams (K := K) p base_max_iterations).max_iterations
        ≤ (ProgressiveRenderer.getPassParams (K := K) q base_max_iterations).max_iterations) := by
  have h10 := tdiv_bounds base_max_iterations 10 (by norm_num)
  have h5 := tdiv_bounds base_max_iterations 5 (by norm_num)
  have h2 := tdiv_bounds base_max_iterations 2 (by norm_num)
  constructor
  · cases p <;> cases q <;> simp [RenderPass.toNat] at hpq <;>
      simp only [ProgressiveRenderer.getPassParams] <;> norm_num
  · intro hq
    rcases lt_or_le base_max_iterations 0 with hb | hb
    · have a10 := h10.2 hb
      have a5 := h5.2 hb
      have a2 := h2.2 hb
      cases p <;> cases q <;> simp [RenderPass.toNat] at hpq hq <;>
        simp only [ProgressiveRenderer.getPassParams] <;> omega
    · have a10 := h10.1 hb
      have a5 := h5.1 hb
      have a2 := h2.1 hb
      cases p <;> cases q <;> simp [RenderPass.toNat] at hpq hq <;>
        simp only [ProgressiveRenderer.getPassParams] <;> omega

/-- Witness of the amended C3: Preview before Medium with a base budget of 100. -/
theorem C3_passes_monotone_witness :
    (ProgressiveRenderer.getPassParams (K := ℚ) RenderPass.PASS_PREVIEW 100).resolution_scale
      ≤ (ProgressiveRenderer.getPassParams (K := ℚ) RenderPass.PASS_MEDIUM 100).resolution_scale ∧
    (RenderPass.PASS_MEDIUM ≠ RenderPass.PASS_HIGH ∨ (500 : Int) ≤ 100 →
      (ProgressiveRenderer.getPassParams (K := ℚ) RenderPass.PASS_PREVIEW 100).max_iterations
        ≤ (ProgressiveRenderer.getPassParams (K := ℚ) RenderPass.PASS_MEDIUM 100).max_iterations) :=
  C3_passes_monotone 100 RenderPass.PASS_PREVIEW RenderPass.PASS_MEDIUM (by decide)

/-! ## Palette -/

/-- C8: for any palette (built-in or custom) and any `max_iterations`, `getColor` returns
opaque black `(0,0,0,255)` whenever `smooth_value >= max_iterations`; in particular at
`smooth_value = max_iterations`. -/
theorem C8_getColor_inside_black {K : Type} [LinearOrderedField K] [FloorRing K]
    (size_bits : Nat) (palette : ColorPalette) (max_iterations : Int) :
    (∀ smooth_value : K, smooth_value ≥ (max_iterations : K) →
      palette.getColor size_bits smooth_value max_iterations = ⟨0, 0, 0, 255⟩) ∧
    palette.getColor size_bits (max_iterations : K) max_iterations = ⟨0, 0, 0, 255⟩ := by
  have h : ∀ smooth_value : K, smooth_value ≥ (max_iterations : K) →
      palette.getColor size_bits smooth_value max_iterations = ⟨0, 0, 0, 255⟩ := by
    intro smooth_value hge
    unfold ColorPalette.getColor
    rw [if_pos hge]
  exact ⟨h, h _ (le_refl _)⟩

/-- Every built-in generator leaves exactly 256 colours, whatever the palette held. -/
theorem initPalette_length (self : ColorPalette) (palette_id : Int) :
    (self.initPalette palette_id).palette_.length = 256 := by
  unfold ColorPalette.initPalette
  split_ifs <;>
    simp [ColorPalette.generateClassicPalette, ColorPalette.generateRainbowPalette,
      ColorPalette.generateFirePalette, ColorPalette.generateIcePalette,
      ColorPalette.generateGrayscalePalette]

/-- Any sequence of calls applied to a non-empty palette leaves a non-empty palette. -/
theorem foldl_call_ne_nil (calls : List PaletteCall) (start : ColorPalette)
    (hstart : start.palette_ ≠ []) :
    (calls.foldl ColorPalette.call start).palette_ ≠ [] := by
  induction calls generalizing start with
  | nil => exact hstart
  | cons c cs ih =>
    apply ih
    cases c with
    | initPalette palette_id =>
      intro h
      have hlen := initPalette_length start palette_id
      simp only [ColorPalette.call] at h
      rw [h] at hlen
      simp at hlen
    | setCustomColors colors =>
      by_cases hc : colors = []
      · simpa [ColorPalette.call, ColorPalette.setCustomColors, hc] using hstart
      · simp [ColorPalette.call, ColorPalette.setCustomColors, hc]

/-- C10: `setCustomColors` with an empty vector leaves the palette unchanged, with a
non-empty vector it makes the palette equal to that vector, and the palette is non-empty in
every state reached from the constructor by `initPalette` and `setCustomColors` calls. -/
theorem C10_palette_never_empty :
    (∀ self : ColorPalette, self.setCustomColors [] = self) ∧
    (∀ (self : ColorPalette) (colors : List Color), colors ≠ [] →
      (self.setCustomColors colors).palette_ = colors) ∧
    (∀ calls : List PaletteCall, (ColorPalette.afterCalls calls).palette_ ≠ []) := by
  refine ⟨?_, ?_, ?_⟩
  · intro self
    simp [ColorPalette.setCustomColors]
  · intro self colors hne
    simp [ColorPalette.setCustomColors, hne]
  · intro calls
    unfold ColorPalette.afterCalls
    apply foldl_call_ne_nil
    intro h
    have : ColorPalette.new.palette_.length = 256 := by
      simp [ColorPalette.new, ColorPalette.generateClassicPalette]
    simp [h] at this

/-! ## Smooth colouring over the reals -/

/-- The smooth value of an escaped point whose final squared magnitude `m2` exceeds the
bailout radius 4: it is `iter + 1 - log2 (log m2 / 2 / log 2)`, lies below `iter + 1`, and
is at least `iter` exactly when `m2 <= 16`. -/
theorem smoothResult_escaped (s : IterState ℝ) (max_iterations : Int)
    (hiter : s.iter < max_iterations) (hesc : 4 < s.z_real2 + s.z_imag2) :
    (smoothResult Real.log s max_iterations true).smooth_value
      = (s.iter : ℝ) + 1 - Real.logb 2 (Real.log (s.z_real2 + s.z_imag2) / 2 / Real.log 2) ∧
    (smoothResult Real.log s max_iterations true).smooth_value < (s.iter : ℝ) + 1 ∧
    ((s.iter : ℝ) ≤ (smoothResult Real.log s max_iterations true).smooth_value
      ↔ s.z_real2 + s.z_imag2 ≤ 16) := by
  have hval : (smoothResult Real.log s max_iterations true).smooth_value
      = (s.iter : ℝ) + 1 - Real.logb 2 (Real.log (s.z_real2 + s.z_imag2) / 2 / Real.log 2) := by
    unfold smoothResult
    dsimp only
    rw [if_pos ⟨rfl, hiter⟩]
    simp only [Real.logb]
    norm_num
  have hlog2 : 0 < Real.log 2 := Real.log_pos (by norm_num)
  have hm0 : 0 < s.z_real2 + s.z_imag2 := by linarith
  have h4 : Real.log 4 = 2 * Real.log 2 := by
    rw [show (4 : ℝ) = 2 ^ 2 by norm_num, Real.log_pow]
    norm_num
  have h16 : Real.log 16 = 4 * Real.log 2 := by
    rw [show (16 : ℝ) = 2 ^ 4 by norm_num, Real.log_pow]
    norm_num
  have hlt : Real.log 4 < Real.log (s.z_real2 + s.z_imag2) :=
    Real.log_lt_log (by norm_num) hesc
  have hq : 1 < Real.log (s.z_real2 + s.z_imag2) / 2 / Real.log 2 := by
    rw [lt_div_iff₀ hlog2]
    linarith
  have hnu : 0 < Real.logb 2 (Real.log (s.z_real2 + s.z_imag2) / 2 / Real.log 2) :=
    Real.logb_pos (by norm_num) hq
  refine ⟨hval, by rw [hval]; linarith, ?_⟩
  rw [hval]
  have hle : Real.logb 2 (Real.log (s.z_real2 + s.z_imag2) / 2 / Real.log 2) ≤ 1
      ↔ s.z_real2 + s.z_imag2 ≤ 16 := by
    rw [Real.logb_le_iff_le_rpow (by norm_num) (by linarith), Real.rpow_one,
      div_le_iff₀ hlog2, div_le_iff₀ (by norm_num : (0 : ℝ) < 2)]
    constructor
    · intro h
      have h' : Real.log (s.z_real2 + s.z_imag2) ≤ Real.log 16 := by rw [h16]; linarith
      exact (Real.log_le_log_iff hm0 (by norm_num)).1 h'
    · intro h
      have h' := (Real.log_le_log_iff hm0 (by norm_num)).2 h
      rw [h16] at h'
      linarith
  rw [← hle]
  constructor <;> intro h <;> linarith

/-- An escaped result of `Mandelbrot::compute` comes from the iteration loop, which stopped
before `max_iterations` with a squared magnitude above the bailout radius. -/
theorem mandelbrot_compute_escaped {K : Type} [LinearOrderedField K] (log : K → K)
    (c_real c_imag : K) (max_iterations : Int) (bailout_radius : K) (smooth_coloring : Bool)
    (hesc : (Mandelbrot.compute log c_real c_imag max_iterations bailout_radius
      smooth_coloring).inside_set = false) :
    Mandelbrot.compute log c_real c_imag max_iterations bailout_radius smooth_coloring
      = smoothResult log (Mandelbrot.compute.loop c_real c_imag max_iterations bailout_radius
          ⟨0.0, 0.0, 0.0, 0.0, 0⟩) max_iterations smooth_coloring ∧
    (Mandelbrot.compute.loop c_real c_imag max_iterations bailout_radius
          ⟨0.0, 0.0, 0.0, 0.0, 0⟩).iter < max_iterations ∧
    bailout_radius <
      (Mandelbrot.compute.loop c_real c_imag max_iterations bailout_radius
          ⟨0.0, 0.0, 0.0, 0.0, 0⟩).z_real2 +
      (Mandelbrot.compute.loop c_real c_imag max_iterations bailout_radius
          ⟨0.0, 0.0, 0.0, 0.0, 0⟩).z_imag2 := by
  unfold Mandelbrot.compute at hesc ⊢
  by_cases h1 : Mandelbrot.inMainCardioid c_real c_imag = true
  · rw [if_pos h1] at hesc
    exact absurd hesc (by simp)
  by_cases h2 : Mandelbrot.inPeriod2Bulb c_real c_imag = true
  · rw [if_neg h1, if_pos h2] at hesc
    exact absurd hesc (by simp)
  · rw [if_neg h1, if_neg h2] at hesc ⊢
    rw [(smoothResult_iterations _ _ _ _).2] at hesc
    simp only [ge_iff_le, decide_eq_false_iff_not, not_le] at hesc
    have hl := (mandelbrot_loop_spec c_real c_imag max_iterations bailout_radius
      ⟨0.0, 0.0, 0.0, 0.0, 0⟩).2.2
    refine ⟨rfl, hesc, ?_⟩
    by_contra hcon
    exact hl ⟨not_lt.1 hcon, hesc⟩

/-- An escaped result of `Julia::compute`: the loop stopped before `max_iterations` with a
squared magnitude above the bailout radius. -/
theorem julia_compute_escaped {K : Type} [LinearOrderedField K] (log : K → K)
    (z_real z_imag c_real c_imag : K) (max_iterations : Int) (bailout_radius : K)
    (smooth_coloring : Bool)
    (hesc : (Julia.compute log z_real z_imag c_real c_imag max_iterations bailout_radius
      smooth_coloring).inside_set = false) :
    (Julia.compute.loop c_real c_imag max_iterations bailout_radius
          ⟨z_real, z_imag, z_real * z_real, z_imag * z_imag, 0⟩).iter < max_iterations ∧
    bailout_radius <
      (Julia.compute.loop c_real c_imag max_iterations bailout_radius
          ⟨z_real, z_imag, z_real * z_real, z_imag * z_imag, 0⟩).z_real2 +
      (Julia.compute.loop c_real c_imag max_iterations bailout_radius
          ⟨z_real, z_imag, z_real * z_real, z_imag * z_imag, 0⟩).z_imag2 := by
  unfold Julia.compute at hesc
  rw [(smoothResult_iterations _ _ _ _).2] at hesc
  simp only [ge_iff_le, decide_eq_false_iff_not, not_le] at hesc
  have hl := (julia_loop_spec c_real c_imag max_iterations bailout_radius
    ⟨z_real, z_imag, z_real * z_real, z_imag * z_imag, 0⟩).2.2
  refine ⟨hesc, ?_⟩
  by_contra hcon
  exact hl ⟨not_lt.1 hcon, hesc⟩

/-- The loop of `Mandelbrot::compute` at `c = (5, 0)` with bailout radius 4 stops after one
step at `z = 5`. -/
theorem mandelbrot_loop_at_five :
    Mandelbrot.compute.loop (5 : ℝ) 0 10 4 ⟨0.0, 0.0, 0.0, 0.0, 0⟩ = ⟨5, 0, 25, 0, 1⟩ := by
  rw [Mandelbrot.compute.loop, if_pos (by norm_num), Mandelbrot.compute.loop,
    if_neg (by norm_num)]
  norm_num

/-- C7, counterexample: at `c = (5, 0)` (10 iterations, bailout radius 4, smooth colouring
on) the Mandelbrot evaluator escapes after one iteration with `|z_1|^2 = 25`, and the
smooth value is smaller than `iterations`. -/
theorem C7_smooth_value_range_counterexample :
    (Mandelbrot.compute Real.log 5 0 10 4 true).inside_set = false ∧
    (Mandelbrot.compute Real.log 5 0 10 4 true).iterations = 1 ∧
    (Mandelbrot.compute Real.log 5 0 10 4 true).smooth_value
      < ((Mandelbrot.compute Real.log 5 0 10 4 true).iterations : ℝ) := by
  have hc : Mandelbrot.compute Real.log 5 0 10 4 true
      = smoothResult Real.log ⟨5, 0, 25, 0, 1⟩ 10 true := by
    unfold Mandelbrot.compute
    rw [if_neg (by norm_num [Mandelbrot.inMainCardioid]),
      if_neg (by norm_num [Mandelbrot.inPeriod2Bulb]), mandelbrot_loop_at_five]
  have hs := smoothResult_escaped ⟨5, 0, 25, 0, 1⟩ 10 (by norm_num) (by norm_num)
  have hi := smoothResult_iterations Real.log (⟨5, 0, 25, 0, 1⟩ : IterState ℝ) 10 true
  rw [hc, hi.1, hi.2]
  refine ⟨by simp, rfl, ?_⟩
  by_contra hcon
  have := hs.2.2.1 (not_lt.1 hcon)
  norm_num at this

/-- The loop of `Mandelbrot::compute` keeps `z_real2` and `z_imag2` the squares of `z_real`
and `z_imag`. -/
theorem mandelbrot_loop_squares {K : Type} [LinearOrderedField K] (c_real c_imag : K)
    (max_iterations : Int) (bailout_radius : K) (s : IterState K)
    (hs : s.z_real2 = s.z_real * s.z_real ∧ s.z_imag2 = s.z_imag * s.z_imag) :
    (Mandelbrot.compute.loop c_real c_imag max_iterations bailout_radius s).z_real2
      = (Mandelbrot.compute.loop c_real c_imag max_iterations bailout_radius s).z_real *
        (Mandelbrot.compute.loop c_real c_imag max_iterations bailout_radius s).z_real ∧
    (Mandelbrot.compute.loop c_real c_imag max_iterations bailout_radius s).z_imag2
      = (Mandelbrot.compute.loop c_real c_imag max_iterations bailout_radius s).z_imag *
        (Mandelbrot.compute.loop c_real c_imag max_iterations bailout_radius s).z_imag := by
  induction s using Mandelbrot.compute.loop.induct c_real c_imag max_iterations bailout_radius with
  | case1 s h z_imag z_real ih =>
    rw [Mandelbrot.compute.loop, if_pos h]
    exact ih ⟨rfl, rfl⟩
  | case2 s h =>
    rw [Mandelbrot.compute.loop, if_neg h]
    exact hs

/-- The loop of `Julia::compute` keeps `z_real2` and `z_imag2` the squares of `z_real` and
`z_imag`. -/
theorem julia_loop_squares {K : Type} [LinearOrderedField K] (c_real c_imag : K)
    (max_iterations : Int) (bailout_radius : K) (s : IterState K)
    (hs : s.z_real2 = s.z_real * s.z_real ∧ s.z_imag2 = s.z_imag * s.z_imag) :
    (Julia.compute.loop c_real c_imag max_iterations bailout_radius s).z_real2
      = (Julia.compute.loop c_real c_imag max_iterations bailout_radius s).z_real *
        (Julia.compute.loop c_real c_imag max_iterations bailout_radius s).z_real ∧
    (Julia.compute.loop c_real c_imag max_iterations bailout_radius s).z_imag2
      = (Julia.compute.loop c_real c_imag max_iterations bailout_radius s).z_imag *
        (Julia.compute.loop c_real c_imag max_iterations bailout_radius s).z_imag := by
  induction s using Julia.compute.loop.induct c_real c_imag max_iterations bailout_radius with
  | case1 s h z_imag z_real ih =>
    rw [Julia.compute.loop, if_pos h]
    exact ih ⟨rfl, rfl⟩
  | case2 s h =>
    rw [Julia.compute.loop, if_neg h]
    exact hs

/-- C7, amended: for an escaped point (`inside_set == false`) returned by
`Mandelbrot::compute` or `Julia::compute` with smooth colouring on and bailout radius 4
(an escaped result forces `max_iterations > 0`), over the reals:
`0 <= iterations < max_iterations`,
`smooth_value = iterations + 1 - log2(log(|z_n|^2)/2 / log 2) < iterations + 1`, and
`iterations <= smooth_value` holds exactly when the final value has `|z_n|^2 <= 16`, where
`z_n` is the value the loop stopped at. -/
theorem C7_smooth_value_range (p_real p_imag c_real c_imag : ℝ) (max_iterations : Int) :
    ((Mandelbrot.compute Real.log p_real p_imag max_iterations 4 true).inside_set = false →
      0 ≤ (Mandelbrot.compute Real.log p_real p_imag max_iterations 4 true).iterations ∧
      (Mandelbrot.compute Real.log p_real p_imag max_iterations 4 true).iterations
        < max_iterations ∧
      (Mandelbrot.compute Real.log p_real p_imag max_iterations 4 true).smooth_value
        = ((Mandelbrot.compute Real.log p_real p_imag max_iterations 4 true).iterations : ℝ) + 1
          - Real.logb 2 (Real.log
              ((Mandelbrot.compute.loop p_real p_imag max_iterations 4
                  ⟨0.0, 0.0, 0.0, 0.0, 0⟩).z_real ^ 2 +
                (Mandelbrot.compute.loop p_real p_imag max_iterations 4
                  ⟨0.0, 0.0, 0.0, 0.0, 0⟩).z_imag ^ 2) / 2 / Real.log 2) ∧
      (Mandelbrot.compute Real.log p_real p_imag max_iterations 4 true).smooth_value
        < ((Mandelbrot.compute Real.log p_real p_imag max_iterations 4 true).iterations : ℝ)
          + 1 ∧
      (((Mandelbrot.compute Real.log p_real p_imag max_iterations 4 true).iterations : ℝ)
          ≤ (Mandelbrot.compute Real.log p_real p_imag max_iterations 4 true).smooth_value ↔
        (Mandelbrot.compute.loop p_real p_imag max_iterations 4
            ⟨0.0, 0.0, 0.0, 0.0, 0⟩).z_real ^ 2 +
          (Mandelbrot.compute.loop p_real p_imag max_iterations 4
            ⟨0.0, 0.0, 0.0, 0.0, 0⟩).z_imag ^ 2 ≤ 16)) ∧
    ((Julia.compute Real.log p_real p_imag c_real c_imag max_iterations 4 true).inside_set
        = false →
      0 ≤ (Julia.compute Real.log p_real p_imag c_real c_imag max_iterations 4
            true).iterations ∧
      (Julia.compute Real.log p_real p_imag c_real c_imag max_iterations 4 true).iterations
        < max_iterations ∧
      (Julia.compute Real.log p_real p_imag c_real c_imag max_iterations 4 true).smooth_value
        = ((Julia.compute Real.log p_real p_imag c_real c_imag max_iterations 4
              true).iterations : ℝ) + 1
          - Real.logb 2 (Real.log
              ((Julia.compute.loop c_real c_imag max_iterations 4
                  ⟨p_real, p_imag, p_real * p_real, p_imag * p_imag, 0⟩).z_real ^ 2 +
                (Julia.compute.loop c_real c_imag max_iterations 4
                  ⟨p_real, p_imag, p_real * p_real, p_imag * p_imag, 0⟩).z_imag ^ 2)
              / 2 / Real.log 2) ∧
      (Julia.compute Real.log p_real p_imag c_real c_imag max_iterations 4 true).smooth_value
        < ((Julia.compute Real.log p_real p_imag c_real c_imag max_iterations 4
              true).iterations : ℝ) + 1 ∧
      (((Julia.compute Real.log p_real p_imag c_real c_imag max_iterations 4
              true).iterations : ℝ)
          ≤ (Julia.compute Real.log p_real p_imag c_real c_imag max_iterations 4
              true).smooth_value ↔
        (Julia.compute.loop c_real c_imag max_iterations 4
            ⟨p_real, p_imag, p_real * p_real, p_imag * p_imag, 0⟩).z_real ^ 2 +
          (Julia.compute.loop c_real c_imag max_iterations 4
            ⟨p_real, p_imag, p_real * p_real, p_imag * p_imag, 0⟩).z_imag ^ 2 ≤ 16)) := by
  constructor
  · intro hesc
    obtain ⟨hc, hit, hm⟩ := mandelbrot_compute_escaped Real.log p_real p_imag max_iterations 4
      true hesc
    have hsq := mandelbrot_loop_squares p_real p_imag max_iterations 4
      ⟨0.0, 0.0, 0.0, 0.0, 0⟩ ⟨by norm_num, by norm_num⟩
    have hl := mandelbrot_loop_spec p_real p_imag max_iterations 4 ⟨0.0, 0.0, 0.0, 0.0, 0⟩
    obtain ⟨hv, hlt, hiff⟩ := smoothResult_escaped _ max_iterations hit hm
    rw [hc, (smoothResult_iterations _ _ _ _).1, pow_two, pow_two, ← hsq.1, ← hsq.2]
    exact ⟨hl.1, hit, hv, hlt, hiff⟩
  · intro hesc
    obtain ⟨hit, hm⟩ := julia_compute_escaped Real.log p_real p_imag c_real c_imag
      max_iterations 4 true hesc
    have hsq := julia_loop_squares c_real c_imag max_iterations 4
      ⟨p_real, p_imag, p_real * p_real, p_imag * p_imag, 0⟩ ⟨rfl, rfl⟩
    have hl := julia_loop_spec c_real c_imag max_iterations 4
      ⟨p_real, p_imag, p_real * p_real, p_imag * p_imag, 0⟩
    obtain ⟨hv, hlt, hiff⟩ := smoothResult_escaped _ max_iterations hit hm
    unfold Julia.compute
    rw [(smoothResult_iterations _ _ _ _).1, pow_two, pow_two, ← hsq.1, ← hsq.2]
    exact ⟨hl.1, hit, hv, hlt, hiff⟩

/-- The loop of `Julia::compute` started at `z = (3, 0)` with bailout radius 4 does not
run: the start value has already escaped. -/
theorem julia_loop_at_three :
    Julia.compute.loop (0 : ℝ) 0 10 4 ⟨3, 0, 3 * 3, 0 * 0, 0⟩ = ⟨3, 0, 3 * 3, 0 * 0, 0⟩ := by
  rw [Julia.compute.loop, if_neg (by norm_num)]

/-- Witness of the amended C7: the Julia evaluator at `z = (3, 0)` with seed `0` escapes at
once with `|z_0|^2 = 9 <= 16`, so its smooth value lies in `[0, 1)`. -/
theorem C7_smooth_value_range_witness :
    (Julia.compute Real.log 3 0 0 0 10 4 true).inside_set = false ∧
    (Julia.compute Real.log 3 0 0 0 10 4 true).iterations = 0 ∧
    (0 : ℝ) ≤ (Julia.compute Real.log 3 0 0 0 10 4 true).smooth_value ∧
    (Julia.compute Real.log 3 0 0 0 10 4 true).smooth_value < 1 := by
  have hesc : (Julia.compute Real.log 3 0 0 0 10 4 true).inside_set = false := by
    unfold Julia.compute
    rw [(smoothResult_iterations _ _ _ _).2, julia_loop_at_three]
    simp
  have hit : (Julia.compute Real.log 3 0 0 0 10 4 true).iterations = 0 := by
    unfold Julia.compute
    rw [(smoothResult_iterations _ _ _ _).1, julia_loop_at_three]
  have h := (C7_smooth_value_range 3 0 0 0 10).2 hesc
  rw [hit, julia_loop_at_three] at h
  obtain ⟨_, _, _, hlt, hiff⟩ := h
  refine ⟨hesc, hit, ?_, ?_⟩
  · have := hiff.2 (by norm_num)
    simpa using this
  · simpa using hlt

/-! ## Tile planner -/

/-- A value in the 32-bit range is unchanged by `wrap32`. -/
theorem wrap32_eq_self (n : Int) (h : inInt32 n) : wrap32 n = n := by
  unfold inInt32 at h
  unfold wrap32
  omega

/-- For positive `a` and `b`, `ceilDiv a b` is the least `n` with `a <= n * b`. -/
theorem ceilDiv_spec (a b : Int) (ha : 0 < a) (hb : 0 < b) :
    0 < ceilDiv a b ∧ ((ceilDiv a b : Int) - 1) * b < a ∧ a ≤ (ceilDiv a b : Int) * b := by
  unfold ceilDiv
  have h1 : b * ((a + b - 1) / b) ≤ a + b - 1 := Int.mul_ediv_self_le (by omega)
  have h2 : a + b - 1 < b * ((a + b - 1) / b) + b := Int.lt_mul_ediv_self_add hb
  have h3 : 1 ≤ (a + b - 1) / b := (Int.le_ediv_iff_mul_le hb).2 (by omega)
  have h4 : (((a + b - 1) / b).toNat : Int) = (a + b - 1) / b := Int.toNat_of_nonneg (by omega)
  rw [h4]
  refine ⟨by omega, ?_, ?_⟩
  · have : ((a + b - 1) / b - 1) * b = b * ((a + b - 1) / b) - b := by ring
    omega
  · have : (a + b - 1) / b * b = b * ((a + b - 1) / b) := by ring
    omega

/-- Columns left of the last one start inside the viewport. -/
theorem mul_lt_of_lt_ceilDiv (a b : Int) (ha : 0 < a) (hb : 0 < b) (k : Nat)
    (hk : k < ceilDiv a b) : (k : Int) * b < a := by
  have h := (ceilDiv_spec a b ha hb).2.1
  have hk1 : (k : Int) ≤ (ceilDiv a b : Int) - 1 := by omega
  have : (k : Int) * b ≤ ((ceilDiv a b : Int) - 1) * b :=
    Int.mul_le_mul_of_nonneg_right hk1 (le_of_lt hb)
  omega

/-- The step after column `k` ends at most at the last column's end. -/
theorem succ_mul_le_ceilDiv_mul (a b : Int) (hb : 0 < b) (k : Nat)
    (hk : k < ceilDiv a b) : ((k : Int) + 1) * b ≤ (ceilDiv a b : Int) * b := by
  have hk1 : (k : Int) + 1 ≤ (ceilDiv a b : Int) := by omega
  exact Int.mul_le_mul_of_nonneg_right hk1 (le_of_lt hb)

/-- The inner loop of `generateTiles`, started at column `k` of the row at height `y`,
appends the remaining tiles of that row, provided no column start overflows. -/
theorem rowLoop_eq (W H ts y : Int) (hW : 0 < W) (hts : 0 < ts)
    (hfit : (ceilDiv W ts : Int) * ts ≤ 2147483647) (d : Nat) :
    ∀ (k fuel : Nat) (acc : List Tile), k + d = ceilDiv W ts → d < fuel →
      TileManager.generateTiles.rowLoop W H ts y fuel ((k : Int) * ts) acc
        = some (acc ++ (List.range' k d).map fun j =>
            ⟨(j : Int) * ts, y, min ts (W - (j : Int) * ts), min ts (wrap32 (H - y))⟩) := by
  induction d with
  | zero =>
    intro k fuel acc hk hfuel
    obtain ⟨f, rfl⟩ : ∃ f, fuel = f + 1 := ⟨fuel - 1, by omega⟩
    have hge : W ≤ (k : Int) * ts := by
      have := (ceilDiv_spec W ts hW hts).2.2
      rw [← hk] at this
      simpa using this
    simp [TileManager.generateTiles.rowLoop, not_lt.2 hge]
  | succ d ih =>
    intro k fuel acc hk hfuel
    obtain ⟨f, rfl⟩ : ∃ f, fuel = f + 1 := ⟨fuel - 1, by omega⟩
    have hklt : k < ceilDiv W ts := by omega
    have hlt : (k : Int) * ts < W := mul_lt_of_lt_ceilDiv W ts hW hts k hklt
    have hnext := succ_mul_le_ceilDiv_mul W ts hts k hklt
    have hk0 : 0 ≤ (k : Int) * ts := Int.mul_nonneg (by omega) (le_of_lt hts)
    have hWle : W ≤ 2147483647 := le_trans (ceilDiv_spec W ts hW hts).2.2 hfit
    have hw1 : wrap32 (W - (k : Int) * ts) = W - (k : Int) * ts :=
      wrap32_eq_self _ ⟨by omega, by omega⟩
    have hw2 : wrap32 ((k : Int) * ts + ts) = ((k + 1 : Nat) : Int) * ts := by
      have e : ((k + 1 : Nat) : Int) * ts = (k : Int) * ts + ts := by push_cast; ring
      have e2 : ((k : Int) + 1) * ts = (k : Int) * ts + ts := by ring
      rw [e]
      exact wrap32_eq_self _ ⟨by omega, by omega⟩
    rw [TileManager.generateTiles.rowLoop, if_pos hlt]
    simp only [hw1, hw2]
    rw [ih (k + 1) f _ (by omega) (by omega), List.range'_succ]
    simp

/-- The outer loop of `generateTiles`, started at row `r`, appends the remaining rows of the
raster scan, provided no column or row start overflows. -/
theorem colLoop_eq (W H ts : Int) (hW : 0 < W) (hH : 0 < H) (hts : 0 < ts)
    (hfitW : (ceilDiv W ts : Int) * ts ≤ 2147483647)
    (hfitH : (ceilDiv H ts : Int) * ts ≤ 2147483647) (rowFuel : Nat)
    (hrow : ceilDiv W ts < rowFuel) (d : Nat) :
    ∀ (r fuel : Nat) (acc : List Tile), r + d = ceilDiv H ts → d < fuel →
      TileManager.generateTiles.colLoop W H ts rowFuel fuel ((r : Int) * ts) acc
        = some (acc ++ (List.range' r d).flatMap fun i =>
            (List.range (ceilDiv W ts)).map fun k => TileManager.gridTile W H ts i k) := by
  induction d with
  | zero =>
    intro r fuel acc hr hfuel
    obtain ⟨f, rfl⟩ : ∃ f, fuel = f + 1 := ⟨fuel - 1, by omega⟩
    have hge : H ≤ (r : Int) * ts := by
      have := (ceilDiv_spec H ts hH hts).2.2
      rw [← hr] at this
      simpa using this
    simp [TileManager.generateTiles.colLoop, not_lt.2 hge]
  | succ d ih =>
    intro r fuel acc hr hfuel
    obtain ⟨f, rfl⟩ : ∃ f, fuel = f + 1 := ⟨fuel - 1, by omega⟩
    have hrlt : r < ceilDiv H ts := by omega
    have hlt : (r : Int) * ts < H := mul_lt_of_lt_ceilDiv H ts hH hts r hrlt
    have hnext := succ_mul_le_ceilDiv_mul H ts hts r hrlt
    have hr0 : 0 ≤ (r : Int) * ts := Int.mul_nonneg (by omega) (le_of_lt hts)
    have hHle : H ≤ 2147483647 := le_trans (ceilDiv_spec H ts hH hts).2.2 hfitH
    have hw1 : wrap32 (H - (r : Int) * ts) = H - (r : Int) * ts :=
      wrap32_eq_self _ ⟨by omega, by omega⟩
    have hw2 : wrap32 ((r : Int) * ts + ts) = ((r + 1 : Nat) : Int) * ts := by
      have e : ((r + 1 : Nat) : Int) * ts = (r : Int) * ts + ts := by push_cast; ring
      have e2 : ((r : Int) + 1) * ts = (r : Int) * ts + ts := by ring
      rw [e]
      exact wrap32_eq_self _ ⟨by omega, by omega⟩
    have hrowrun := rowLoop_eq W H ts ((r : Int) * ts) hW hts hfitW (ceilDiv W ts) 0 rowFuel acc
      (by omega) hrow
    rw [show (((0 : Nat) : Int) * ts) = 0 by simp] at hrowrun
    rw [TileManager.generateTiles.colLoop, if_pos hlt, hrowrun]
    simp only [hw1, hw2]
    rw [ih (r + 1) f _ (by omega) (by omega), List.range'_succ, List.flatMap_cons,
      List.range_eq_range', List.append_assoc]
    rfl

/-- When no column or row start overflows, `generateTiles` returns the raster scan
`gridTiles` as soon as the fuel exceeds the number of rows and of columns. -/
theorem generateTiles_eq_gridTiles (W H ts : Int) (hW : 0 < W) (hH : 0 < H) (hts : 0 < ts)
    (hfitW : (ceilDiv W ts : Int) * ts ≤ 2147483647)
    (hfitH : (ceilDiv H ts : Int) * ts ≤ 2147483647) (fuel : Nat)
    (hfuelW : ceilDiv W ts < fuel) (hfuelH : ceilDiv H ts < fuel) :
    TileManager.generateTiles fuel W H ts = some (TileManager.gridTiles W H ts) := by
  have h := colLoop_eq W H ts hW hH hts hfitW hfitH fuel hfuelW (ceilDiv H ts) 0 fuel []
    (by omega) hfuelH
  rw [show (((0 : Nat) : Int) * ts) = 0 by simp] at h
  unfold TileManager.generateTiles TileManager.gridTiles
  rw [h, List.nil_append, List.range_eq_range' (ceilDiv H ts)]

/-- In one dimension, the clipped steps `k * ts .. k * ts + min ts (L - k * ts)` for
`k < ceilDiv L ts` contain each point of `0 .. L - 1` exactly once. -/
theorem countP_steps (L ts : Int) (hL : 0 < L) (hts : 0 < ts) (p : Int) (hp0 : 0 ≤ p)
    (hpL : p < L) :
    List.countP (fun k : Nat => decide ((k : Int) * ts ≤ p) &&
        decide (p < (k : Int) * ts + min ts (L - (k : Int) * ts)))
      (List.range (ceilDiv L ts)) = 1 := by
  have hq0 : 0 ≤ p / ts := Int.ediv_nonneg hp0 (le_of_lt hts)
  have hq1 : p / ts * ts ≤ p := Int.ediv_mul_le p (by omega)
  have hq2 : p < (p / ts + 1) * ts := Int.lt_ediv_add_one_mul_self p hts
  have hcast : (((p / ts).toNat : Nat) : Int) = p / ts := Int.toNat_of_nonneg hq0
  have hmem : (p / ts).toNat ∈ List.range (ceilDiv L ts) := by
    rw [List.mem_range]
    have h1 : p / ts < (ceilDiv L ts : Int) :=
      (Int.ediv_lt_iff_lt_mul hts).2 (lt_of_lt_of_le hpL (ceilDiv_spec L ts hL hts).2.2)
    omega
  rw [← List.count_eq_one_of_mem (List.nodup_range _) hmem, List.count]
  apply List.countP_congr
  intro k _
  simp only [Bool.and_eq_true, decide_eq_true_eq, beq_iff_eq]
  constructor
  · rintro ⟨h1, h2⟩
    have h3 : (k : Int) ≤ p / ts := (Int.le_ediv_iff_mul_le hts).2 h1
    have h4 : p / ts < (k : Int) + 1 := by
      rw [Int.ediv_lt_iff_lt_mul hts]
      have e : ((k : Int) + 1) * ts = (k : Int) * ts + ts := by ring
      have := min_le_left ts (L - (k : Int) * ts)
      omega
    omega
  · intro hk
    have hk2 : (k : Int) = p / ts := by omega
    rw [hk2]
    have e : (p / ts + 1) * ts = p / ts * ts + ts := by ring
    refine ⟨hq1, ?_⟩
    rcases min_choice ts (L - p / ts * ts) with hm | hm <;> rw [hm] <;> omega

/-- In one dimension, the lengths of the clipped steps add up to `L`. -/
theorem sum_steps (L ts : Int) (hL : 0 < L) (hts : 0 < ts) :
    ((List.range (ceilDiv L ts)).map fun k : Nat => min ts (L - (k : Int) * ts)).sum = L := by
  obtain ⟨hpos, hlow, hup⟩ := ceilDiv_spec L ts hL hts
  have hfull : ∀ j : Nat, j < ceilDiv L ts →
      ((List.range j).map fun k : Nat => min ts (L - (k : Int) * ts)).sum = (j : Int) * ts := by
    intro j
    induction j with
    | zero => intro _; simp
    | succ j ih =>
      intro hj
      have hlt := mul_lt_of_lt_ceilDiv L ts hL hts (j + 1) hj
      have e : ((j + 1 : Nat) : Int) * ts = (j : Int) * ts + ts := by push_cast; ring
      rw [List.sum_range_succ, ih (by omega), e, min_eq_left (by omega)]
  obtain ⟨n, hn⟩ : ∃ n, ceilDiv L ts = n + 1 := ⟨ceilDiv L ts - 1, by omega⟩
  rw [hn] at hup
  have e : ((n + 1 : Nat) : Int) * ts = (n : Int) * ts + ts := by push_cast; ring
  rw [hn, List.sum_range_succ, hfull n (by omega), min_eq_right (by omega)]
  ring

/-- Summing over a `flatMap` is summing the sums of the pieces. -/
theorem sum_map_flatMap {α β : Type} (l : List α) (f : α → List β) (g : β → Int) :
    ((l.flatMap f).map g).sum = (l.map fun a => ((f a).map g).sum).sum := by
  induction l with
  | nil => rfl
  | cons a l ih => simp [List.flatMap_cons, ih]

/-- Counting with `countP` is summing indicator values. -/
theorem sum_map_indicator {α : Type} (l : List α) (p : α → Bool) :
    (l.map fun a => if p a = true then 1 else 0).sum = l.countP p := by
  induction l with
  | nil => rfl
  | cons a l ih =>
    by_cases h : p a = true
    · simp [h, ih, List.countP_cons_of_pos, Nat.add_comm]
    · simp [h, ih]

/-- Membership in the raster scan. -/
theorem mem_gridTiles (W H ts : Int) (t : Tile) :
    t ∈ TileManager.gridTiles W H ts ↔
      ∃ r, r < ceilDiv H ts ∧ ∃ k, k < ceilDiv W ts ∧ TileManager.gridTile W H ts r k = t := by
  simp [TileManager.gridTiles, List.mem_flatMap, List.mem_map, List.mem_range]

/-- Every tile of the raster scan lies inside the viewport and has positive size. -/
theorem gridTiles_inside (W H ts : Int) (hW : 0 < W) (hH : 0 < H) (hts : 0 < ts) (t : Tile)
    (ht : t ∈ TileManager.gridTiles W H ts) :
    0 ≤ t.x ∧ 0 < t.width ∧ t.x + t.width ≤ W ∧ 0 ≤ t.y ∧ 0 < t.height ∧
      t.y + t.height ≤ H := by
  obtain ⟨r, hr, k, hk, rfl⟩ := (mem_gridTiles W H ts t).1 ht
  have hx := mul_lt_of_lt_ceilDiv W ts hW hts k hk
  have hy := mul_lt_of_lt_ceilDiv H ts hH hts r hr
  have hx0 : 0 ≤ (k : Int) * ts := Int.mul_nonneg (by omega) (le_of_lt hts)
  have hy0 : 0 ≤ (r : Int) * ts := Int.mul_nonneg (by omega) (le_of_lt hts)
  simp only [TileManager.gridTile]
  omega

/-- The raster scan contains every pixel of the viewport exactly once. -/
theorem gridTiles_cover (W H ts : Int) (hW : 0 < W) (hH : 0 < H) (hts : 0 < ts) (px py : Int)
    (hx0 : 0 ≤ px) (hxW : px < W) (hy0 : 0 ≤ py) (hyH : py < H) :
    (TileManager.gridTiles W H ts).countP (fun t => t.contains px py) = 1 := by
  unfold TileManager.gridTiles
  rw [List.countP_flatMap]
  have hrow : ∀ r : Nat,
      (List.countP (fun t : Tile => t.contains px py) ∘
        fun r => (List.range (ceilDiv W ts)).map fun k => TileManager.gridTile W H ts r k) r
      = if (decide ((r : Int) * ts ≤ py) &&
            decide (py < (r : Int) * ts + min ts (H - (r : Int) * ts))) = true then 1 else 0 := by
    intro r
    simp only [Function.comp, List.countP_map]
    split_ifs with hr
    · rw [← countP_steps W ts hW hts px hx0 hxW]
      apply List.countP_congr
      intro k _
      simp only [Bool.and_eq_true, decide_eq_true_eq] at hr
      simp [Tile.contains, TileManager.gridTile, hr]
    · rw [List.countP_eq_zero]
      intro k _
      simp only [Bool.and_eq_true, decide_eq_true_eq] at hr
      simp only [Function.comp, Tile.contains, TileManager.gridTile, Bool.and_eq_true,
        decide_eq_true_eq]
      tauto
  rw [List.map_congr_left (fun r _ => hrow r), sum_map_indicator]
  exact countP_steps H ts hH hts py hy0 hyH

/-- The tiles of the raster scan have total area `W * H`. -/
theorem gridTiles_area (W H ts : Int) (hW : 0 < W) (hH : 0 < H) (hts : 0 < ts) :
    TileManager.totalArea (TileManager.gridTiles W H ts) = W * H := by
  unfold TileManager.totalArea TileManager.gridTiles
  rw [sum_map_flatMap]
  have hrow : ∀ r : Nat,
      (((List.range (ceilDiv W ts)).map fun k => TileManager.gridTile W H ts r k).map
        fun t => t.width * t.height).sum = W * min ts (H - (r : Int) * ts) := by
    intro r
    rw [List.map_map]
    have : ((fun t : Tile => t.width * t.height) ∘ fun k => TileManager.gridTile W H ts r k)
        = fun k : Nat => min ts (W - (k : Int) * ts) * min ts (H - (r : Int) * ts) := by
      funext k
      simp [TileManager.gridTile]
    rw [this, List.sum_map_mul_right, sum_steps W ts hW hts]
  rw [List.map_congr_left (fun r _ => hrow r), List.sum_map_mul_left, sum_steps H ts hH hts]

/-- C1, counterexample: for `viewport_width = 2^30 + 2`, `viewport_height = 1` and
`tile_size = 2^30 + 1` the column counter `x` overflows after the second tile.  Whenever
the loops finish (fuel 6 suffices) the result holds a tile that starts left of the viewport
and has a negative width, so the tiles do not partition the rectangle. -/
theorem C1_generateTiles_partition_counterexample :
    TileManager.generateTiles 6 1073741826 1 1073741825
      = some [⟨0, 0, 1073741825, 1⟩, ⟨1073741825, 0, 1, 1⟩,
          ⟨-2147483646, 0, -1073741824, 1⟩, ⟨-1073741821, 0, 1073741825, 1⟩,
          ⟨4, 0, 1073741822, 1⟩] ∧
    (∀ fuel tiles, TileManager.generateTiles fuel 1073741826 1 1073741825 = some tiles →
      ∃ t ∈ tiles, t.x < 0 ∧ t.width < 0) := by
  constructor
  · decide
  · intro fuel tiles h
    refine ⟨⟨-2147483646, 0, -1073741824, 1⟩, ?_, by decide, by decide⟩
    rcases Nat.lt_or_ge fuel 6 with hlt | hge
    · interval_cases fuel <;> simp [TileManager.generateTiles, TileManager.generateTiles.colLoop,
        TileManager.generateTiles.rowLoop, wrap32] at h
    · obtain ⟨f, rfl⟩ : ∃ f, fuel = f + 6 := ⟨fuel - 6, by omega⟩
      simp [TileManager.generateTiles, TileManager.generateTiles.colLoop,
        TileManager.generateTiles.rowLoop, wrap32] at h
      rw [← h]
      simp

/-- C1, amended: for `viewport_width > 0`, `viewport_height > 0` and `tile_size > 0` such
that `tile_size * ceil(W / tile_size)` and `tile_size * ceil(H / tile_size)` do not exceed
`INT_MAX = 2^31 - 1` (the loop counters never overflow), `generateTiles` terminates and its
tiles exactly partition the `W x H` rectangle: every tile lies inside `[0,W) x [0,H)` with
positive width and height, every pixel of the rectangle lies in exactly one tile, and the
tile areas add up to `W * H`. -/
theorem C1_generateTiles_partition (W H ts : Int) (hW : 0 < W) (hH : 0 < H) (hts : 0 < ts)
    (hfitW : (ceilDiv W ts : Int) * ts ≤ 2147483647)
    (hfitH : (ceilDiv H ts : Int) * ts ≤ 2147483647) :
    ∃ tiles : List Tile,
      (∀ fuel : Nat, ceilDiv W ts < fuel → ceilDiv H ts < fuel →
        TileManager.generateTiles fuel W H ts = some tiles) ∧
      (∀ t ∈ tiles, 0 ≤ t.x ∧ 0 < t.width ∧ t.x + t.width ≤ W ∧
        0 ≤ t.y ∧ 0 < t.height ∧ t.y + t.height ≤ H) ∧
      (∀ px py : Int, 0 ≤ px → px < W → 0 ≤ py → py < H →
        tiles.countP (fun t => t.contains px py) = 1) ∧
      TileManager.totalArea tiles = W * H :=
  ⟨TileManager.gridTiles W H ts,
    fun fuel h1 h2 => generateTiles_eq_gridTiles W H ts hW hH hts hfitW hfitH fuel h1 h2,
    fun t ht => gridTiles_inside W H ts hW hH hts t ht,
    fun px py h1 h2 h3 h4 => gridTiles_cover W H ts hW hH hts px py h1 h2 h3 h4,
    gridTiles_area W H ts hW hH hts⟩

/-- Witness of the amended C1 for a `100 x 50` viewport and tiles of size 64. -/
theorem C1_generateTiles_partition_witness :
    ∃ tiles : List Tile,
      (∀ fuel : Nat, ceilDiv 100 64 < fuel → ceilDiv 50 64 < fuel →
        TileManager.generateTiles fuel 100 50 64 = some tiles) ∧
      (∀ t ∈ tiles, 0 ≤ t.x ∧ 0 < t.width ∧ t.x + t.width ≤ 100 ∧
        0 ≤ t.y ∧ 0 < t.height ∧ t.y + t.height ≤ 50) ∧
      (∀ px py : Int, 0 ≤ px → px < 100 → 0 ≤ py → py < 50 →
        tiles.countP (fun t => t.contains px py) = 1) ∧
      TileManager.totalArea tiles = 100 * 50 :=
  C1_generateTiles_partition 100 50 64 (by decide) (by decide) (by decide) (by decide)
    (by decide)

/-! ## Render pipeline -/

/-- Writing one byte at the position right after `pre`. -/
theorem writeByte_append (pre post : List Nat) (o v : Nat) (index : Int)
    (hidx : index = (pre.length : Int)) :
    writeByte (pre ++ o :: post) index v = some (pre ++ v :: post) := by
  subst hidx
  unfold writeByte
  rw [if_pos ⟨by omega, by simp⟩]
  simp

/-- One execution of the four writes of `renderTile` on a buffer whose bytes at the pixel's
offset are `o0 .. o3`. -/
theorem writePixel_append (tile_width : Int) (pre post : List Nat) (o0 o1 o2 o3 : Nat)
    (x y : Int) (color : Color)
    (hoff : wrap32 (wrap32 (wrap32 (y * tile_width) + x) * 4) = (pre.length : Int))
    (hfit : (pre.length : Int) + 3 ≤ 2147483647) :
    FractalEngine.renderTile.writePixel tile_width (pre ++ o0 :: o1 :: o2 :: o3 :: post) x y
        color
      = some (pre ++ color.bytes ++ post) := by
  have h0 : wrap32 ((pre.length : Int) + 0) = (pre.length : Int) :=
    wrap32_eq_self _ ⟨by omega, by omega⟩
  have h1 : wrap32 ((pre.length : Int) + 1) = ((pre ++ [color.r]).length : Int) := by
    rw [wrap32_eq_self _ ⟨by omega, by omega⟩]; simp
  have h2 : wrap32 ((pre.length : Int) + 2) = ((pre ++ [color.r, color.g]).length : Int) := by
    rw [wrap32_eq_self _ ⟨by omega, by omega⟩]; simp
  have h3 : wrap32 ((pre.length : Int) + 3)
      = ((pre ++ [color.r, color.g, color.b]).length : Int) := by
    rw [wrap32_eq_self _ ⟨by omega, by omega⟩]; simp
  unfold FractalEngine.renderTile.writePixel
  simp only [hoff]
  rw [writeByte_append pre _ o0 color.r _ h0, Option.some_bind]
  rw [show pre ++ color.r :: o1 :: o2 :: o3 :: post
      = (pre ++ [color.r]) ++ o1 :: o2 :: o3 :: post by simp]
  rw [writeByte_append _ _ o1 color.g _ h1, Option.some_bind]
  rw [show (pre ++ [color.r]) ++ color.g :: o2 :: o3 :: post
      = (pre ++ [color.r, color.g]) ++ o2 :: o3 :: post by simp]
  rw [writeByte_append _ _ o2 color.b _ h2, Option.some_bind]
  rw [show (pre ++ [color.r, color.g]) ++ color.b :: o3 :: post
      = (pre ++ [color.r, color.g, color.b]) ++ o3 :: post by simp]
  rw [writeByte_append _ _ o3 color.a _ h3]
  simp [Color.bytes]

/-- A list of pixels flattened to bytes is four times as long. -/
theorem length_flatMap_bytes {α : Type} (l : List α) (f : α → Color) :
    (l.flatMap fun a => (f a).bytes).length = 4 * l.length := by
  induction l with
  | nil => rfl
  | cons a l ih =>
    rw [List.flatMap_cons, List.length_append, ih, List.length_cons]
    simp only [Color.bytes, List.length_cons, List.length_nil]
    omega

/-- The inner loop of `renderTile` on row `y`, from column `s` on: the `4 * n` bytes after
`pre` are replaced by the colours of the columns `s .. s + n - 1`. -/
theorem renderRow_eq (tile_width : Int) (w y : Nat) (col : Nat → Color)
    (hw : (w : Int) = tile_width) (hfit : 4 * (y * w + w) ≤ 2147483647) (n : Nat) :
    ∀ (s : Nat) (pre mid post : List Nat), s + n = w → mid.length = 4 * n →
      pre.length = 4 * (y * w + s) →
      (List.range' s n).foldlM
          (fun (buf : List Nat) (x : Nat) =>
            FractalEngine.renderTile.writePixel tile_width buf (x : Int) (y : Int) (col x))
          (pre ++ mid ++ post)
        = some (pre ++ ((List.range' s n).flatMap fun x => (col x).bytes) ++ post) := by
  induction n with
  | zero =>
    intro s pre mid post _ hmid _
    have : mid = [] := List.length_eq_zero.1 (by omega)
    simp [this]
  | succ n ih =>
    intro s pre mid post hs hmid hpre
    match mid, hmid with
    | o0 :: o1 :: o2 :: o3 :: mid', hmid' =>
      have hlen : mid'.length = 4 * n := by
        simp only [List.length_cons] at hmid'
        omega
      have hcast : ((y : Int) * tile_width + (s : Int)) * 4 = (pre.length : Int) := by
        rw [hpre, ← hw]
        push_cast
        ring
      have hyw : (y : Int) * tile_width = ((y * w : Nat) : Int) := by
        rw [← hw]; push_cast; ring
      have hoff : wrap32 (wrap32 (wrap32 ((y : Int) * tile_width) + (s : Int)) * 4)
          = (pre.length : Int) := by
        rw [wrap32_eq_self ((y : Int) * tile_width) ⟨by omega, by omega⟩,
          wrap32_eq_self ((y : Int) * tile_width + (s : Int)) ⟨by omega, by omega⟩,
          wrap32_eq_self _ ⟨by omega, by omega⟩, hcast]
      rw [List.range'_succ, List.foldlM_cons]
      rw [show pre ++ (o0 :: o1 :: o2 :: o3 :: mid') ++ post
          = pre ++ o0 :: o1 :: o2 :: o3 :: (mid' ++ post) by simp]
      rw [writePixel_append tile_width pre (mid' ++ post) o0 o1 o2 o3 _ _ (col s) hoff
        (by omega)]
      simp only [Option.bind_eq_bind, Option.some_bind]
      rw [show pre ++ (col s).bytes ++ (mid' ++ post) = (pre ++ (col s).bytes) ++ mid' ++ post
          by simp]
      rw [ih (s + 1) (pre ++ (col s).bytes) mid' post (by omega) hlen
        (by simp [Color.bytes]; omega)]
      simp [List.flatMap_cons]

/-- The outer loop of `renderTile`, from row `r` on: the `4 * w * m` bytes after `pre` are
replaced by the colours of the rows `r .. r + m - 1`, row by row. -/
theorem renderRows_eq (tile_width : Int) (w h : Nat) (col : Nat → Nat → Color)
    (hw : (w : Int) = tile_width) (hfit : 4 * (w * h) ≤ 2147483647) (m : Nat) :
    ∀ (r : Nat) (pre mid post : List Nat), r + m = h → mid.length = 4 * (w * m) →
      pre.length = 4 * (w * r) →
      (List.range' r m).foldlM
          (fun (buf : List Nat) (y : Nat) => (List.range w).foldlM
            (fun (buf : List Nat) (x : Nat) =>
              FractalEngine.renderTile.writePixel tile_width buf (x : Int) (y : Int) (col x y))
            buf)
          (pre ++ mid ++ post)
        = some (pre ++ ((List.range' r m).flatMap fun y =>
            (List.range w).flatMap fun x => (col x y).bytes) ++ post) := by
  induction m with
  | zero =>
    intro r pre mid post _ hmid _
    have : mid = [] := List.length_eq_zero.1 (by omega)
    simp [this]
  | succ m ih =>
    intro r pre mid post hr hmid hpre
    have hrow : (r + 1) * w ≤ h * w := Nat.mul_le_mul_right w (by omega)
    have hexp : w * (m + 1) = w * m + w := by ring
    have hwr : w * r = r * w := Nat.mul_comm _ _
    have hwh : w * h = h * w := Nat.mul_comm _ _
    have hrw : (r + 1) * w = r * w + w := by ring
    have hwr1 : w * (r + 1) = r * w + w := by ring
    obtain ⟨mid1, mid2, rfl, h1, h2⟩ : ∃ mid1 mid2 : List Nat,
        mid = mid1 ++ mid2 ∧ mid1.length = 4 * w ∧ mid2.length = 4 * (w * m) :=
      ⟨mid.take (4 * w), mid.drop (4 * w), (List.take_append_drop _ _).symm,
        by rw [List.length_take, hmid]; omega, by rw [List.length_drop, hmid]; omega⟩
    have hrowrun := renderRow_eq tile_width w r (fun x => col x r) hw (by omega) w 0 pre
      mid1 (mid2 ++ post) (by omega) h1 (by omega)
    rw [← List.range_eq_range'] at hrowrun
    rw [List.range'_succ, List.foldlM_cons]
    rw [show pre ++ (mid1 ++ mid2) ++ post = pre ++ mid1 ++ (mid2 ++ post) by simp]
    rw [hrowrun]
    simp only [Option.bind_eq_bind, Option.some_bind]
    rw [show pre ++ ((List.range w).flatMap fun x => (col x r).bytes) ++ (mid2 ++ post)
        = (pre ++ ((List.range w).flatMap fun x => (col x r).bytes)) ++ mid2 ++ post by simp]
    have hrowlen : ((List.range w).flatMap fun x => (col x r).bytes).length = 4 * w := by
      rw [length_flatMap_bytes, List.length_range]
    rw [ih (r + 1) _ mid2 post (by omega) h2 (by rw [List.length_append, hrowlen]; omega)]
    simp [List.flatMap_cons]

/-- Flattening equal-length pieces: the length, and the element at position `j` of piece `i`. -/
theorem flatMap_range_uniform {α : Type} (f : Nat → List α) (k : Nat)
    (hk : ∀ i, (f i).length = k) (n : Nat) :
    ((List.range n).flatMap f).length = n * k ∧
    ∀ i j : Nat, i < n → j < k → ((List.range n).flatMap f)[i * k + j]? = (f i)[j]? := by
  induction n with
  | zero => exact ⟨by simp, fun i j hi _ => absurd hi (by omega)⟩
  | succ n ih =>
    have happ : (List.range (n + 1)).flatMap f = (List.range n).flatMap f ++ f n := by
      rw [List.range_succ, List.flatMap_append]
      simp
    rw [happ]
    refine ⟨by rw [List.length_append, ih.1, hk]; ring, ?_⟩
    intro i j hi hj
    rcases Nat.lt_or_ge i n with hlt | hge
    · have hle : (i + 1) * k ≤ n * k := Nat.mul_le_mul_right k (by omega)
      have hik : (i + 1) * k = i * k + k := by ring
      rw [List.getElem?_append_left (by rw [ih.1]; omega)]
      exact ih.2 i j hlt hj
    · have hin : i = n := by omega
      subst hin
      rw [List.getElem?_append_right (by rw [ih.1]; omega), ih.1]
      congr 1
      omega

/-- Pieces that agree on every list element flatten to the same list. -/
theorem flatMap_congr_mem {α β : Type} (l : List α) (f g : α → List β)
    (h : ∀ a ∈ l, f a = g a) : l.flatMap f = l.flatMap g := by
  induction l with
  | nil => rfl
  | cons a l ih =>
    rw [List.flatMap_cons, List.flatMap_cons, h a (List.mem_cons_self _ _),
      ih fun b hb => h b (List.mem_cons_of_mem _ hb)]

/-- Inside a tile whose absolute pixel coordinates are `int` values, the colour computed by
the loop body of `renderTile` is the colour specified for the absolute coordinate. -/
theorem pixelColor_eq_colorAt {K : Type} [LinearOrderedField K] [FloorRing K]
    (size_bits : Nat) (log : K → K) (x_start y_start : Int) (viewport : Viewport K)
    (params : RenderParams K) (type : FractalType) (julia_c_real julia_c_imag : K)
    (x y : Int) (hx : inInt32 (x_start + x)) (hy : inInt32 (y_start + y)) :
    FractalEngine.renderTile.pixelColor size_bits log x_start y_start viewport params type
        julia_c_real julia_c_imag (ColorPalette.new.initPalette params.palette_id) x y
      = FractalEngine.colorAt size_bits log viewport params type julia_c_real julia_c_imag
          (x_start + x) (y_start + y) := by
  unfold FractalEngine.renderTile.pixelColor FractalEngine.colorAt
    FractalEngine.computeMandelbrot FractalEngine.computeJulia
  rw [wrap32_eq_self _ hx, wrap32_eq_self _ hy]

/-- The buffer `renderTile` produces when the tile dimensions are non-negative, the buffer
size fits an `int` and the absolute pixel coordinates are `int` values: the colours of the
pixels in row-major order, four bytes each, whatever the buffer held before. -/
theorem renderTile_eq {K : Type} [LinearOrderedField K] [FloorRing K]
    (size_bits : Nat) (log : K → K) (x_start y_start tile_width tile_height : Int)
    (viewport : Viewport K) (params : RenderParams K) (type : FractalType)
    (julia_c_real julia_c_imag : K) (pixel_buffer : List Nat)
    (hw : 0 ≤ tile_width) (hh : 0 ≤ tile_height)
    (hfit : tile_width * tile_height * 4 ≤ 2147483647)
    (hx : inInt32 x_start ∧ x_start + tile_width ≤ 2147483648)
    (hy : inInt32 y_start ∧ y_start + tile_height ≤ 2147483648) :
    FractalEngine.renderTile size_bits log x_start y_start tile_width tile_height viewport
        params type julia_c_real julia_c_imag pixel_buffer
      = some ((List.range tile_height.toNat).flatMap fun y =>
          (List.range tile_width.toNat).flatMap fun x =>
            (FractalEngine.colorAt size_bits log viewport params type julia_c_real julia_c_imag
              (x_start + (x : Int)) (y_start + (y : Int))).bytes) := by
  obtain ⟨w, rfl⟩ : ∃ w : Nat, tile_width = (w : Int) := ⟨tile_width.toNat, by omega⟩
  obtain ⟨h, rfl⟩ : ∃ h : Nat, tile_height = (h : Int) := ⟨tile_height.toNat, by omega⟩
  have hwh : ((w : Int) * (h : Int)) = ((w * h : Nat) : Int) := by push_cast; ring
  rw [hwh] at hfit
  have hsize : wrap32 (wrap32 ((w : Int) * (h : Int)) * 4) = ((4 * (w * h) : Nat) : Int) := by
    rw [hwh, wrap32_eq_self ((w * h : Nat) : Int) ⟨by omega, by omega⟩,
      wrap32_eq_self (((w * h : Nat) : Int) * 4) ⟨by omega, by omega⟩]
    push_cast
    ring
  unfold inInt32 at hx hy
  unfold FractalEngine.renderTile
  simp only [hsize, Int.toNat_ofNat]
  have hres : resizeBuffer pixel_buffer ((4 * (w * h) : Nat) : Int)
      = some (pixel_buffer.take (4 * (w * h))
          ++ List.replicate (4 * (w * h) - pixel_buffer.length) 0) := by
    unfold resizeBuffer
    rw [if_pos (by omega), Int.toNat_ofNat]
  rw [hres, Option.some_bind]
  have hlen : (pixel_buffer.take (4 * (w * h))
      ++ List.replicate (4 * (w * h) - pixel_buffer.length) 0).length = 4 * (w * h) := by
    rw [List.length_append, List.length_take, List.length_replicate]
    omega
  have hfit4 : 4 * (w * h) ≤ 2147483647 := by omega
  have hzero : ([] : List Nat).length = 4 * (w * 0) := by simp
  have hrun := renderRows_eq (w : Int) w h
    (fun x y => FractalEngine.renderTile.pixelColor size_bits log x_start y_start viewport
      params type julia_c_real julia_c_imag (ColorPalette.new.initPalette params.palette_id)
      (x : Int) (y : Int))
    rfl hfit4 h 0 []
    (pixel_buffer.take (4 * (w * h)) ++ List.replicate (4 * (w * h) - pixel_buffer.length) 0)
    [] (Nat.zero_add h) hlen hzero
  rw [← List.range_eq_range'] at hrun
  simp only [List.nil_append, List.append_nil] at hrun
  rw [hrun]
  refine congrArg some ?_
  apply flatMap_congr_mem
  intro y hy'
  apply flatMap_congr_mem
  intro x hx'
  rw [List.mem_range] at hx' hy'
  rw [pixelColor_eq_colorAt _ _ _ _ _ _ _ _ _ _ _ ⟨by omega, by omega⟩ ⟨by omega, by omega⟩]

/-- C9, counterexample: for a `32768 x 16384` tile the size `tile_width*tile_height*4`
computed in `int` is `-2^31` and the `resize` fails, so no buffer of `2^31` bytes results;
for a `-1 x -1` tile the buffer gets length `4 = tile_width*tile_height*4` and none of its
bytes is written; and for a `2 x 1` tile at `x_start = 2^31 - 1` the sum `x_start + 1`
wraps to `-2^31`, so the second pixel is rendered black (its wrapped coordinate lies in the
main cardioid) although the colour at `screenToComplex(x_start + 1, y_start, viewport)` is
`(0, 2, 255, 255)`. -/
theorem C9_renderTile_buffer_counterexample :
    FractalEngine.renderTile 32 (fun x : ℚ => x) 0 0 32768 16384
        (ViewportManager.createDefault 32768 16384) ⟨10, 4, true, 0⟩ FractalType.MANDELBROT 0 0 []
      = none ∧
    FractalEngine.renderTile 32 (fun x : ℚ => x) 0 0 (-1) (-1)
        (ViewportManager.createDefault 800 600) ⟨10, 4, true, 0⟩ FractalType.MANDELBROT 0 0
        [7, 7, 7, 7]
      = some [7, 7, 7, 7] ∧
    (FractalEngine.renderTile 32 (fun x : ℚ => x) 2147483647 0 2 1
        ⟨2, 0, 1 / 1073741824, 2, 2⟩ ⟨256, 4, false, 0⟩ FractalType.MANDELBROT 0 0 []
      = some [0, 2, 255, 255, 0, 0, 0, 255] ∧
      FractalEngine.colorAt 32 (fun x : ℚ => x) ⟨2, 0, 1 / 1073741824, 2, 2⟩
        ⟨256, 4, false, 0⟩ FractalType.MANDELBROT 0 0 (2147483647 + 1) 0
      = ⟨0, 2, 255, 255⟩) := by
  refine ⟨?_, ?_, ?_, ?_⟩
  · simp [FractalEngine.renderTile, resizeBuffer, wrap32]
  · simp [FractalEngine.renderTile, resizeBuffer, wrap32]
  · decide!
  · decide!

/-- C9, amended: when `tile_width` and `tile_height` are non-negative, the buffer size
`tile_width*tile_height*4` does not exceed `INT_MAX`, and the absolute pixel coordinates
`x_start + x`, `y_start + y` of the tile are `int` values, `renderTile` leaves
`pixel_buffer` with length exactly `tile_width*tile_height*4` whatever its prior contents;
for every `0 <= x < tile_width`, `0 <= y < tile_height` the four bytes at offset
`(y*tile_width + x)*4` are the R,G,B,A of the palette colour of the selected evaluator's
smooth value at `screenToComplex(x_start + x, y_start + y, viewport)`; and every byte of
the buffer belongs to one of these pixels, hence is written. -/
theorem C9_renderTile_buffer {K : Type} [LinearOrderedField K] [FloorRing K]
    (size_bits : Nat) (log : K → K) (x_start y_start tile_width tile_height : Int)
    (viewport : Viewport K) (params : RenderParams K) (type : FractalType)
    (julia_c_real julia_c_imag : K)
    (hw : 0 ≤ tile_width) (hh : 0 ≤ tile_height)
    (hfit : tile_width * tile_height * 4 ≤ 2147483647)
    (hx : inInt32 x_start ∧ x_start + tile_width ≤ 2147483648)
    (hy : inInt32 y_start ∧ y_start + tile_height ≤ 2147483648) :
    ∃ buf : List Nat,
      (∀ pixel_buffer : List Nat,
        FractalEngine.renderTile size_bits log x_start y_start tile_width tile_height viewport
          params type julia_c_real julia_c_imag pixel_buffer = some buf) ∧
      (buf.length : Int) = tile_width * tile_height * 4 ∧
      (∀ x y : Int, 0 ≤ x → x < tile_width → 0 ≤ y → y < tile_height →
        buf[((y * tile_width + x) * 4).toNat]?
          = some (FractalEngine.colorAt size_bits log viewport params type julia_c_real
              julia_c_imag (x_start + x) (y_start + y)).r ∧
        buf[((y * tile_width + x) * 4).toNat + 1]?
          = some (FractalEngine.colorAt size_bits log viewport params type julia_c_real
              julia_c_imag (x_start + x) (y_start + y)).g ∧
        buf[((y * tile_width + x) * 4).toNat + 2]?
          = some (FractalEngine.colorAt size_bits log viewport params type julia_c_real
              julia_c_imag (x_start + x) (y_start + y)).b ∧
        buf[((y * tile_width + x) * 4).toNat + 3]?
          = some (FractalEngine.colorAt size_bits log viewport params type julia_c_real
              julia_c_imag (x_start + x) (y_start + y)).a) ∧
      (∀ i : Nat, i < buf.length →
        ∃ x y : Int, 0 ≤ x ∧ x < tile_width ∧ 0 ≤ y ∧ y < tile_height ∧
          ((y * tile_width + x) * 4).toNat ≤ i ∧ i < ((y * tile_width + x) * 4).toNat + 4) := by
  refine ⟨_, fun pixel_buffer => renderTile_eq size_bits log x_start y_start tile_width
    tile_height viewport params type julia_c_real julia_c_imag pixel_buffer hw hh hfit hx hy,
    ?_, ?_, ?_⟩
  all_goals
    obtain ⟨w, rfl⟩ : ∃ w : Nat, tile_width = (w : Int) := ⟨tile_width.toNat, by omega⟩
    obtain ⟨h, rfl⟩ : ∃ h : Nat, tile_height = (h : Int) := ⟨tile_height.toNat, by omega⟩
    simp only [Int.toNat_ofNat]
  · have hrow : ∀ y : Nat, ((List.range w).flatMap fun x =>
        (FractalEngine.colorAt size_bits log viewport params type julia_c_real julia_c_imag
          (x_start + (x : Int)) (y_start + (y : Int))).bytes).length = 4 * w := by
      intro y
      rw [length_flatMap_bytes, List.length_range]
    rw [(flatMap_range_uniform _ (4 * w) hrow h).1]
    push_cast
    ring
  · intro x y hx0 hxw hy0 hyh
    obtain ⟨x, rfl⟩ : ∃ n : Nat, x = (n : Int) := ⟨x.toNat, by omega⟩
    obtain ⟨y, rfl⟩ : ∃ n : Nat, y = (n : Int) := ⟨y.toNat, by omega⟩
    have hrow : ∀ y : Nat, ((List.range w).flatMap fun x =>
        (FractalEngine.colorAt size_bits log viewport params type julia_c_real julia_c_imag
          (x_start + (x : Int)) (y_start + (y : Int))).bytes).length = 4 * w := by
      intro y
      rw [length_flatMap_bytes, List.length_range]
    have hpix : ∀ x : Nat,
        (FractalEngine.colorAt size_bits log viewport params type julia_c_real julia_c_imag
          (x_start + (x : Int)) (y_start + (y : Int))).bytes.length = 4 := fun _ => rfl
    have hrows := (flatMap_range_uniform _ (4 * w) hrow h).2 y
    have hcols := (flatMap_range_uniform _ 4 hpix w).2 x
    have hoff : (((y : Int) * (w : Int) + (x : Int)) * 4).toNat = y * (4 * w) + x * 4 := by
      have : ((y : Int) * (w : Int) + (x : Int)) * 4 = ((y * (4 * w) + x * 4 : Nat) : Int) := by
        push_cast; ring
      rw [this, Int.toNat_ofNat]
    have hyN : y < h := by omega
    have hxN : x < w := by omega
    rw [hoff]
    refine ⟨?_, ?_, ?_, ?_⟩
    · rw [show y * (4 * w) + x * 4 = y * (4 * w) + (x * 4 + 0) by omega,
        hrows (x * 4 + 0) hyN (by omega), hcols 0 hxN (by omega)]
      rfl
    · rw [show y * (4 * w) + x * 4 + 1 = y * (4 * w) + (x * 4 + 1) by omega,
        hrows (x * 4 + 1) hyN (by omega), hcols 1 hxN (by omega)]
      rfl
    · rw [show y * (4 * w) + x * 4 + 2 = y * (4 * w) + (x * 4 + 2) by omega,
        hrows (x * 4 + 2) hyN (by omega), hcols 2 hxN (by omega)]
      rfl
    · rw [show y * (4 * w) + x * 4 + 3 = y * (4 * w) + (x * 4 + 3) by omega,
        hrows (x * 4 + 3) hyN (by omega), hcols 3 hxN (by omega)]
      rfl
  · intro i hi
    have hrow : ∀ y : Nat, ((List.range w).flatMap fun x =>
        (FractalEngine.colorAt size_bits log viewport params type julia_c_real julia_c_imag
          (x_start + (x : Int)) (y_start + (y : Int))).bytes).length = 4 * w := by
      intro y
      rw [length_flatMap_bytes, List.length_range]
    rw [(flatMap_range_uniform _ (4 * w) hrow h).1] at hi
    have hw0 : 0 < w := by
      rcases Nat.eq_zero_or_pos w with h0 | h0
      · subst h0; simp at hi
      · exact h0
    have hp : i / 4 < h * w := by
      have : h * (4 * w) = 4 * (h * w) := by ring
      omega
    obtain ⟨a, b, ha, hb, hab⟩ : ∃ a b : Nat, a < h ∧ b < w ∧ w * a + b = i / 4 :=
      ⟨i / 4 / w, i / 4 % w, (Nat.div_lt_iff_lt_mul hw0).2 hp, Nat.mod_lt _ hw0,
        Nat.div_add_mod _ _⟩
    refine ⟨(b : Int), (a : Int), Int.natCast_nonneg b, Int.ofNat_lt.2 hb, Int.natCast_nonneg a,
      Int.ofNat_lt.2 ha, ?_⟩
    have hoff : ((a : Int) * (w : Int) + (b : Int)) * 4 = ((4 * (i / 4) : Nat) : Int) := by
      rw [← hab]
      push_cast
      ring
    rw [hoff, Int.toNat_ofNat]
    omega

/-- Witness of the amended C9: a `2 x 2` tile at the origin of an `800 x 600` Mandelbrot
view. -/
theorem C9_renderTile_buffer_witness :
    ∃ buf : List Nat,
      (∀ pixel_buffer : List Nat,
        FractalEngine.renderTile 32 (fun x : ℚ => x) 0 0 2 2
          (ViewportManager.createDefault 800 600) ⟨10, 4, true, 0⟩ FractalType.MANDELBROT 0 0
          pixel_buffer = some buf) ∧
      buf.length = 16 :=
  let ⟨buf, h1, h2, _⟩ := C9_renderTile_buffer 32 (fun x : ℚ => x) 0 0 2 2
    (ViewportManager.createDefault 800 600) ⟨10, 4, true, 0⟩ FractalType.MANDELBROT 0 0
    (by decide) (by decide) (by decide) (by decide) (by decide)
  ⟨buf, h1, by exact_mod_cast h2⟩

/-! ## Palette selection -/

/-- C11: for every `palette_id` and every two prior palette states (built-in, custom or
empty), `initPalette(palette_id)` leaves the same palette from both, and that palette has
exactly 256 colours. -/
theorem C11_initPalette_state_independent (palette_id : Int) (s1 s2 : ColorPalette) :
    (s1.initPalette palette_id).palette_ = (s2.initPalette palette_id).palette_ ∧
    (s1.initPalette palette_id).palette_.length = 256 ∧
    (∀ colors : List Color,
      ((s1.setCustomColors colors).initPalette palette_id).palette_
        = (s2.initPalette palette_id).palette_) := by
  have h : ∀ a b : ColorPalette, a.initPalette palette_id = b.initPalette palette_id := by
    intro a b
    unfold ColorPalette.initPalette
    split_ifs <;> rfl
  exact ⟨by rw [h s1 s2], initPalette_length s1 palette_id, fun colors => by rw [h _ s2]⟩

/-- C12: for every `palette_id` outside `{0,1,2,3,4}` and every prior state,
`initPalette(palette_id)` leaves the palette `initPalette(0)` leaves, which is the palette
of a freshly constructed `ColorPalette`; the call is total (no error value exists). -/
theorem C12_initPalette_unknown_id_is_classic (self : ColorPalette) (palette_id : Int)
    (hid : palette_id < 0 ∨ 4 < palette_id) :
    self.initPalette palette_id = self.initPalette 0 ∧
    self.initPalette 0 = ColorPalette.new := by
  constructor
  · unfold ColorPalette.initPalette
    rw [if_neg (by omega), if_neg (by omega), if_neg (by omega), if_neg (by omega),
      if_neg (by omega), if_pos rfl]
  · unfold ColorPalette.initPalette ColorPalette.new
    rw [if_pos rfl]
    rfl

/-- C12, witness: the ids `-1` and `5` on a one-colour custom palette. -/
theorem C12_initPalette_unknown_id_is_classic_witness :
    ((-1 : Int) < 0 ∨ 4 < (-1 : Int)) ∧
    (ColorPalette.mk [⟨1, 2, 3, 255⟩]).initPalette (-1)
      = (ColorPalette.mk [⟨1, 2, 3, 255⟩]).initPalette 0 ∧
    (ColorPalette.mk [⟨1, 2, 3, 255⟩]).initPalette 0 = ColorPalette.new :=
  ⟨by decide, C12_initPalette_unknown_id_is_classic ⟨[⟨1, 2, 3, 255⟩]⟩ (-1) (by decide)⟩

/-! ## Two sample points of the Mandelbrot evaluator -/

/-- C13: for every `max_iterations` (in particular every `max_iterations >= 1`), every
`bailout_radius` and either value of
`smooth_coloring`, `Mandelbrot::compute(0.0, 0.0, ...)` returns `inside_set == true` with
`iterations == max_iterations`, and `(0, 0)` passes the main-cardioid test. -/
theorem C13_origin_inside {K : Type} [LinearOrderedField K] (log : K → K)
    (max_iterations : Int) (bailout_radius : K) (smooth_coloring : Bool) :
    (Mandelbrot.compute log 0.0 0.0 max_iterations bailout_radius smooth_coloring).inside_set
      = true ∧
    (Mandelbrot.compute log 0.0 0.0 max_iterations bailout_radius smooth_coloring).iterations
      = max_iterations ∧
    Mandelbrot.inMainCardioid (0.0 : K) 0.0 = true := by
  have hc : Mandelbrot.inMainCardioid (0.0 : K) 0.0 = true := by
    unfold Mandelbrot.inMainCardioid
    simp only [decide_eq_true_eq]
    norm_num
  unfold Mandelbrot.compute
  rw [if_pos hc]
  exact ⟨rfl, rfl, hc⟩

/-- C14, counterexample: with `max_iterations = 1` and `bailout_radius = 4.0`,
`Mandelbrot::compute(2.0, 2.0, ...)` stops after its single permitted iteration and reports
`inside_set == true`, with or without smooth colouring. -/
theorem C14_escape_at_two_two_counterexample :
    (Mandelbrot.compute (fun x : ℚ => x) 2.0 2.0 1 4.0 true).inside_set = true ∧
    (Mandelbrot.compute (fun x : ℚ => x) 2.0 2.0 1 4.0 false).inside_set = true ∧
    (Mandelbrot.compute (fun x : ℚ => x) 2.0 2.0 1 4.0 false).iterations = 1 := by
  decide!

/-- C14, amended: for `bailout_radius = 4.0` and every `max_iterations >= 1`,
`Mandelbrot::compute(2.0, 2.0, ...)` returns `iterations == 1`; the point is in neither
short-circuit region and `|z_1|^2 = 8 > 4`.  `inside_set` is `false` exactly when
`max_iterations >= 2`: with `max_iterations = 1` the escape coincides with the iteration
cap and `inside_set` is `true`. -/
theorem C14_escape_at_two_two {K : Type} [LinearOrderedField K] (log : K → K)
    (max_iterations : Int) (smooth_coloring : Bool) (hmax : 1 ≤ max_iterations) :
    (Mandelbrot.compute log 2.0 2.0 max_iterations 4.0 smooth_coloring).iterations = 1 ∧
    ((Mandelbrot.compute log 2.0 2.0 max_iterations 4.0 smooth_coloring).inside_set = false
      ↔ 2 ≤ max_iterations) ∧
    Mandelbrot.inMainCardioid (2.0 : K) 2.0 = false ∧
    Mandelbrot.inPeriod2Bulb (2.0 : K) 2.0 = false ∧
    (Mandelbrot.compute.loop (2.0 : K) 2.0 max_iterations 4.0 ⟨0.0, 0.0, 0.0, 0.0, 0⟩).z_real2
      + (Mandelbrot.compute.loop (2.0 : K) 2.0 max_iterations 4.0
          ⟨0.0, 0.0, 0.0, 0.0, 0⟩).z_imag2 = 8 := by
  have hc : Mandelbrot.inMainCardioid (2.0 : K) 2.0 = false := by
    unfold Mandelbrot.inMainCardioid
    simp only [decide_eq_false_iff_not]
    norm_num
  have hb : Mandelbrot.inPeriod2Bulb (2.0 : K) 2.0 = false := by
    unfold Mandelbrot.inPeriod2Bulb
    simp only [decide_eq_false_iff_not]
    norm_num
  have hloop : Mandelbrot.compute.loop (2.0 : K) 2.0 max_iterations 4.0
      ⟨0.0, 0.0, 0.0, 0.0, 0⟩ = ⟨2, 2, 4, 4, 1⟩ := by
    rw [Mandelbrot.compute.loop, if_pos ⟨by norm_num, by simpa using hmax⟩]
    rw [Mandelbrot.compute.loop, if_neg (by norm_num)]
    norm_num
  have hres := smoothResult_iterations log
    (Mandelbrot.compute.loop (2.0 : K) 2.0 max_iterations 4.0 ⟨0.0, 0.0, 0.0, 0.0, 0⟩)
    max_iterations smooth_coloring
  unfold Mandelbrot.compute
  rw [hc, hb]
  simp only [Bool.false_eq_true, if_false]
  rw [hres.1, hres.2, hloop]
  refine ⟨rfl, ?_, trivial, trivial, by norm_num⟩
  simp only [decide_eq_false_iff_not, ge_iff_le, not_le]
  omega

/-- C14, witness: `max_iterations = 2`, smooth colouring on, over the rationals. -/
theorem C14_escape_at_two_two_witness :
    (1 : Int) ≤ 2 ∧
    (Mandelbrot.compute (fun x : ℚ => x) 2.0 2.0 2 4.0 true).iterations = 1 ∧
    (Mandelbrot.compute (fun x : ℚ => x) 2.0 2.0 2 4.0 true).inside_set = false :=
  ⟨by decide, (C14_escape_at_two_two (fun x : ℚ => x) 2 true (by decide)).1,
    (C14_escape_at_two_two (fun x : ℚ => x) 2 true (by decide)).2.1.2 (by decide)⟩

/-! ## Tile order -/

/-- C15, counterexample: for `viewport_width = 1`, `viewport_height = 2^30 + 2` and
`tile_size = 2^30 + 1` the row counter `y` overflows after the second row.  Whenever the
loops finish (fuel 6 suffices) the result holds five tiles, not
`ceil(W/tile_size) * ceil(H/tile_size) = 2`, and its third tile has a negative `y`. -/
theorem C15_generateTiles_row_major_counterexample :
    ceilDiv 1 1073741825 * ceilDiv 1073741826 1073741825 = 2 ∧
    TileManager.generateTiles 6 1 1073741826 1073741825
      = some [⟨0, 0, 1, 1073741825⟩, ⟨0, 1073741825, 1, 1⟩,
          ⟨0, -2147483646, 1, -1073741824⟩, ⟨0, -1073741821, 1, 1073741825⟩,
          ⟨0, 4, 1, 1073741822⟩] ∧
    (∀ fuel tiles, TileManager.generateTiles fuel 1 1073741826 1073741825 = some tiles →
      tiles.length = 5) := by
  refine ⟨by decide, by decide, ?_⟩
  intro fuel tiles h
  rcases Nat.lt_or_ge fuel 6 with hlt | hge
  · interval_cases fuel <;> simp [TileManager.generateTiles, TileManager.generateTiles.colLoop,
      TileManager.generateTiles.rowLoop, wrap32] at h
  · obtain ⟨f, rfl⟩ : ∃ f, fuel = f + 6 := ⟨fuel - 6, by omega⟩
    simp [TileManager.generateTiles, TileManager.generateTiles.colLoop,
      TileManager.generateTiles.rowLoop, wrap32] at h
    rw [← h]
    simp

/-- C15, amended: for `W > 0`, `H > 0` and `tile_size > 0` such that
`tile_size * ceil(W / tile_size)` and `tile_size * ceil(H / tile_size)` do not exceed
`INT_MAX = 2^31 - 1`, `generateTiles` terminates and returns exactly
`ceil(W/tile_size) * ceil(H/tile_size)` tiles in row-major order: the tile at position
`r * ceil(W/tile_size) + k` (row `r`, column `k`) has `x = k * tile_size`,
`y = r * tile_size`, `width = min(tile_size, W - x)` and `height = min(tile_size, H - y)`;
its width is `tile_size` unless it is in the last column and its height is `tile_size`
unless it is in the last row. -/
theorem C15_generateTiles_row_major (W H ts : Int) (hW : 0 < W) (hH : 0 < H) (hts : 0 < ts)
    (hfitW : (ceilDiv W ts : Int) * ts ≤ 2147483647)
    (hfitH : (ceilDiv H ts : Int) * ts ≤ 2147483647) :
    ∃ tiles : List Tile,
      (∀ fuel : Nat, ceilDiv W ts < fuel → ceilDiv H ts < fuel →
        TileManager.generateTiles fuel W H ts = some tiles) ∧
      tiles.length = ceilDiv W ts * ceilDiv H ts ∧
      (∀ r k : Nat, r < ceilDiv H ts → k < ceilDiv W ts →
        tiles[r * ceilDiv W ts + k]?
          = some ⟨(k : Int) * ts, (r : Int) * ts, min ts (W - (k : Int) * ts),
              min ts (H - (r : Int) * ts)⟩ ∧
        (k + 1 < ceilDiv W ts → min ts (W - (k : Int) * ts) = ts) ∧
        (r + 1 < ceilDiv H ts → min ts (H - (r : Int) * ts) = ts)) := by
  have huni := flatMap_range_uniform
    (fun r => (List.range (ceilDiv W ts)).map fun k => TileManager.gridTile W H ts r k)
    (ceilDiv W ts) (fun i => by simp) (ceilDiv H ts)
  refine ⟨TileManager.gridTiles W H ts,
    fun fuel h1 h2 => generateTiles_eq_gridTiles W H ts hW hH hts hfitW hfitH fuel h1 h2,
    ?_, ?_⟩
  · unfold TileManager.gridTiles
    rw [huni.1, Nat.mul_comm]
  · intro r k hr hk
    refine ⟨?_, ?_, ?_⟩
    · unfold TileManager.gridTiles
      rw [huni.2 r k hr hk]
      simp [TileManager.gridTile, hk]
    · intro hk1
      have h := mul_lt_of_lt_ceilDiv W ts hW hts (k + 1) hk1
      have : ((k + 1 : Nat) : Int) * ts = (k : Int) * ts + ts := by push_cast; ring
      rw [min_eq_left]
      omega
    · intro hr1
      have h := mul_lt_of_lt_ceilDiv H ts hH hts (r + 1) hr1
      have : ((r + 1 : Nat) : Int) * ts = (r : Int) * ts + ts := by push_cast; ring
      rw [min_eq_left]
      omega

/-- C15, witness: a `100 x 50` viewport with tiles of size 64 gives two tiles in one row. -/
theorem C15_generateTiles_row_major_witness :
    ∃ tiles : List Tile,
      (∀ fuel : Nat, ceilDiv 100 64 < fuel → ceilDiv 50 64 < fuel →
        TileManager.generateTiles fuel 100 50 64 = some tiles) ∧
      tiles.length = ceilDiv 100 64 * ceilDiv 50 64 ∧
      (∀ r k : Nat, r < ceilDiv 50 64 → k < ceilDiv 100 64 →
        tiles[r * ceilDiv 100 64 + k]?
          = some ⟨(k : Int) * 64, (r : Int) * 64, min 64 (100 - (k : Int) * 64),
              min 64 (50 - (r : Int) * 64)⟩ ∧
        (k + 1 < ceilDiv 100 64 → min 64 (100 - (k : Int) * 64) = 64) ∧
        (r + 1 < ceilDiv 50 64 → min 64 (50 - (r : Int) * 64) = 64)) :=
  C15_generateTiles_row_major 100 50 64 (by decide) (by decide) (by decide) (by decide)
    (by decide)

/-- Comparing the values of any function into a linear order is a strict weak ordering. -/
theorem isStrictWeakOrdering_of_key {β : Type} [LinearOrder β] (key : Tile → β) :
    IsStrictWeakOrdering (fun a b => decide (key a < key b)) := by
  refine ⟨?_, ?_, ?_⟩
  · intro a
    simp
  · intro a b c hab hbc
    simp only [decide_eq_true_eq] at hab hbc ⊢
    exact lt_trans hab hbc
  · intro a b c h1 h2 h3 h4
    simp only [decide_eq_false_iff_not, not_lt] at h1 h2 h3 h4 ⊢
    exact ⟨le_trans h3 h1, le_trans h2 h4⟩

/-- Insertion sort meets the contract of `std::sort`. -/
theorem insertionSortBy_contract : StdSortContract insertionSortBy := by
  intro comp hswo l
  obtain ⟨hirr, htr, hinc⟩ := hswo
  have hasym : ∀ a b, comp a b = true → comp b a = false := by
    intro a b hab
    by_contra hba
    have := htr a b a hab (by simpa using hba)
    rw [hirr a] at this
    exact Bool.false_ne_true this
  haveI : IsTotal Tile (fun a b => comp b a = false) := ⟨by
    intro a b
    by_cases h : comp b a = true
    · exact Or.inr (hasym b a h)
    · exact Or.inl (by simpa using h)⟩
  haveI : IsTrans Tile (fun a b => comp b a = false) := ⟨by
    intro a b c hba hcb
    show comp c a = false
    by_contra hca
    have hca1 : comp c a = true := by simpa using hca
    have hbc : comp b c = false := by
      by_contra hbc
      have := htr b c a (by simpa using hbc) hca1
      rw [hba] at this
      exact Bool.false_ne_true this
    have hab : comp a b = false := by
      by_contra hab
      have := htr c a b hca1 (by simpa using hab)
      rw [hcb] at this
      exact Bool.false_ne_true this
    have := (hinc a b c hab hba hbc hcb).2
    exact hca this⟩
  exact ⟨List.perm_insertionSort _ l, List.sorted_insertionSort _ l⟩

/-- For any sorting function meeting the contract of `std::sort` and any `hypot`, the
result of `sortByDistanceFromCenter` is a rearrangement of the input in ascending order of
the `hypot` value of each tile's centre offset. -/
theorem sortByDistance_sorted {K : Type} [LinearOrderedField K]
    (sort : (Tile → Tile → Bool) → List Tile → List Tile) (hsort : StdSortContract sort)
    (hypot : K → K → K) (tiles : List Tile) (viewport_width viewport_height : Int) :
    (TileManager.sortByDistanceFromCenter sort hypot tiles viewport_width
      viewport_height).Perm tiles ∧
    (TileManager.sortByDistanceFromCenter sort hypot tiles viewport_width
      viewport_height).Pairwise (fun a b =>
        hypot ((a.x : K) + (a.width : K) / 2 - (viewport_width : K) / 2)
            ((a.y : K) + (a.height : K) / 2 - (viewport_height : K) / 2)
          ≤ hypot ((b.x : K) + (b.width : K) / 2 - (viewport_width : K) / 2)
            ((b.y : K) + (b.height : K) / 2 - (viewport_height : K) / 2)) := by
  have h := hsort _ (isStrictWeakOrdering_of_key (fun t : Tile =>
    hypot ((t.x : K) + (t.width : K) / 2 - (viewport_width : K) / 2)
      ((t.y : K) + (t.height : K) / 2 - (viewport_height : K) / 2))) tiles
  have h2 : (2.0 : K) = 2 := by norm_num
  unfold TileManager.sortByDistanceFromCenter
  simp only [h2]
  refine ⟨h.1, h.2.imp ?_⟩
  intro a b hab
  simpa using hab

/-- C16: for every list of tiles and every `viewport_width`, `viewport_height`, with
`std::sort` any function meeting its contract and `hypot(x, y) = sqrt(x^2 + y^2)`, the list
left by `sortByDistanceFromCenter` is a permutation of the input and is ordered by ascending
Euclidean distance from each tile's centroid `(x + width/2, y + height/2)` to the viewport
centre `(viewport_width/2, viewport_height/2)`: every tile's distance is at most that of
every later tile, in particular of the tile right after it. -/
theorem C16_sortByDistance_sorted_permutation
    (sort : (Tile → Tile → Bool) → List Tile → List Tile) (hsort : StdSortContract sort)
    (tiles : List Tile) (viewport_width viewport_height : Int) :
    (TileManager.sortByDistanceFromCenter sort (fun x y : ℝ => Real.sqrt (x ^ 2 + y ^ 2))
      tiles viewport_width viewport_height).Perm tiles ∧
    (TileManager.sortByDistanceFromCenter sort (fun x y : ℝ => Real.sqrt (x ^ 2 + y ^ 2))
      tiles viewport_width viewport_height).Pairwise (fun a b =>
        Real.sqrt (((a.x : ℝ) + (a.width : ℝ) / 2 - (viewport_width : ℝ) / 2) ^ 2
            + ((a.y : ℝ) + (a.height : ℝ) / 2 - (viewport_height : ℝ) / 2) ^ 2)
          ≤ Real.sqrt (((b.x : ℝ) + (b.width : ℝ) / 2 - (viewport_width : ℝ) / 2) ^ 2
            + ((b.y : ℝ) + (b.height : ℝ) / 2 - (viewport_height : ℝ) / 2) ^ 2)) ∧
    (TileManager.sortByDistanceFromCenter sort (fun x y : ℝ => Real.sqrt (x ^ 2 + y ^ 2))
      tiles viewport_width viewport_height).Chain' (fun a b =>
        Real.sqrt (((a.x : ℝ) + (a.width : ℝ) / 2 - (viewport_width : ℝ) / 2) ^ 2
            + ((a.y : ℝ) + (a.height : ℝ) / 2 - (viewport_height : ℝ) / 2) ^ 2)
          ≤ Real.sqrt (((b.x : ℝ) + (b.width : ℝ) / 2 - (viewport_width : ℝ) / 2) ^ 2
            + ((b.y : ℝ) + (b.height : ℝ) / 2 - (viewport_height : ℝ) / 2) ^ 2)) := by
  have h := sortByDistance_sorted sort hsort (fun x y : ℝ => Real.sqrt (x ^ 2 + y ^ 2)) tiles
    viewport_width viewport_height
  exact ⟨h.1, h.2, List.Pairwise.chain' h.2⟩

/-- C16, witness: insertion sort meets the contract of `std::sort`, and the two tiles of a
`100 x 50` viewport cut at `x = 64`, given right tile first. -/
theorem C16_sortByDistance_sorted_permutation_witness :
    StdSortContract insertionSortBy ∧
    (TileManager.sortByDistanceFromCenter insertionSortBy
      (fun x y : ℝ => Real.sqrt (x ^ 2 + y ^ 2)) [⟨64, 0, 36, 50⟩, ⟨0, 0, 64, 50⟩]
      100 50).Perm [⟨64, 0, 36, 50⟩, ⟨0, 0, 64, 50⟩] :=
  ⟨insertionSortBy_contract,
    (C16_sortByDistance_sorted_permutation insertionSortBy insertionSortBy_contract
      [⟨64, 0, 36, 50⟩, ⟨0, 0, 64, 50⟩] 100 50).1⟩

/-! ## Pass table -/

/-- C17: for every `base_max_iterations >= 0`, `getPassParams` returns
`(resolution_scale, max_iterations)` = `(0.25, max(100, base/10))` for Preview,
`(0.5, max(200, base/5))` for Low, `(0.75, max(500, base/2))` for Medium and `(1.0, base)`
for High, records the requested pass, and `getAdaptiveIterations` returns the same
`max_iterations`; so Preview, Low and Medium get at least 100, 200 and 500 iterations. -/
theorem C17_pass_table {K : Type} [LinearOrderedField K] (base_max_iterations : Int)
    (hbase : 0 ≤ base_max_iterations) :
    (ProgressiveRenderer.getPassParams (K := K) RenderPass.PASS_PREVIEW base_max_iterations
      = ⟨RenderPass.PASS_PREVIEW, 0.25, max 100 (base_max_iterations / 10)⟩) ∧
    (ProgressiveRenderer.getPassParams (K := K) RenderPass.PASS_LOW base_max_iterations
      = ⟨RenderPass.PASS_LOW, 0.5, max 200 (base_max_iterations / 5)⟩) ∧
    (ProgressiveRenderer.getPassParams (K := K) RenderPass.PASS_MEDIUM base_max_iterations
      = ⟨RenderPass.PASS_MEDIUM, 0.75, max 500 (base_max_iterations / 2)⟩) ∧
    (ProgressiveRenderer.getPassParams (K := K) RenderPass.PASS_HIGH base_max_iterations
      = ⟨RenderPass.PASS_HIGH, 1.0, base_max_iterations⟩) ∧
    (∀ pass : RenderPass,
      (ProgressiveRenderer.getPassParams (K := K) pass base_max_iterations).pass = pass ∧
      ProgressiveRenderer.getAdaptiveIterations pass base_max_iterations
        = (ProgressiveRenderer.getPassParams (K := K) pass base_max_iterations).max_iterations) ∧
    100 ≤ ProgressiveRenderer.getAdaptiveIterations RenderPass.PASS_PREVIEW base_max_iterations ∧
    200 ≤ ProgressiveRenderer.getAdaptiveIterations RenderPass.PASS_LOW base_max_iterations ∧
    500 ≤ ProgressiveRenderer.getAdaptiveIterations RenderPass.PASS_MEDIUM base_max_iterations := by
  have h10 := (tdiv_bounds base_max_iterations 10 (by norm_num)).1 hbase
  have h5 := (tdiv_bounds base_max_iterations 5 (by norm_num)).1 hbase
  have h2 := (tdiv_bounds base_max_iterations 2 (by norm_num)).1 hbase
  refine ⟨?_, ?_, ?_, ?_, ?_, ?_, ?_, ?_⟩
  · simp only [ProgressiveRenderer.getPassParams, h10]
  · simp only [ProgressiveRenderer.getPassParams, h5]
  · simp only [ProgressiveRenderer.getPassParams, h2]
  · simp only [ProgressiveRenderer.getPassParams]
  · intro pass
    cases pass <;> exact ⟨rfl, rfl⟩
  · simp only [ProgressiveRenderer.getAdaptiveIterations, ProgressiveRenderer.getPassParams]
    exact le_max_left _ _
  · simp only [ProgressiveRenderer.getAdaptiveIterations, ProgressiveRenderer.getPassParams]
    exact le_max_left _ _
  · simp only [ProgressiveRenderer.getAdaptiveIterations, ProgressiveRenderer.getPassParams]
    exact le_max_left _ _

/-- C17, witness: base budget 1000 gives Preview 100, Low 200, Medium 500 and High 1000. -/
theorem C17_pass_table_witness :
    (0 : Int) ≤ 1000 ∧
    ProgressiveRenderer.getPassParams (K := ℚ) RenderPass.PASS_PREVIEW 1000
      = ⟨RenderPass.PASS_PREVIEW, 0.25, max 100 (1000 / 10)⟩ :=
  ⟨by decide, (C17_pass_table (K := ℚ) 1000 (by decide)).1⟩

/-! ## Palette lookup -/

/-- The channel conversion of `interpolateColors` on `uint8_t` channels and `0 <= t <= 1`:
it is the integer part of the blend, lies between the two channels and is the first channel
when `t = 0`. -/
theorem toUInt8_blend {K : Type} [LinearOrderedField K] [FloorRing K] (c1 c2 : Nat) (t : K)
    (h1 : c1 < 256) (h2 : c2 < 256) (ht0 : 0 ≤ t) (ht1 : t ≤ 1) :
    toUInt8 ((c1 : K) + t * (((c2 : Int) - (c1 : Int) : Int) : K)) = blendChannel c1 c2 t ∧
    min c1 c2 ≤ blendChannel c1 c2 t ∧ blendChannel c1 c2 t ≤ max c1 c2 ∧
    (t = 0 → blendChannel c1 c2 t = c1) := by
  have hv : ((c1 : K) + t * (((c2 : Int) - (c1 : Int) : Int) : K))
      = (c1 : K) + t * ((c2 : K) - (c1 : K)) := by push_cast; ring
  have hlo : ((min c1 c2 : Nat) : K) ≤ (c1 : K) + t * ((c2 : K) - (c1 : K)) := by
    rcases le_total c1 c2 with h | h
    · rw [min_eq_left h]
      have : (c1 : K) ≤ (c2 : K) := by exact_mod_cast h
      nlinarith
    · rw [min_eq_right h]
      have : (c2 : K) ≤ (c1 : K) := by exact_mod_cast h
      nlinarith
  have hhi : (c1 : K) + t * ((c2 : K) - (c1 : K)) ≤ ((max c1 c2 : Nat) : K) := by
    rcases le_total c1 c2 with h | h
    · rw [max_eq_right h]
      have : (c1 : K) ≤ (c2 : K) := by exact_mod_cast h
      nlinarith
    · rw [max_eq_left h]
      have : (c2 : K) ≤ (c1 : K) := by exact_mod_cast h
      nlinarith
  have hfl : ((min c1 c2 : Nat) : Int) ≤ ⌊(c1 : K) + t * ((c2 : K) - (c1 : K))⌋ :=
    Int.le_floor.2 (by exact_mod_cast hlo)
  have hfh : ⌊(c1 : K) + t * ((c2 : K) - (c1 : K))⌋ ≤ ((max c1 c2 : Nat) : Int) := by
    have h := le_trans (Int.floor_le ((c1 : K) + t * ((c2 : K) - (c1 : K)))) hhi
    exact_mod_cast h
  have hmaxlt : max c1 c2 < 256 := max_lt h1 h2
  have h0 : (0 : K) ≤ (c1 : K) + t * ((c2 : K) - (c1 : K)) :=
    le_trans (Nat.cast_nonneg _) hlo
  refine ⟨?_, ?_, ?_, ?_⟩
  · unfold toUInt8 truncToInt blendChannel
    rw [hv, if_pos h0, Int.emod_eq_of_lt (by omega) (by omega)]
  · unfold blendChannel
    omega
  · unfold blendChannel
    omega
  · intro ht
    unfold blendChannel
    rw [ht]
    simp

/-- The index arithmetic of `getColor` for a non-empty palette whose size fits an `int` and
`0 <= smooth_value < max_iterations`: the two entries read are those at `i mod n` and
`(i + 1) mod n` for `i = floor(p)`, and the blend weight is `p - i`, which lies in `[0, 1)`. -/
theorem getColor_eq_interpolate {K : Type} [LinearOrderedField K] [FloorRing K]
    (size_bits : Nat) (palette : ColorPalette) (smooth_value : K) (max_iterations : Int)
    (hne : palette.palette_ ≠ []) (hint : palette.palette_.length ≤ 2147483647)
    (hbits : palette.palette_.length < 2 ^ size_bits) (hmax : 0 < max_iterations)
    (h0 : 0 ≤ smooth_value) (hlt : smooth_value < (max_iterations : K)) :
    palette.getColor size_bits smooth_value max_iterations
      = ColorPalette.interpolateColors
          (palette.palette_.getD
            (⌊smooth_value / (max_iterations : K) * (palette.palette_.length : K)⌋
              % (palette.palette_.length : Int)).toNat ⟨0, 0, 0, 255⟩)
          (palette.palette_.getD
            ((⌊smooth_value / (max_iterations : K) * (palette.palette_.length : K)⌋ + 1)
              % (palette.palette_.length : Int)).toNat ⟨0, 0, 0, 255⟩)
          (smooth_value / (max_iterations : K) * (palette.palette_.length : K)
            - (⌊smooth_value / (max_iterations : K) * (palette.palette_.length : K)⌋ : K)) ∧
    0 ≤ ⌊smooth_value / (max_iterations : K) * (palette.palette_.length : K)⌋ ∧
    ⌊smooth_value / (max_iterations : K) * (palette.palette_.length : K)⌋
      < (palette.palette_.length : Int) := by
  have hn : 0 < palette.palette_.length := List.length_pos.2 hne
  have hmaxK : (0 : K) < (max_iterations : K) := by exact_mod_cast hmax
  have hnK : (0 : K) < (palette.palette_.length : K) := by exact_mod_cast hn
  have hnorm0 : 0 ≤ smooth_value / (max_iterations : K) := div_nonneg h0 (le_of_lt hmaxK)
  have hnorm1 : smooth_value / (max_iterations : K) < 1 := (div_lt_one hmaxK).2 hlt
  have hp0 : 0 ≤ smooth_value / (max_iterations : K) * (palette.palette_.length : K) :=
    mul_nonneg hnorm0 (le_of_lt hnK)
  have hpn : smooth_value / (max_iterations : K) * (palette.palette_.length : K)
      < (palette.palette_.length : K) := by
    have := mul_lt_mul_of_pos_right hnorm1 hnK
    rwa [one_mul] at this
  have hi0 : 0 ≤ ⌊smooth_value / (max_iterations : K) * (palette.palette_.length : K)⌋ :=
    Int.floor_nonneg.2 hp0
  have hin : ⌊smooth_value / (max_iterations : K) * (palette.palette_.length : K)⌋
      < (palette.palette_.length : Int) := by
    apply Int.floor_lt.2
    exact_mod_cast hpn
  refine ⟨?_, hi0, hin⟩
  generalize hi : ⌊smooth_value / (max_iterations : K) * (palette.palette_.length : K)⌋ = i
    at hi0 hin ⊢
  have hpow : ((palette.palette_.length : Nat) : Int) < (2 : Int) ^ size_bits := by
    exact_mod_cast hbits
  have hw1 : wrap32 i = i := by unfold wrap32; omega
  have hm1 : i % (2 : Int) ^ size_bits = i := Int.emod_eq_of_lt hi0 (by omega)
  have hn1 : i % (palette.palette_.length : Int) = i := Int.emod_eq_of_lt hi0 hin
  have hw2 : wrap32 (i + 1) = i + 1 := by unfold wrap32; omega
  have hm2 : (i + 1) % (2 : Int) ^ size_bits = i + 1 := Int.emod_eq_of_lt (by omega) (by omega)
  have hlt2 : (i + 1) % (palette.palette_.length : Int) < (palette.palette_.length : Int) :=
    Int.emod_lt_of_pos _ (by omega)
  have hge2 : 0 ≤ (i + 1) % (palette.palette_.length : Int) :=
    Int.emod_nonneg _ (by omega)
  have hw3 : wrap32 ((i + 1) % (palette.palette_.length : Int))
      = (i + 1) % (palette.palette_.length : Int) := by unfold wrap32; omega
  have hm3 : ((i + 1) % (palette.palette_.length : Int)) % (2 : Int) ^ size_bits
      = (i + 1) % (palette.palette_.length : Int) := Int.emod_eq_of_lt hge2 (by omega)
  unfold ColorPalette.getColor
  rw [if_neg (not_le.2 hlt)]
  simp only [truncToInt, if_pos hp0, hi, hw1, hm1, hn1, hw2, hm2, hw3, hm3]

theorem twoWhite_length (m : Nat) : (ColorPalette.twoWhite m).palette_.length = m + 7 := by
  simp [ColorPalette.twoWhite]

theorem twoWhite_getD (m : Nat) (d : Color) :
    (ColorPalette.twoWhite m).palette_.getD 5 d = ⟨255, 255, 255, 255⟩ ∧
    (ColorPalette.twoWhite m).palette_.getD 6 d = ⟨255, 255, 255, 255⟩ ∧
    (ColorPalette.twoWhite m).palette_.getD 0 d = ⟨0, 0, 0, 255⟩ ∧
    (∀ k, k < m → (ColorPalette.twoWhite m).palette_.getD (k + 7) d = ⟨0, 0, 0, 255⟩) := by
  refine ⟨?_, ?_, ?_, ?_⟩
  · simp [ColorPalette.twoWhite, List.getD_eq_getElem?_getD, List.getElem?_append_right]
  · simp [ColorPalette.twoWhite, List.getD_eq_getElem?_getD, List.getElem?_append_right]
  · simp [ColorPalette.twoWhite, List.getD_eq_getElem?_getD, List.getElem?_append_left]
  · intro k hk
    have h7 : k + 7 - 5 = (k + 1) + 1 := by omega
    simp [ColorPalette.twoWhite, List.getD_eq_getElem?_getD, List.getElem?_append_right, h7,
      List.getElem?_replicate, hk]

/-- The result of `getColor` for a non-empty palette of `uint8_t` colours whose size fits an
`int`, and `0 <= smooth_value < max_iterations`, in terms of the entries `c1`, `c2` at
`i mod n`, `(i + 1) mod n` and the weight `t = p - i`. -/
theorem getColor_blend {K : Type} [LinearOrderedField K] [FloorRing K]
    (size_bits : Nat) (palette : ColorPalette) (smooth_value : K) (max_iterations : Int)
    (hne : palette.palette_ ≠ []) (hvalid : ∀ c ∈ palette.palette_, c.valid)
    (hint : palette.palette_.length ≤ 2147483647)
    (hbits : palette.palette_.length < 2 ^ size_bits) (hmax : 0 < max_iterations)
    (h0 : 0 ≤ smooth_value) (hlt : smooth_value < (max_iterations : K))
    (i : Int) (t : K) (c1 c2 : Color)
    (hi : i = ⌊smooth_value / (max_iterations : K) * (palette.palette_.length : K)⌋)
    (ht : t = smooth_value / (max_iterations : K) * (palette.palette_.length : K) - (i : K))
    (hc1 : c1 = palette.palette_.getD (i % (palette.palette_.length : Int)).toNat
      ⟨0, 0, 0, 255⟩)
    (hc2 : c2 = palette.palette_.getD ((i + 1) % (palette.palette_.length : Int)).toNat
      ⟨0, 0, 0, 255⟩) :
    c1 ∈ palette.palette_ ∧ c2 ∈ palette.palette_ ∧
    palette.getColor size_bits smooth_value max_iterations
      = ⟨blendChannel c1.r c2.r t, blendChannel c1.g c2.g t, blendChannel c1.b c2.b t,
          blendChannel c1.a c2.a t⟩ ∧
    (min c1.r c2.r ≤ blendChannel c1.r c2.r t ∧ blendChannel c1.r c2.r t ≤ max c1.r c2.r) ∧
    (min c1.g c2.g ≤ blendChannel c1.g c2.g t ∧ blendChannel c1.g c2.g t ≤ max c1.g c2.g) ∧
    (min c1.b c2.b ≤ blendChannel c1.b c2.b t ∧ blendChannel c1.b c2.b t ≤ max c1.b c2.b) ∧
    (min c1.a c2.a ≤ blendChannel c1.a c2.a t ∧ blendChannel c1.a c2.a t ≤ max c1.a c2.a) ∧
    (t = 0 → palette.getColor size_bits smooth_value max_iterations = c1) := by
  obtain ⟨heq, hi0, hin⟩ := getColor_eq_interpolate size_bits palette smooth_value
    max_iterations hne hint hbits hmax h0 hlt
  rw [← hi] at heq hi0 hin
  rw [← ht, ← hc1, ← hc2] at heq
  have hn : 0 < palette.palette_.length := List.length_pos.2 hne
  have hmem : ∀ j : Int, (palette.palette_.getD (j % (palette.palette_.length : Int)).toNat
      ⟨0, 0, 0, 255⟩) ∈ palette.palette_ := by
    intro j
    have h1 : 0 ≤ j % (palette.palette_.length : Int) := Int.emod_nonneg _ (by omega)
    have h2 : j % (palette.palette_.length : Int) < (palette.palette_.length : Int) :=
      Int.emod_lt_of_pos _ (by omega)
    have h3 : (j % (palette.palette_.length : Int)).toNat < palette.palette_.length := by
      omega
    rw [List.getD_eq_getElem _ _ h3]
    exact List.getElem_mem _
  have hm1 : c1 ∈ palette.palette_ := by rw [hc1]; exact hmem i
  have hm2 : c2 ∈ palette.palette_ := by rw [hc2]; exact hmem (i + 1)
  have hv1 := hvalid c1 hm1
  have hv2 := hvalid c2 hm2
  unfold Color.valid at hv1 hv2
  have ht0 : 0 ≤ t := by
    rw [ht, hi]
    exact sub_nonneg.2 (Int.floor_le _)
  have ht1 : t ≤ 1 := by
    rw [ht, hi]
    have := Int.lt_floor_add_one
      (smooth_value / (max_iterations : K) * (palette.palette_.length : K))
    linarith
  have hclamp : max (0.0 : K) (min 1.0 t) = t := by
    rw [min_eq_right (by norm_num; exact ht1), max_eq_right (by norm_num; exact ht0)]
  have hr := toUInt8_blend c1.r c2.r t hv1.1 hv2.1 ht0 ht1
  have hg := toUInt8_blend c1.g c2.g t hv1.2.1 hv2.2.1 ht0 ht1
  have hb := toUInt8_blend c1.b c2.b t hv1.2.2.1 hv2.2.2.1 ht0 ht1
  have ha := toUInt8_blend c1.a c2.a t hv1.2.2.2 hv2.2.2.2 ht0 ht1
  have hout : palette.getColor size_bits smooth_value max_iterations
      = ⟨blendChannel c1.r c2.r t, blendChannel c1.g c2.g t, blendChannel c1.b c2.b t,
          blendChannel c1.a c2.a t⟩ := by
    rw [heq]
    unfold ColorPalette.interpolateColors
    simp only [hclamp, hr.1, hg.1, hb.1, ha.1]
  refine ⟨hm1, hm2, hout, ⟨hr.2.1, hr.2.2.1⟩, ⟨hg.2.1, hg.2.2.1⟩, ⟨hb.2.1, hb.2.2.1⟩,
    ⟨ha.2.1, ha.2.2.1⟩, ?_⟩
  intro htz
  rw [hout, hr.2.2.2 htz, hg.2.2.2 htz, hb.2.2.2 htz, ha.2.2.2 htz]

/-! ## Built-in palettes: channel ranges -/

/-- A value in `[0, 256)` is converted to `uint8_t` by taking its integer part. -/
theorem toUInt8_of_inRange (x : ℚ) (h0 : 0 ≤ x) (h1 : x < 256) :
    toUInt8 x = ⌊x⌋.toNat := by
  have hf0 : 0 ≤ ⌊x⌋ := Int.floor_nonneg.2 h0
  have hf1 : ⌊x⌋ < 256 := Int.floor_lt.2 (by exact_mod_cast h1)
  unfold toUInt8 truncToInt
  rw [if_pos h0, Int.emod_eq_of_lt hf0 hf1]

/-- C21: the ice palette left by `initPalette(3)` starts with black `(0,0,0,255)`, but its
last entry (index 255) is `(4,255,255,255)`, not white: the red value before conversion is
`(1 - 0.66) * 3.0 * 255 = 260.1`, which the conversion to `uint8_t` reduces to 4. -/
theorem C21_ice_palette_endpoints :
    (ColorPalette.new.initPalette 3).palette_[0]? = some ⟨0, 0, 0, 255⟩ ∧
    (ColorPalette.new.initPalette 3).palette_[255]? = some ⟨4, 255, 255, 255⟩ ∧
    (ColorPalette.new.initPalette 3).palette_[255]? ≠ some ⟨255, 255, 255, 255⟩ ∧
    (ColorPalette.new.initPalette 3).palette_.length = 256 := by
  decide!

/-- C22: in the classic, rainbow and fire generators every channel value of every index
`0..255` lies in `[0, 256)` before its conversion, the grayscale generator converts the
index itself, and a triple in that range is stored as its integer parts.  The ice
generator keeps the range for the indices `0..253` only: at the indices 254 and 255 its
red value is `257.1` and `260.1`, which the conversion wraps to 1 and 4. -/
theorem C22_palette_channels_range :
    (∀ i < 256, channelsInRange (ColorPalette.generateClassicPalette.channels i)) ∧
    (∀ i < 256, channelsInRange (ColorPalette.generateRainbowPalette.channels i)) ∧
    (∀ i < 256, channelsInRange (ColorPalette.generateFirePalette.channels i)) ∧
    (∀ i < 256, (ColorPalette.generateGrayscalePalette ⟨[]⟩).palette_[i]?
      = some ⟨i, i, i, 255⟩) ∧
    (∀ c : ℚ × ℚ × ℚ, channelsInRange c →
      Color.ofChannels c = ⟨⌊c.1⌋.toNat, ⌊c.2.1⌋.toNat, ⌊c.2.2⌋.toNat, 255⟩) ∧
    (∀ i < 254, channelsInRange (ColorPalette.generateIcePalette.channels i)) ∧
    ColorPalette.generateIcePalette.channels 254 = (2571 / 10, 255, 255) ∧
    ColorPalette.generateIcePalette.channels 255 = (2601 / 10, 255, 255) ∧
    ¬ channelsInRange (ColorPalette.generateIcePalette.channels 254) ∧
    ¬ channelsInRange (ColorPalette.generateIcePalette.channels 255) ∧
    (ColorPalette.generateIcePalette ⟨[]⟩).palette_[254]? = some ⟨1, 255, 255, 255⟩ ∧
    (ColorPalette.generateIcePalette ⟨[]⟩).palette_[255]? = some ⟨4, 255, 255, 255⟩ := by
  refine ⟨by decide!, by decide!, by decide!, by decide!, ?_, by decide!, by decide!,
    by decide!, by decide!, by decide!, by decide!, by decide!⟩
  intro c hc
  obtain ⟨⟨h1, h2⟩, ⟨h3, h4⟩, h5, h6⟩ := hc
  unfold Color.ofChannels
  rw [toUInt8_of_inRange _ h1 h2, toUInt8_of_inRange _ h3 h4, toUInt8_of_inRange _ h5 h6]

/-! ## Tiled and whole-image rendering -/

/-- In a row-major buffer of `h` rows of `w` pixels, byte `j` of pixel `(x, y)` sits at
position `(y * w + x) * 4 + j`. -/
theorem flatMap_pixel_bytes (f : Nat → Nat → Color) (w h x y j : Nat) (hx : x < w)
    (hy : y < h) (hj : j < 4) :
    ((List.range h).flatMap fun y => (List.range w).flatMap fun x => (f y x).bytes)[
        (y * w + x) * 4 + j]?
      = (f y x).bytes[j]? := by
  have hrow : ∀ y : Nat, ((List.range w).flatMap fun x => (f y x).bytes).length = 4 * w := by
    intro y
    rw [length_flatMap_bytes, List.length_range]
  have hpix : ∀ x : Nat, (f y x).bytes.length = 4 := fun _ => rfl
  have hrows := (flatMap_range_uniform
    (fun y => (List.range w).flatMap fun x => (f y x).bytes) (4 * w) hrow h).2 y
  have hcols := (flatMap_range_uniform (fun x => (f y x).bytes) 4 hpix w).2 x
  rw [show (y * w + x) * 4 + j = y * (4 * w) + (x * 4 + j) by ring,
    hrows (x * 4 + j) hy (by omega), hcols j hx hj]

/-- C23, counterexample: for a `65536 x 8192` image the size `W * H * 4` computed in `int`
is `-2^31`, so the whole-image call `renderTile(0, 0, W, H, ...)` fails at `resize` and
leaves no pixel to compare with, while the `1 x 1` tile at the origin is rendered. -/
theorem C23_tile_agrees_with_whole_image_counterexample :
    (∀ pixel_buffer : List Nat,
      FractalEngine.renderTile 32 (fun x : ℚ => x) 0 0 65536 8192
        (ViewportManager.createDefault 65536 8192) ⟨10, 4, false, 0⟩ FractalType.MANDELBROT
        0 0 pixel_buffer = none) ∧
    FractalEngine.renderTile 32 (fun x : ℚ => x) 0 0 1 1
        (ViewportManager.createDefault 65536 8192) ⟨10, 4, false, 0⟩ FractalType.MANDELBROT
        0 0 []
      = some [0, 51, 255, 255] := by
  refine ⟨?_, ?_⟩
  · intro pixel_buffer
    simp [FractalEngine.renderTile, resizeBuffer, wrap32]
  · decide!

/-- C23, amended: when the whole image fits the `int` buffer size
(`W * H * 4 <= INT_MAX = 2^31 - 1`), for every viewport, params, fractal type and Julia
seed and every tile `(x0, y0, w, h)` with `0 <= x0`, `0 <= y0`, `x0 + w <= W` and
`y0 + h <= H`, both `renderTile(x0, y0, w, h, ...)` and `renderTile(0, 0, W, H, ...)`
return a buffer, and the four bytes of pixel `(x, y)` of the tile equal the four bytes of
pixel `(x0 + x, y0 + y)` of the whole image: both are the colour of the absolute screen
coordinate `(x0 + x, y0 + y)`. -/
theorem C23_tile_agrees_with_whole_image {K : Type} [LinearOrderedField K] [FloorRing K]
    (size_bits : Nat) (log : K → K) (viewport : Viewport K) (params : RenderParams K)
    (type : FractalType) (julia_c_real julia_c_imag : K) (W H x0 y0 w h x y : Int)
    (hx0 : 0 ≤ x0) (hy0 : 0 ≤ y0) (hxw : x0 + w ≤ W) (hyh : y0 + h ≤ H)
    (hfit : W * H * 4 ≤ 2147483647) (hx : 0 ≤ x ∧ x < w) (hy : 0 ≤ y ∧ y < h) :
    ∃ tile whole : List Nat,
      (∀ pixel_buffer : List Nat,
        FractalEngine.renderTile size_bits log x0 y0 w h viewport params type julia_c_real
          julia_c_imag pixel_buffer = some tile) ∧
      (∀ pixel_buffer : List Nat,
        FractalEngine.renderTile size_bits log 0 0 W H viewport params type julia_c_real
          julia_c_imag pixel_buffer = some whole) ∧
      ∀ j : Nat, j < 4 →
        tile[((y * w + x) * 4).toNat + j]?
          = whole[(((y0 + y) * W + (x0 + x)) * 4).toNat + j]? ∧
        tile[((y * w + x) * 4).toNat + j]?
          = (FractalEngine.colorAt size_bits log viewport params type julia_c_real
              julia_c_imag (x0 + x) (y0 + y)).bytes[j]? := by
  have hw0 : 0 < w := by omega
  have hh0 : 0 < h := by omega
  have hWw : w ≤ W := by omega
  have hHh : h ≤ H := by omega
  have hwh : w * h ≤ W * H :=
    Int.mul_le_mul hWw hHh (le_of_lt hh0) (by omega)
  have hWH : W ≤ W * H := by nlinarith
  have hHW : H ≤ W * H := by nlinarith
  refine ⟨_, _, fun pixel_buffer => renderTile_eq size_bits log x0 y0 w h viewport params type
      julia_c_real julia_c_imag pixel_buffer (le_of_lt hw0) (le_of_lt hh0) (by omega)
      ⟨by unfold inInt32; omega, by omega⟩ ⟨by unfold inInt32; omega, by omega⟩,
    fun pixel_buffer => renderTile_eq size_bits log 0 0 W H viewport params type
      julia_c_real julia_c_imag pixel_buffer (by omega) (by omega) hfit
      ⟨by decide, by omega⟩ ⟨by decide, by omega⟩, ?_⟩
  obtain ⟨wN, rfl⟩ : ∃ n : Nat, w = (n : Int) := ⟨w.toNat, by omega⟩
  obtain ⟨hN, rfl⟩ : ∃ n : Nat, h = (n : Int) := ⟨h.toNat, by omega⟩
  obtain ⟨WN, rfl⟩ : ∃ n : Nat, W = (n : Int) := ⟨W.toNat, by omega⟩
  obtain ⟨HN, rfl⟩ : ∃ n : Nat, H = (n : Int) := ⟨H.toNat, by omega⟩
  obtain ⟨xN, rfl⟩ : ∃ n : Nat, x = (n : Int) := ⟨x.toNat, by omega⟩
  obtain ⟨yN, rfl⟩ : ∃ n : Nat, y = (n : Int) := ⟨y.toNat, by omega⟩
  obtain ⟨aN, rfl⟩ : ∃ n : Nat, x0 = (n : Int) := ⟨x0.toNat, by omega⟩
  obtain ⟨bN, rfl⟩ : ∃ n : Nat, y0 = (n : Int) := ⟨y0.toNat, by omega⟩
  intro j hj
  have htile : (((yN : Int) * (wN : Int) + (xN : Int)) * 4).toNat = (yN * wN + xN) * 4 := by
    have : ((yN : Int) * (wN : Int) + (xN : Int)) * 4 = (((yN * wN + xN) * 4 : Nat) : Int) := by
      push_cast; ring
    rw [this, Int.toNat_ofNat]
  have hwhole : ((((bN : Int) + (yN : Int)) * (WN : Int) + ((aN : Int) + (xN : Int))) * 4).toNat
      = ((bN + yN) * WN + (aN + xN)) * 4 := by
    have : (((bN : Int) + (yN : Int)) * (WN : Int) + ((aN : Int) + (xN : Int))) * 4
        = ((((bN + yN) * WN + (aN + xN)) * 4 : Nat) : Int) := by
      push_cast; ring
    rw [this, Int.toNat_ofNat]
  have h1 := flatMap_pixel_bytes
    (fun y x => FractalEngine.colorAt size_bits log viewport params type julia_c_real
      julia_c_imag ((aN : Int) + (x : Int)) ((bN : Int) + (y : Int)))
    wN hN xN yN j (by omega) (by omega) hj
  have h2 := flatMap_pixel_bytes
    (fun y x => FractalEngine.colorAt size_bits log viewport params type julia_c_real
      julia_c_imag (0 + (x : Int)) (0 + (y : Int)))
    WN HN (aN + xN) (bN + yN) j (by omega) (by omega) hj
  simp only [Int.toNat_ofNat, htile, hwhole]
  rw [h1, h2]
  push_cast
  simp only [zero_add, and_self]

/-- C23, witness: the lower right `2 x 2` tile of a `4 x 4` Mandelbrot image, pixel
`(1, 0)` of the tile. -/
theorem C23_tile_agrees_with_whole_image_witness :
    ∃ tile whole : List Nat,
      (∀ pixel_buffer : List Nat,
        FractalEngine.renderTile 32 (fun x : ℚ => x) 2 2 2 2
          (ViewportManager.createDefault 4 4) ⟨10, 4, false, 0⟩ FractalType.MANDELBROT 0 0
          pixel_buffer = some tile) ∧
      (∀ pixel_buffer : List Nat,
        FractalEngine.renderTile 32 (fun x : ℚ => x) 0 0 4 4
          (ViewportManager.createDefault 4 4) ⟨10, 4, false, 0⟩ FractalType.MANDELBROT 0 0
          pixel_buffer = some whole) ∧
      ∀ j : Nat, j < 4 →
        tile[(((0 : Int) * 2 + 1) * 4).toNat + j]?
          = whole[((((2 : Int) + 0) * 4 + (2 + 1)) * 4).toNat + j]? ∧
        tile[(((0 : Int) * 2 + 1) * 4).toNat + j]?
          = (FractalEngine.colorAt 32 (fun x : ℚ => x) (ViewportManager.createDefault 4 4)
              ⟨10, 4, false, 0⟩ FractalType.MANDELBROT 0 0 (2 + 1) (2 + 0)).bytes[j]? :=
  C23_tile_agrees_with_whole_image 32 (fun x : ℚ => x) (ViewportManager.createDefault 4 4)
    ⟨10, 4, false, 0⟩ FractalType.MANDELBROT 0 0 4 4 2 2 2 2 1 0 (by decide) (by decide)
    (by decide) (by decide) (by decide) (by decide) (by decide)

/-! ## The Mandelbrot evaluator as a Julia evaluation from zero -/

/-- The loops of `Mandelbrot::compute` and `Julia::compute` are the same function of the
loop state. -/
theorem mandelbrot_loop_eq_julia_loop {K : Type} [LinearOrderedField K] (c_real c_imag : K)
    (max_iterations : Int) (bailout_radius : K) (s : IterState K) :
    Mandelbrot.compute.loop c_real c_imag max_iterations bailout_radius s
      = Julia.compute.loop c_real c_imag max_iterations bailout_radius s := by
  induction s using Mandelbrot.compute.loop.induct c_real c_imag max_iterations
    bailout_radius with
  | case1 s h z_imag z_real ih =>
    rw [Mandelbrot.compute.loop, Julia.compute.loop, if_pos h, if_pos h]
    exact ih
  | case2 s h =>
    rw [Mandelbrot.compute.loop, Julia.compute.loop, if_neg h, if_neg h]

/-- C24: for every point `c` that satisfies neither `inMainCardioid` nor `inPeriod2Bulb`,
and every `max_iterations`, `bailout_radius` and `smooth_coloring`,
`Mandelbrot::compute(c_real, c_imag, ...)` returns the same `FractalPoint` (iterations,
smooth value and inside flag) as `Julia::compute(0.0, 0.0, c_real, c_imag, ...)`. -/
theorem C24_mandelbrot_eq_julia_from_zero {K : Type} [LinearOrderedField K] (log : K → K)
    (c_real c_imag : K) (max_iterations : Int) (bailout_radius : K) (smooth_coloring : Bool)
    (hcardioid : Mandelbrot.inMainCardioid c_real c_imag = false)
    (hbulb : Mandelbrot.inPeriod2Bulb c_real c_imag = false) :
    Mandelbrot.compute log c_real c_imag max_iterations bailout_radius smooth_coloring
      = Julia.compute log 0.0 0.0 c_real c_imag max_iterations bailout_radius
          smooth_coloring ∧
    (Mandelbrot.compute log c_real c_imag max_iterations bailout_radius
        smooth_coloring).iterations
      = (Julia.compute log 0.0 0.0 c_real c_imag max_iterations bailout_radius
          smooth_coloring).iterations ∧
    (Mandelbrot.compute log c_real c_imag max_iterations bailout_radius
        smooth_coloring).smooth_value
      = (Julia.compute log 0.0 0.0 c_real c_imag max_iterations bailout_radius
          smooth_coloring).smooth_value ∧
    (Mandelbrot.compute log c_real c_imag max_iterations bailout_radius
        smooth_coloring).inside_set
      = (Julia.compute log 0.0 0.0 c_real c_imag max_iterations bailout_radius
          smooth_coloring).inside_set := by
  have h : Mandelbrot.compute log c_real c_imag max_iterations bailout_radius smooth_coloring
      = Julia.compute log 0.0 0.0 c_real c_imag max_iterations bailout_radius
          smooth_coloring := by
    unfold Mandelbrot.compute Julia.compute
    rw [hcardioid, hbulb]
    simp only [Bool.false_eq_true, if_false]
    rw [mandelbrot_loop_eq_julia_loop]
    have hz : (0.0 : K) * 0.0 = 0.0 := by norm_num
    rw [hz]
  exact ⟨h, by rw [h], by rw [h], by rw [h]⟩

/-- C24, witness: the point `c = (1, 1)` with 10 iterations, bailout 4 and smooth colouring
on, over the rationals. -/
theorem C24_mandelbrot_eq_julia_from_zero_witness :
    Mandelbrot.inMainCardioid (1 : ℚ) 1 = false ∧ Mandelbrot.inPeriod2Bulb (1 : ℚ) 1 = false ∧
    Mandelbrot.compute (fun x : ℚ => x) 1 1 10 4 true
      = Julia.compute (fun x : ℚ => x) 0.0 0.0 1 1 10 4 true :=
  ⟨by decide!, by decide!,
    (C24_mandelbrot_eq_julia_from_zero (fun x : ℚ => x) 1 1 10 4 true (by decide!)
      (by decide!)).1⟩

/-! ## Panning -/

/-- C25: panning moves the image rigidly by the pixel delta:
`screenToComplex(x + dx, y + dy, pan(v, dx, dy))` equals `screenToComplex(x, y, v)` for
every viewport `v`, integer deltas and integer screen point; `pan(v, 0, 0) = v`; and
`pan(pan(v, dx1, dy1), dx2, dy2) = pan(v, dx1 + dx2, dy1 + dy2)`. -/
theorem C25_pan_rigid {K : Type} [LinearOrderedField K] (v : Viewport K)
    (dx dy x y dx1 dy1 dx2 dy2 : Int) :
    FractalEngine.screenToComplex (x + dx) (y + dy) (ViewportManager.pan v dx dy)
      = FractalEngine.screenToComplex x y v ∧
    ViewportManager.pan v 0 0 = v ∧
    ViewportManager.pan (ViewportManager.pan v dx1 dy1) dx2 dy2
      = ViewportManager.pan v (dx1 + dx2) (dy1 + dy2) := by
  obtain ⟨cx, cy, sc, w, h⟩ := v
  refine ⟨?_, ?_, ?_⟩
  · unfold FractalEngine.screenToComplex ViewportManager.pan
    ext
    · simp only
      push_cast
      ring
    · simp only
      push_cast
      ring
  · simp [ViewportManager.pan]
  · simp only [ViewportManager.pan, Viewport.mk.injEq, and_true]
    constructor
    · push_cast
      ring
    · push_cast
      ring

/-! ## Binary64 rounding -/

/-- `roundHalfEven` returns one of the two integers next to its argument. -/
theorem roundHalfEven_bounds (y : ℚ) : ⌊y⌋ ≤ roundHalfEven y ∧ roundHalfEven y ≤ ⌈y⌉ := by
  unfold roundHalfEven
  have hfc : ⌊y⌋ ≤ ⌈y⌉ := Int.floor_le_ceil y
  have hstep : 0 < y - (⌊y⌋ : ℚ) → ⌊y⌋ + 1 ≤ ⌈y⌉ := by
    intro h
    have h1 : (⌊y⌋ : ℚ) < y := by linarith
    have h2 : y ≤ (⌈y⌉ : ℚ) := Int.le_ceil y
    have h3 : (⌊y⌋ : ℚ) < (⌈y⌉ : ℚ) := lt_of_lt_of_le h1 h2
    have h4 : ⌊y⌋ < ⌈y⌉ := by exact_mod_cast h3
    omega
  split_ifs with h1 h2 h3
  · exact ⟨le_refl _, hfc⟩
  · exact ⟨by omega, hstep (by linarith)⟩
  · exact ⟨le_refl _, hfc⟩
  · have h4 : y - (⌊y⌋ : ℚ) = 1 / 2 := le_antisymm (not_lt.1 h2) (not_lt.1 h1)
    exact ⟨by omega, hstep (by linarith)⟩

/-- Zero is rounded to zero. -/
theorem round_zero : F64.round 0 = some 0 := by
  decide!

/-- The exponent of the last place used by `F64.round` for a value below `2^k`. -/
theorem log_lt_of_abs_lt (x : ℚ) (k : Int) (hx : x ≠ 0) (hlt : |x| < (2 : ℚ) ^ k) :
    Int.log 2 |x| < k := by
  have hpos : 0 < |x| := abs_pos.2 hx
  have h := (Int.lt_zpow_iff_log_lt (R := ℚ) (b := 2) (by norm_num) (x := k) hpos).1
    (by simpa using hlt)
  exact h

/-- Rounding keeps a value between two binary64 values `a / 2^s` and `b / 2^s` that enclose
it, and the result is finite. -/
theorem round_between (x : ℚ) (a b : Int) (s : Nat) (hs : s ≤ 1074)
    (ha : |a| < 2 ^ 53) (hb : |b| < 2 ^ 53)
    (hax : (a : ℚ) / 2 ^ s ≤ x) (hxb : x ≤ (b : ℚ) / 2 ^ s) :
    ∃ r, F64.round x = some r ∧ (a : ℚ) / 2 ^ s ≤ r ∧ r ≤ (b : ℚ) / 2 ^ s := by
  have hP : (0 : ℚ) < 2 ^ s := by positivity
  by_cases hx : x = 0
  · subst hx
    exact ⟨0, round_zero, hax, hxb⟩
  have haQ : |(a : ℚ)| < 2 ^ 53 := by exact_mod_cast ha
  have hbQ : |(b : ℚ)| < 2 ^ 53 := by exact_mod_cast hb
  have h3 : (a : ℚ) ≤ x * 2 ^ s := (div_le_iff₀ hP).1 hax
  have h4 : x * 2 ^ s ≤ (b : ℚ) := (le_div_iff₀ hP).1 hxb
  have hxlt : |x| < (2 : ℚ) ^ ((53 : Int) - (s : Int)) := by
    rw [zpow_sub₀ (by norm_num : (2 : ℚ) ≠ 0), zpow_natCast, lt_div_iff₀ hP]
    have habs : |x| * 2 ^ s = |x * 2 ^ s| := by rw [abs_mul, abs_of_pos hP]
    have h53 : ((2 : ℚ) ^ (53 : Int)) = 2 ^ 53 := by norm_num
    rw [habs, h53, abs_lt]
    have h1 := abs_lt.1 haQ
    have h2 := abs_lt.1 hbQ
    constructor <;> linarith
  have he := log_lt_of_abs_lt x _ hx hxlt
  obtain ⟨n, hn⟩ : ∃ n : Nat, max (Int.log 2 |x| - 52) (-1074) = -(((s + n : Nat)) : Int) := by
    refine ⟨(-(s : Int) - max (Int.log 2 |x| - 52) (-1074)).toNat, ?_⟩
    have : max (Int.log 2 |x| - 52) (-1074) ≤ -(s : Int) := max_le (by omega) (by omega)
    push_cast
    omega
  have hN : (0 : ℚ) < 2 ^ n := by positivity
  have hpow : (2 : ℚ) ^ (-(((s + n : Nat)) : Int)) = ((2 : ℚ) ^ (s + n))⁻¹ := by
    rw [zpow_neg, zpow_natCast]
  have hsplit : (2 : ℚ) ^ (s + n) = 2 ^ s * 2 ^ n := pow_add 2 s n
  have hlo : ((a * 2 ^ n : Int) : ℚ) ≤ x * 2 ^ (s + n) := by
    push_cast
    rw [hsplit]
    nlinarith
  have hhi : x * 2 ^ (s + n) ≤ ((b * 2 ^ n : Int) : ℚ) := by
    push_cast
    rw [hsplit]
    nlinarith
  have hb1 := roundHalfEven_bounds (x * 2 ^ (s + n))
  have hfl : a * 2 ^ n ≤ ⌊x * 2 ^ (s + n)⌋ := Int.le_floor.2 hlo
  have hce : ⌈x * 2 ^ (s + n)⌉ ≤ b * 2 ^ n := Int.ceil_le.2 hhi
  have hr1 : (a : ℚ) * 2 ^ n ≤ (roundHalfEven (x * 2 ^ (s + n)) : ℚ) := by
    exact_mod_cast le_trans hfl hb1.1
  have hr2 : (roundHalfEven (x * 2 ^ (s + n)) : ℚ) ≤ (b : ℚ) * 2 ^ n := by
    exact_mod_cast le_trans hb1.2 hce
  have hscale : ∀ R : ℚ, R * ((2 : ℚ) ^ (s + n))⁻¹ = R / 2 ^ n / 2 ^ s := by
    intro R
    rw [hsplit, div_div, div_eq_mul_inv, mul_comm ((2 : ℚ) ^ s)]
  have hlow : (a : ℚ) / 2 ^ s ≤ (roundHalfEven (x * 2 ^ (s + n)) : ℚ) * ((2 : ℚ) ^ (s + n))⁻¹ := by
    rw [hscale]
    exact div_le_div_of_nonneg_right ((le_div_iff₀ hN).2 hr1) (le_of_lt hP)
  have hupp : (roundHalfEven (x * 2 ^ (s + n)) : ℚ) * ((2 : ℚ) ^ (s + n))⁻¹ ≤ (b : ℚ) / 2 ^ s := by
    rw [hscale]
    exact div_le_div_of_nonneg_right ((div_le_iff₀ hN).2 hr2) (le_of_lt hP)
  have h1s : (1 : ℚ) ≤ 2 ^ s := one_le_pow₀ (by norm_num)
  have h1 : -(2 ^ 53 : ℚ) ≤ (a : ℚ) / 2 ^ s := by
    rw [le_div_iff₀ hP]
    have := (abs_lt.1 haQ).1
    nlinarith
  have h2 : (b : ℚ) / 2 ^ s ≤ 2 ^ 53 := by
    rw [div_le_iff₀ hP]
    have := (abs_lt.1 hbQ).2
    nlinarith
  have hbig : ((2 : ℚ) ^ 53) < (2 : ℚ) ^ (1024 : Int) := by
    rw [show ((1024 : Int)) = ((1024 : Nat) : Int) by norm_num, zpow_natCast]
    exact pow_lt_pow_right₀ (by norm_num) (by norm_num)
  have hfin : |(roundHalfEven (x * 2 ^ (s + n)) : ℚ) * ((2 : ℚ) ^ (s + n))⁻¹|
      < (2 : ℚ) ^ (1024 : Int) := by
    rw [abs_lt]
    constructor <;> linarith
  refine ⟨(roundHalfEven (x * 2 ^ (s + n)) : ℚ) * ((2 : ℚ) ^ (s + n))⁻¹, ?_, hlow, hupp⟩
  unfold F64.round
  simp only [hn, hpow, div_inv_eq_mul]
  rw [if_pos hfin]

/-- A binary64 value `a / 2^s` is left unchanged by rounding. -/
theorem round_exact (a : Int) (s : Nat) (hs : s ≤ 1074) (ha : |a| < 2 ^ 53) :
    F64.round ((a : ℚ) / 2 ^ s) = some ((a : ℚ) / 2 ^ s) := by
  obtain ⟨r, hr, h1, h2⟩ := round_between ((a : ℚ) / 2 ^ s) a a s hs ha ha (le_refl _)
    (le_refl _)
  rw [hr, le_antisymm h2 h1]

/-- Underflow: a non-negative exact result of at most `2^-1075`, half the least positive
binary64 value, is rounded to zero. -/
theorem round_underflow (x : ℚ) (h0 : 0 ≤ x) (hx : x ≤ 1 / 2 ^ 1075) :
    F64.round x = some 0 := by
  rcases eq_or_lt_of_le h0 with h | hpos
  · rw [← h]
    exact round_zero
  have habs : |x| = x := abs_of_pos hpos
  have hlt : |x| < (2 : ℚ) ^ (-1074 : Int) := by
    rw [habs]
    refine lt_of_le_of_lt hx ?_
    rw [zpow_neg, show ((1074 : Int)) = ((1074 : Nat) : Int) by norm_num, zpow_natCast,
      one_div]
    exact inv_strictAnti₀ (by positivity) (pow_lt_pow_right₀ (by norm_num) (by norm_num))
  have he := log_lt_of_abs_lt x _ (ne_of_gt hpos) hlt
  have hq : max (Int.log 2 |x| - 52) (-1074) = -1074 := max_eq_right (by omega)
  have hpow : (2 : ℚ) ^ (-1074 : Int) = ((2 : ℚ) ^ 1074)⁻¹ := by
    rw [zpow_neg, show ((1074 : Int)) = ((1074 : Nat) : Int) by norm_num, zpow_natCast]
  have hy0 : 0 ≤ x * 2 ^ 1074 := by positivity
  have hy1 : x * 2 ^ 1074 ≤ 1 / 2 := by
    have h1075 : (2 : ℚ) ^ 1075 = 2 ^ 1074 * 2 := by
      rw [show (1075 : ℕ) = 1074 + 1 from rfl, pow_succ]
    have hP : (0 : ℚ) < 2 ^ 1074 := by positivity
    rw [h1075] at hx
    calc x * 2 ^ 1074 ≤ 1 / (2 ^ 1074 * 2) * 2 ^ 1074 :=
          mul_le_mul_of_nonneg_right hx (le_of_lt hP)
      _ = 1 / 2 := by field_simp
  have hfloor : ⌊x * 2 ^ 1074⌋ = 0 := by
    rw [Int.floor_eq_iff]
    constructor
    · simpa using hy0
    · norm_num
      linarith
  have hrhe : roundHalfEven (x * 2 ^ 1074) = 0 := by
    unfold roundHalfEven
    rw [hfloor]
    split_ifs with h1 h2 h3
    · rfl
    · exfalso
      simp only [Int.cast_zero, sub_zero] at h2
      linarith
    · rfl
    · exact absurd rfl h3
  unfold F64.round
  simp only [hq, hpow, div_inv_eq_mul, hrhe]
  norm_num

/-- No underflow: an exact result above `2^-1075` and below `2^1023` is rounded to a
positive finite value. -/
theorem round_pos (x : ℚ) (hlo : 1 / 2 ^ 1075 < x) (hhi : x < 2 ^ 1023) :
    ∃ r, F64.round x = some r ∧ 0 < r := by
  have hpos : 0 < x := lt_trans (by positivity) hlo
  have habs : |x| = x := abs_of_pos hpos
  have hle : (2 : ℚ) ^ Int.log 2 |x| ≤ x := by
    have := Int.zpow_log_le_self (R := ℚ) (b := 2) (by norm_num) (abs_pos.2 (ne_of_gt hpos))
    rw [habs] at this ⊢
    simpa using this
  obtain ⟨q, hq⟩ : ∃ q, max (Int.log 2 |x| - 52) (-1074) = q := ⟨_, rfl⟩
  have hQ : (0 : ℚ) < 2 ^ q := zpow_pos (by norm_num) q
  have hqle : (2 : ℚ) ^ q ≤ max x 1 := by
    rcases max_cases (Int.log 2 |x| - 52) (-1074) with ⟨h, _⟩ | ⟨h, _⟩
    · rw [← hq, h]
      refine le_trans ?_ (le_trans hle (le_max_left _ _))
      exact zpow_le_zpow_right₀ (by norm_num) (by omega)
    · rw [← hq, h]
      refine le_trans ?_ (le_max_right _ _)
      exact zpow_le_one_of_nonpos₀ (by norm_num) (by norm_num)
  have hhalf : 1 / 2 < x / 2 ^ q := by
    rw [lt_div_iff₀ hQ]
    rcases max_cases (Int.log 2 |x| - 52) (-1074) with ⟨h, _⟩ | ⟨h, _⟩
    · rw [← hq, h]
      have h1 : (2 : ℚ) ^ (Int.log 2 |x| - 52) ≤ (2 : ℚ) ^ Int.log 2 |x| :=
        zpow_le_zpow_right₀ (by norm_num) (by omega)
      have h2 : (0 : ℚ) < (2 : ℚ) ^ (Int.log 2 |x| - 52) := zpow_pos (by norm_num) _
      linarith
    · rw [← hq, h]
      have hpow : (2 : ℚ) ^ (-1074 : Int) = 1 / 2 ^ 1074 := by
        rw [zpow_neg, show ((1074 : Int)) = ((1074 : Nat) : Int) by norm_num, zpow_natCast,
          one_div]
      have h1075 : (1 : ℚ) / 2 ^ 1075 = 1 / 2 * (1 / 2 ^ 1074) := by
        rw [pow_succ]
        field_simp
        ring
      rw [hpow]
      rw [h1075] at hlo
      exact hlo
  have hb := roundHalfEven_bounds (x / 2 ^ q)
  have hrhe : 1 ≤ roundHalfEven (x / 2 ^ q) := by
    by_cases h1 : 1 ≤ x / 2 ^ q
    · have : (1 : Int) ≤ ⌊x / 2 ^ q⌋ := Int.le_floor.2 (by simpa using h1)
      omega
    · have hfloor : ⌊x / 2 ^ q⌋ = 0 := by
        rw [Int.floor_eq_iff]
        constructor
        · simp only [Int.cast_zero]
          linarith
        · simp only [Int.cast_zero, zero_add]
          exact not_le.1 h1
      unfold roundHalfEven
      rw [hfloor]
      simp only [Int.cast_zero, sub_zero]
      rw [if_neg (not_lt.2 (le_of_lt hhalf)), if_pos hhalf]
      norm_num
  have hceil : (⌈x / 2 ^ q⌉ : ℚ) < x / 2 ^ q + 1 := Int.ceil_lt_add_one _
  have hR1 : (1 : ℚ) ≤ (roundHalfEven (x / 2 ^ q) : ℚ) := by exact_mod_cast hrhe
  have hR2 : (roundHalfEven (x / 2 ^ q) : ℚ) < x / 2 ^ q + 1 := by
    have : (roundHalfEven (x / 2 ^ q) : ℚ) ≤ (⌈x / 2 ^ q⌉ : ℚ) := by exact_mod_cast hb.2
    linarith
  have hrpos : 0 < (roundHalfEven (x / 2 ^ q) : ℚ) * 2 ^ q := by positivity
  have hrlt : (roundHalfEven (x / 2 ^ q) : ℚ) * 2 ^ q < x + max x 1 := by
    calc (roundHalfEven (x / 2 ^ q) : ℚ) * 2 ^ q < (x / 2 ^ q + 1) * 2 ^ q :=
          mul_lt_mul_of_pos_right hR2 hQ
      _ = x + 2 ^ q := by field_simp
      _ ≤ x + max x 1 := by linarith
  have hmax : max x 1 ≤ (2 : ℚ) ^ 1023 := max_le (le_of_lt hhi) (one_le_pow₀ (by norm_num))
  have h1024 : (2 : ℚ) ^ (1024 : Int) = 2 ^ 1023 + 2 ^ 1023 := by
    rw [show ((1024 : Int)) = ((1024 : Nat) : Int) by norm_num, zpow_natCast, pow_succ]
    ring
  refine ⟨(roundHalfEven (x / 2 ^ q) : ℚ) * 2 ^ q, ?_, hrpos⟩
  unfold F64.round
  simp only [hq]
  rw [if_pos]
  rw [abs_of_pos hrpos, h1024]
  linarith

/-- Rounding keeps a value between two integers below `2^53` in magnitude. -/
theorem round_between_int (x : ℚ) (a b : Int) (ha : |a| < 2 ^ 53) (hb : |b| < 2 ^ 53)
    (hax : (a : ℚ) ≤ x) (hxb : x ≤ (b : ℚ)) :
    ∃ r, F64.round x = some r ∧ (a : ℚ) ≤ r ∧ r ≤ (b : ℚ) := by
  obtain ⟨r, hr, h1, h2⟩ := round_between x a b 0 (by norm_num) ha hb (by simpa using hax)
    (by simpa using hxb)
  exact ⟨r, hr, by simpa using h1, by simpa using h2⟩

/-- A certificate for one rounding: `x` lies in the binade of exponent `e` (at least
`-1022`) and `m` is the integer nearest to `x / 2^(e - 52)`, not a tie. -/
theorem round_eq_of_near (x : ℚ) (e m : Int) (he1 : (2 : ℚ) ^ e ≤ |x|)
    (he2 : |x| < (2 : ℚ) ^ (e + 1)) (hq : -1074 ≤ e - 52)
    (hm1 : (m : ℚ) - 1 / 2 < x / (2 : ℚ) ^ (e - 52))
    (hm2 : x / (2 : ℚ) ^ (e - 52) < (m : ℚ) + 1 / 2)
    (hfin : |(m : ℚ) * (2 : ℚ) ^ (e - 52)| < (2 : ℚ) ^ (1024 : Int)) :
    F64.round x = some ((m : ℚ) * (2 : ℚ) ^ (e - 52)) := by
  have hpos : 0 < |x| := lt_of_lt_of_le (zpow_pos (by norm_num) e) he1
  have hlog : Int.log 2 |x| = e := by
    apply le_antisymm
    · have := (Int.lt_zpow_iff_log_lt (R := ℚ) (b := 2) (by norm_num) (x := e + 1) hpos).1
        (by simpa using he2)
      omega
    · exact (Int.zpow_le_iff_le_log (R := ℚ) (b := 2) (by norm_num) (x := e) hpos).1
        (by simpa using he1)
  have hrhe : roundHalfEven (x / (2 : ℚ) ^ (e - 52)) = m := by
    unfold roundHalfEven
    rcases le_or_lt (m : ℚ) (x / (2 : ℚ) ^ (e - 52)) with h | h
    · have hfloor : ⌊x / (2 : ℚ) ^ (e - 52)⌋ = m := by
        rw [Int.floor_eq_iff]
        exact ⟨h, by linarith⟩
      rw [hfloor, if_pos (by linarith)]
    · have hfloor : ⌊x / (2 : ℚ) ^ (e - 52)⌋ = m - 1 := by
        rw [Int.floor_eq_iff]
        push_cast
        exact ⟨by linarith, by linarith⟩
      rw [hfloor]
      push_cast
      rw [if_neg (by linarith), if_pos (by linarith)]
      ring
  unfold F64.round
  simp only [hlog, max_eq_left hq, hrhe]
  rw [if_pos hfin]

/-! ## Viewport mapper: affine map and frame conditions -/

/-- In binary64 arithmetic `screenToComplex` computes the half size and the pixel offset
without rounding error; only the product with `scale` and the sum with the centre are
rounded. -/
theorem screenToComplexF64_eq (viewport : Viewport ℚ) (screen_x screen_y : Int)
    (hx : inInt32 screen_x) (hy : inInt32 screen_y) (hw : inInt32 viewport.width)
    (hh : inInt32 viewport.height) :
    FractalEngine.screenToComplexF64 screen_x screen_y viewport
      = ((F64.round (((screen_x : ℚ) - (viewport.width : ℚ) / 2) * viewport.scale)).bind
            fun scaled_x => F64.round (scaled_x + viewport.center_x),
         (F64.round (((screen_y : ℚ) - (viewport.height : ℚ) / 2) * viewport.scale)).bind
            fun scaled_y => F64.round (scaled_y + viewport.center_y)) := by
  unfold inInt32 at hx hy hw hh
  have hhalf : ∀ w : Int, -2147483648 ≤ w → w ≤ 2147483647 →
      F64.div (w : ℚ) 2 = some ((w : ℚ) / 2) := by
    intro w h1 h2
    unfold F64.div
    rw [if_neg (by norm_num)]
    have := round_exact w 1 (by norm_num) (by rw [abs_lt]; constructor <;> omega)
    simpa using this
  have hoff : ∀ p w : Int, -2147483648 ≤ p → p ≤ 2147483647 → -2147483648 ≤ w →
      w ≤ 2147483647 → F64.sub (p : ℚ) ((w : ℚ) / 2) = some ((p : ℚ) - (w : ℚ) / 2) := by
    intro p w h1 h2 h3 h4
    unfold F64.sub
    have := round_exact (2 * p - w) 1 (by norm_num) (by rw [abs_lt]; constructor <;> omega)
    have hval : (((2 * p - w : Int)) : ℚ) / 2 ^ 1 = (p : ℚ) - (w : ℚ) / 2 := by
      push_cast
      ring
    rw [hval] at this
    exact this
  unfold FractalEngine.screenToComplexF64
  rw [hhalf _ hw.1 hw.2, hhalf _ hh.1 hh.2]
  simp only [Option.some_bind, hoff _ _ hx.1 hx.2 hw.1 hw.2, hoff _ _ hy.1 hy.2 hh.1 hh.2]
  rfl

/-- C18, counterexample: in the default `800 x 600` view (`scale` the binary64 value of
`0.004`, centre `(-0.5, 0)`) the compiled arithmetic gives the pixels `(48, 0)` and
`(49, 0)` real parts whose difference is not `scale`, and adding `scale` to the first in
`double` does not give the second; the same happens to the imaginary parts of `(0, 11)`
and `(0, 12)`. -/
theorem C18_screenToComplex_affine_counterexample :
    F64.round (4 / 1000) = some (1152921504606847 / 288230376151711744) ∧
    (FractalEngine.screenToComplexF64 48 0
        ⟨-1 / 2, 0, 1152921504606847 / 288230376151711744, 800, 600⟩).1
      = some (-4296434044511453 / 2251799813685248) ∧
    (FractalEngine.screenToComplexF64 49 0
        ⟨-1 / 2, 0, 1152921504606847 / 288230376151711744, 800, 600⟩).1
      = some (-8574853690513425 / 4503599627370496) ∧
    (-8574853690513425 / 4503599627370496 : ℚ) - -4296434044511453 / 2251799813685248
      ≠ 1152921504606847 / 288230376151711744 ∧
    F64.add (-4296434044511453 / 2251799813685248) (1152921504606847 / 288230376151711744)
      ≠ some (-8574853690513425 / 4503599627370496) ∧
    (FractalEngine.screenToComplexF64 0 11
        ⟨-1 / 2, 0, 1152921504606847 / 288230376151711744, 800, 600⟩).2
      = some (-5206161169240293 / 4503599627370496) ∧
    (FractalEngine.screenToComplexF64 0 12
        ⟨-1 / 2, 0, 1152921504606847 / 288230376151711744, 800, 600⟩).2
      = some (-1297036692682703 / 1125899906842624) ∧
    F64.add (-5206161169240293 / 4503599627370496) (1152921504606847 / 288230376151711744)
      ≠ some (-1297036692682703 / 1125899906842624) := by
  decide!

/-- C18, amended: `screenToComplex` returns `real = (screen_x - width/2) * scale + center_x`
and `imag = (screen_y - height/2) * scale + center_y` with the halves of `width` and
`height` not truncated.  In exact arithmetic the map is affine: one pixel to the right
(down) adds exactly `scale` to `real` (`imag`) and leaves the other part.  In binary64
arithmetic, for `int` arguments, the half and the pixel offset are exact and the result is
the same expression with the product and the sum each rounded to the nearest `double`. -/
theorem C18_screenToComplex_affine {K : Type} [LinearOrderedField K] (viewport : Viewport K)
    (screen_x screen_y : Int) (viewportF64 : Viewport ℚ)
    (hx : inInt32 screen_x) (hy : inInt32 screen_y) (hw : inInt32 viewportF64.width)
    (hh : inInt32 viewportF64.height) :
    (FractalEngine.screenToComplex screen_x screen_y viewport).1
      = ((screen_x : K) - (viewport.width : K) / 2) * viewport.scale + viewport.center_x ∧
    (FractalEngine.screenToComplex screen_x screen_y viewport).2
      = ((screen_y : K) - (viewport.height : K) / 2) * viewport.scale + viewport.center_y ∧
    FractalEngine.screenToComplex (screen_x + 1) screen_y viewport
      = ((FractalEngine.screenToComplex screen_x screen_y viewport).1 + viewport.scale,
         (FractalEngine.screenToComplex screen_x screen_y viewport).2) ∧
    FractalEngine.screenToComplex screen_x (screen_y + 1) viewport
      = ((FractalEngine.screenToComplex screen_x screen_y viewport).1,
         (FractalEngine.screenToComplex screen_x screen_y viewport).2 + viewport.scale) ∧
    FractalEngine.screenToComplexF64 screen_x screen_y viewportF64
      = ((F64.round (((screen_x : ℚ) - (viewportF64.width : ℚ) / 2) * viewportF64.scale)).bind
            fun scaled_x => F64.round (scaled_x + viewportF64.center_x),
         (F64.round (((screen_y : ℚ) - (viewportF64.height : ℚ) / 2)
            * viewportF64.scale)).bind
            fun scaled_y => F64.round (scaled_y + viewportF64.center_y)) := by
  refine ⟨?_, ?_, ?_, ?_,
    screenToComplexF64_eq viewportF64 screen_x screen_y hx hy hw hh⟩
  · unfold FractalEngine.screenToComplex
    norm_num
  · unfold FractalEngine.screenToComplex
    norm_num
  · unfold FractalEngine.screenToComplex
    ext
    · push_cast
      norm_num
      ring
    · rfl
  · unfold FractalEngine.screenToComplex
    ext
    · rfl
    · push_cast
      norm_num
      ring

/-- C18, witness: pixel `(48, 0)` of the default `800 x 600` view. -/
theorem C18_screenToComplex_affine_witness :
    FractalEngine.screenToComplex (48 + 1) 0 (ViewportManager.createDefault (K := ℚ) 800 600)
      = ((FractalEngine.screenToComplex 48 0
            (ViewportManager.createDefault (K := ℚ) 800 600)).1 + 0.004,
         (FractalEngine.screenToComplex 48 0
            (ViewportManager.createDefault (K := ℚ) 800 600)).2) ∧
    FractalEngine.screenToComplexF64 48 0
        ⟨-1 / 2, 0, 1152921504606847 / 288230376151711744, 800, 600⟩
      = ((F64.round ((((48 : Int) : ℚ) - ((800 : Int) : ℚ) / 2)
            * (1152921504606847 / 288230376151711744))).bind
            fun scaled_x => F64.round (scaled_x + -1 / 2),
         (F64.round ((((0 : Int) : ℚ) - ((600 : Int) : ℚ) / 2)
            * (1152921504606847 / 288230376151711744))).bind
            fun scaled_y => F64.round (scaled_y + 0)) :=
  ⟨(C18_screenToComplex_affine (ViewportManager.createDefault (K := ℚ) 800 600) 48 0
      ⟨-1 / 2, 0, 1152921504606847 / 288230376151711744, 800, 600⟩ (by decide) (by decide)
      (by decide) (by decide)).2.2.1,
    (C18_screenToComplex_affine (ViewportManager.createDefault (K := ℚ) 800 600) 48 0
      ⟨-1 / 2, 0, 1152921504606847 / 288230376151711744, 800, 600⟩ (by decide) (by decide)
      (by decide) (by decide)).2.2.2.2⟩

/-- C19, counterexample: zooming a view of scale `2^-600` by the factor `2^-600` (both
positive `double` values) leaves `scale == 0`: the product `2^-1200` is below half the
least positive `double` and underflows, so `scale > 0` is not preserved. -/
theorem C19_pan_zoom_frame_counterexample :
    (0 : ℚ) < 1 / 2 ^ 600 ∧
    F64.round (1 / 2 ^ 600) = some (1 / 2 ^ 600) ∧
    (ViewportManager.zoomF64 ⟨0, 0, 1 / 2 ^ 600, 800, 600⟩ (1 / 2 ^ 600) 400 300).scale
      = some 0 := by
  refine ⟨by positivity, ?_, ?_⟩
  · have h := round_exact 1 600 (by norm_num) (by norm_num)
    simpa using h
  · show F64.mul (1 / 2 ^ 600) (1 / 2 ^ 600) = some 0
    unfold F64.mul
    apply round_underflow _ (by positivity)
    rw [one_div_mul_one_div, ← pow_add]
    exact one_div_le_one_div_of_le (by positivity)
      (pow_le_pow_right₀ (by norm_num) (by norm_num))

/-- C19, amended: `pan(v, dx, dy)` returns `center_x = v.center_x - dx * v.scale`,
`center_y = v.center_y - dy * v.scale` and leaves `scale`, `width`, `height` unchanged;
`zoom(v, factor, fx, fy)` has `scale = v.scale * factor` and leaves `width`, `height`
unchanged.  In exact arithmetic both keep `scale > 0`, `width > 0`, `height > 0` when
`factor > 0`.  In binary64 arithmetic every product and difference is rounded; `pan`
copies `scale`, `width` and `height`, and `zoom` copies `width` and `height` and sets
`scale` to the rounded product, which is zero when `0 <= v.scale * factor <= 2^-1075`
(underflow) and positive when `2^-1075 < v.scale * factor < 2^1023`. -/
theorem C19_pan_zoom_frame {K : Type} [LinearOrderedField K] (v : Viewport K) (dx dy : Int)
    (factor : K) (focus_x focus_y : Int) (vF64 : Viewport ℚ) (factorF64 : ℚ) :
    (ViewportManager.pan v dx dy).center_x = v.center_x - (dx : K) * v.scale ∧
    (ViewportManager.pan v dx dy).center_y = v.center_y - (dy : K) * v.scale ∧
    (ViewportManager.pan v dx dy).scale = v.scale ∧
    (ViewportManager.pan v dx dy).width = v.width ∧
    (ViewportManager.pan v dx dy).height = v.height ∧
    (ViewportManager.zoom v factor focus_x focus_y).scale = v.scale * factor ∧
    (ViewportManager.zoom v factor focus_x focus_y).width = v.width ∧
    (ViewportManager.zoom v factor focus_x focus_y).height = v.height ∧
    (0 < v.scale ∧ 0 < v.width ∧ 0 < v.height →
      0 < (ViewportManager.pan v dx dy).scale ∧ 0 < (ViewportManager.pan v dx dy).width ∧
      0 < (ViewportManager.pan v dx dy).height) ∧
    (0 < v.scale ∧ 0 < v.width ∧ 0 < v.height → 0 < factor →
      0 < (ViewportManager.zoom v factor focus_x focus_y).scale ∧
      0 < (ViewportManager.zoom v factor focus_x focus_y).width ∧
      0 < (ViewportManager.zoom v factor focus_x focus_y).height) ∧
    (ViewportManager.panF64 vF64 dx dy).center_x
      = ((F64.round ((dx : ℚ) * vF64.scale)).bind fun d => F64.round (vF64.center_x - d)) ∧
    (ViewportManager.panF64 vF64 dx dy).center_y
      = ((F64.round ((dy : ℚ) * vF64.scale)).bind fun d => F64.round (vF64.center_y - d)) ∧
    (ViewportManager.panF64 vF64 dx dy).scale = some vF64.scale ∧
    (ViewportManager.panF64 vF64 dx dy).width = vF64.width ∧
    (ViewportManager.panF64 vF64 dx dy).height = vF64.height ∧
    (ViewportManager.zoomF64 vF64 factorF64 focus_x focus_y).scale
      = F64.round (vF64.scale * factorF64) ∧
    (ViewportManager.zoomF64 vF64 factorF64 focus_x focus_y).width = vF64.width ∧
    (ViewportManager.zoomF64 vF64 factorF64 focus_x focus_y).height = vF64.height ∧
    (0 ≤ vF64.scale * factorF64 → vF64.scale * factorF64 ≤ 1 / 2 ^ 1075 →
      (ViewportManager.zoomF64 vF64 factorF64 focus_x focus_y).scale = some 0) ∧
    (1 / 2 ^ 1075 < vF64.scale * factorF64 → vF64.scale * factorF64 < 2 ^ 1023 →
      ∃ r, (ViewportManager.zoomF64 vF64 factorF64 focus_x focus_y).scale = some r ∧
        0 < r) := by
  refine ⟨rfl, rfl, rfl, rfl, rfl, rfl, rfl, rfl, ?_, ?_, rfl, rfl, rfl, rfl, rfl, rfl, rfl,
    rfl, ?_, ?_⟩
  · intro h
    exact h
  · intro h hf
    exact ⟨mul_pos h.1 hf, h.2.1, h.2.2⟩
  · intro h0 h1
    exact round_underflow _ h0 h1
  · intro h0 h1
    exact round_pos _ h0 h1

/-! ## Palette lookup in exact and in binary64 arithmetic -/

/-- One channel of `interpolateColors` in binary64 arithmetic, for `uint8_t` channels and
a weight in `[0, 1]`: the value is finite, its conversion is its integer part, which lies
between the two channels and is the first channel when the weight is zero. -/
theorem channelF64_between (u v : Nat) (t : ℚ) (hu : u < 256) (hv : v < 256) (ht0 : 0 ≤ t)
    (ht1 : t ≤ 1) :
    ∃ r : ℚ, ColorPalette.interpolateColorsF64.channel u v t = some r ∧
      toUInt8 r = ⌊r⌋.toNat ∧ min u v ≤ ⌊r⌋.toNat ∧ ⌊r⌋.toNat ≤ max u v ∧
      (t = 0 → ⌊r⌋.toNat = u) := by
  have hd : ∃ m : ℚ, F64.mul t ((((v : Int) - (u : Int) : Int)) : ℚ) = some m ∧
      ((min u v : Nat) : ℚ) ≤ (u : ℚ) + m ∧ (u : ℚ) + m ≤ ((max u v : Nat) : ℚ) ∧
      (t = 0 → m = 0) := by
    unfold F64.mul
    rcases le_total u v with h | h
    · have hQ : (u : ℚ) ≤ (v : ℚ) := by exact_mod_cast h
      obtain ⟨m, hm, h1, h2⟩ := round_between_int (t * ((((v : Int) - (u : Int) : Int)) : ℚ)) 0
        ((v : Int) - (u : Int)) (by norm_num) (by rw [abs_lt]; constructor <;> omega)
        (by push_cast; nlinarith) (by push_cast; nlinarith)
      refine ⟨m, hm, ?_, ?_, ?_⟩
      · rw [min_eq_left h]
        push_cast at h1
        linarith
      · rw [max_eq_right h]
        push_cast at h2
        linarith
      · intro htz
        rw [htz, zero_mul, round_zero] at hm
        exact (Option.some.inj hm).symm
    · have hQ : (v : ℚ) ≤ (u : ℚ) := by exact_mod_cast h
      obtain ⟨m, hm, h1, h2⟩ := round_between_int (t * ((((v : Int) - (u : Int) : Int)) : ℚ))
        ((v : Int) - (u : Int)) 0 (by rw [abs_lt]; constructor <;> omega) (by norm_num)
        (by push_cast; nlinarith) (by push_cast; nlinarith)
      refine ⟨m, hm, ?_, ?_, ?_⟩
      · rw [min_eq_right h]
        push_cast at h1
        linarith
      · rw [max_eq_left h]
        push_cast at h2
        linarith
      · intro htz
        rw [htz, zero_mul, round_zero] at hm
        exact (Option.some.inj hm).symm
  obtain ⟨m, hm, hlo, hhi, hmz⟩ := hd
  have hmaxlt : max u v < 256 := max_lt hu hv
  obtain ⟨r, hr, h1, h2⟩ := round_between_int ((u : ℚ) + m) ((min u v : Nat) : Int)
    ((max u v : Nat) : Int) (by rw [abs_lt]; constructor <;> omega)
    (by rw [abs_lt]; constructor <;> omega) (by exact_mod_cast hlo) (by exact_mod_cast hhi)
  have hfl : ((min u v : Nat) : Int) ≤ ⌊r⌋ := Int.le_floor.2 h1
  have hfh : ⌊r⌋ ≤ ((max u v : Nat) : Int) := by
    have := le_trans (Int.floor_le r) h2
    exact_mod_cast this
  have hr0 : (0 : ℚ) ≤ r := le_trans (by exact_mod_cast Nat.zero_le _) h1
  have hr256 : r < 256 := by
    have h3 : ((max u v : Nat) : ℚ) < 256 := by exact_mod_cast hmaxlt
    have h4 : r ≤ ((max u v : Nat) : ℚ) := by exact_mod_cast h2
    linarith
  refine ⟨r, ?_, toUInt8_of_inRange r hr0 hr256, by omega, by omega, ?_⟩
  · unfold ColorPalette.interpolateColorsF64.channel
    rw [hm, Option.some_bind]
    exact hr
  · intro htz
    have hm0 := hmz htz
    rw [hm0, add_zero] at hr
    have hex := round_exact (u : Int) 0 (by norm_num) (by rw [abs_lt]; constructor <;> omega)
    simp only [pow_zero, div_one, Int.cast_natCast] at hex
    rw [hex] at hr
    rw [← Option.some.inj hr]
    simp

/-- A cyclic index of a non-empty palette selects one of its entries. -/
theorem entryAt_mem (palette : ColorPalette) (hne : palette.palette_ ≠ []) (i : Int) :
    palette.entryAt i ∈ palette.palette_ := by
  have hn : 0 < palette.palette_.length := List.length_pos.2 hne
  have h1 : 0 ≤ i % (palette.palette_.length : Int) := Int.emod_nonneg _ (by omega)
  have h2 : i % (palette.palette_.length : Int) < (palette.palette_.length : Int) :=
    Int.emod_lt_of_pos _ (by omega)
  have h3 : (i % (palette.palette_.length : Int)).toNat < palette.palette_.length := by
    omega
  unfold ColorPalette.entryAt
  rw [List.getD_eq_getElem _ _ h3]
  exact List.getElem_mem _

/-- `getColor` in binary64 arithmetic, for a non-empty palette of `uint8_t` colours whose
size fits an `int` and `0 <= smooth_value < max_iterations`: every intermediate value is
finite, the index `p` lies in `[0, n]` and the weight `t` in `[0, 1]`, and the result is
the channel-wise integer part of the rounded blend of the entries at `floor(p)` and
`floor(p) + 1` (cyclically), which lies between them and is the first when `t = 0`. -/
theorem getColorF64_blend (size_bits : Nat) (palette : ColorPalette) (smooth_value : ℚ)
    (max_iterations : Int) (hne : palette.palette_ ≠ [])
    (hvalid : ∀ c ∈ palette.palette_, c.valid) (hint : palette.palette_.length ≤ 2147483647)
    (hbits : palette.palette_.length < 2 ^ size_bits) (hmax : 0 < max_iterations)
    (h0 : 0 ≤ smooth_value) (hlt : smooth_value < (max_iterations : ℚ)) :
    ∃ normalized p t : ℚ,
      F64.div smooth_value (max_iterations : ℚ) = some normalized ∧
      F64.mul normalized (palette.palette_.length : ℚ) = some p ∧
      F64.sub p (⌊p⌋ : ℚ) = some t ∧
      0 ≤ p ∧ p ≤ (palette.palette_.length : ℚ) ∧ 0 ≤ t ∧ t ≤ 1 ∧
      ∃ r g b a : ℚ,
        ColorPalette.interpolateColorsF64.channel (palette.entryAt ⌊p⌋).r
          (palette.entryAt (⌊p⌋ + 1)).r t = some r ∧
        ColorPalette.interpolateColorsF64.channel (palette.entryAt ⌊p⌋).g
          (palette.entryAt (⌊p⌋ + 1)).g t = some g ∧
        ColorPalette.interpolateColorsF64.channel (palette.entryAt ⌊p⌋).b
          (palette.entryAt (⌊p⌋ + 1)).b t = some b ∧
        ColorPalette.interpolateColorsF64.channel (palette.entryAt ⌊p⌋).a
          (palette.entryAt (⌊p⌋ + 1)).a t = some a ∧
        palette.getColorF64 size_bits smooth_value max_iterations
          = some ⟨⌊r⌋.toNat, ⌊g⌋.toNat, ⌊b⌋.toNat, ⌊a⌋.toNat⟩ ∧
        Color.between ⟨⌊r⌋.toNat, ⌊g⌋.toNat, ⌊b⌋.toNat, ⌊a⌋.toNat⟩ (palette.entryAt ⌊p⌋)
          (palette.entryAt (⌊p⌋ + 1)) ∧
        (t = 0 → palette.getColorF64 size_bits smooth_value max_iterations
          = some (palette.entryAt ⌊p⌋)) := by
  have hn : 0 < palette.palette_.length := List.length_pos.2 hne
  have hmaxQ : (0 : ℚ) < (max_iterations : ℚ) := by exact_mod_cast hmax
  have hnQ : (0 : ℚ) < (palette.palette_.length : ℚ) := by exact_mod_cast hn
  -- normalized
  obtain ⟨normalized, hnorm, hn0, hn1⟩ := round_between_int
    (smooth_value / (max_iterations : ℚ)) 0 1 (by norm_num) (by norm_num)
    (by simpa using div_nonneg h0 (le_of_lt hmaxQ))
    (by simpa using le_of_lt ((div_lt_one hmaxQ).2 hlt))
  have hdiv : F64.div smooth_value (max_iterations : ℚ) = some normalized := by
    unfold F64.div
    rw [if_neg (ne_of_gt hmaxQ)]
    exact hnorm
  simp only [Int.cast_zero, Int.cast_one] at hn0 hn1
  -- size
  have hsize : F64.round (palette.palette_.length : ℚ) = some (palette.palette_.length : ℚ) := by
    have := round_exact (palette.palette_.length : Int) 0 (by norm_num)
      (by rw [abs_lt]; constructor <;> omega)
    simpa using this
  -- palette_index
  obtain ⟨p, hp, hp0, hpn⟩ := round_between_int
    (normalized * (palette.palette_.length : ℚ)) 0 (palette.palette_.length : Int)
    (by norm_num) (by rw [abs_lt]; constructor <;> omega)
    (by simpa using mul_nonneg hn0 (le_of_lt hnQ))
    (by
      simp only [Int.cast_natCast]
      calc normalized * (palette.palette_.length : ℚ)
          ≤ 1 * (palette.palette_.length : ℚ) :=
            mul_le_mul_of_nonneg_right hn1 (le_of_lt hnQ)
        _ = (palette.palette_.length : ℚ) := one_mul _)
  simp only [Int.cast_zero, Int.cast_natCast] at hp0 hpn
  have hmul : F64.mul normalized (palette.palette_.length : ℚ) = some p := hp
  -- index
  have hi0 : 0 ≤ ⌊p⌋ := Int.floor_nonneg.2 hp0
  have hin : ⌊p⌋ ≤ (palette.palette_.length : Int) := by
    have := le_trans (Int.floor_le p) hpn
    exact_mod_cast this
  -- t
  obtain ⟨t, ht, ht0, ht1⟩ := round_between_int (p - (⌊p⌋ : ℚ)) 0 1 (by norm_num)
    (by norm_num) (by simp [Int.floor_le p])
    (by
      have := Int.lt_floor_add_one p
      simp only [Int.cast_one]
      linarith)
  simp only [Int.cast_zero, Int.cast_one] at ht0 ht1
  have hsub : F64.sub p (⌊p⌋ : ℚ) = some t := ht
  -- entries
  have hv1 := hvalid _ (entryAt_mem palette hne ⌊p⌋)
  have hv2 := hvalid _ (entryAt_mem palette hne (⌊p⌋ + 1))
  unfold Color.valid at hv1 hv2
  obtain ⟨r, hr, hr1, hr2, hr3, hr4⟩ := channelF64_between (palette.entryAt ⌊p⌋).r
    (palette.entryAt (⌊p⌋ + 1)).r t hv1.1 hv2.1 ht0 ht1
  obtain ⟨g, hg, hg1, hg2, hg3, hg4⟩ := channelF64_between (palette.entryAt ⌊p⌋).g
    (palette.entryAt (⌊p⌋ + 1)).g t hv1.2.1 hv2.2.1 ht0 ht1
  obtain ⟨b, hb, hb1, hb2, hb3, hb4⟩ := channelF64_between (palette.entryAt ⌊p⌋).b
    (palette.entryAt (⌊p⌋ + 1)).b t hv1.2.2.1 hv2.2.2.1 ht0 ht1
  obtain ⟨a, ha, ha1, ha2, ha3, ha4⟩ := channelF64_between (palette.entryAt ⌊p⌋).a
    (palette.entryAt (⌊p⌋ + 1)).a t hv1.2.2.2 hv2.2.2.2 ht0 ht1
  -- the integer conversions
  have hpow : ((palette.palette_.length : Nat) : Int) < (2 : Int) ^ size_bits := by
    exact_mod_cast hbits
  have hw1 : wrap32 ⌊p⌋ = ⌊p⌋ := by unfold wrap32; omega
  have hm1 : ⌊p⌋ % (2 : Int) ^ size_bits = ⌊p⌋ := Int.emod_eq_of_lt hi0 (by omega)
  have he1 : 0 ≤ ⌊p⌋ % (palette.palette_.length : Int) := Int.emod_nonneg _ (by omega)
  have he2 : ⌊p⌋ % (palette.palette_.length : Int) < (palette.palette_.length : Int) :=
    Int.emod_lt_of_pos _ (by omega)
  have hw2 : wrap32 (⌊p⌋ % (palette.palette_.length : Int))
      = ⌊p⌋ % (palette.palette_.length : Int) := by unfold wrap32; omega
  have hm2 : (⌊p⌋ % (palette.palette_.length : Int)) % (2 : Int) ^ size_bits
      = ⌊p⌋ % (palette.palette_.length : Int) := Int.emod_eq_of_lt he1 (by omega)
  have hw3 : wrap32 (⌊p⌋ % (palette.palette_.length : Int) + 1)
      = ⌊p⌋ % (palette.palette_.length : Int) + 1 := by unfold wrap32; omega
  have hm3 : (⌊p⌋ % (palette.palette_.length : Int) + 1) % (2 : Int) ^ size_bits
      = ⌊p⌋ % (palette.palette_.length : Int) + 1 := Int.emod_eq_of_lt (by omega) (by omega)
  have hnext : (⌊p⌋ % (palette.palette_.length : Int) + 1) % (palette.palette_.length : Int)
      = (⌊p⌋ + 1) % (palette.palette_.length : Int) := Int.emod_add_emod _ _ _
  have he3 : 0 ≤ (⌊p⌋ + 1) % (palette.palette_.length : Int) := Int.emod_nonneg _ (by omega)
  have he4 : (⌊p⌋ + 1) % (palette.palette_.length : Int) < (palette.palette_.length : Int) :=
    Int.emod_lt_of_pos _ (by omega)
  have hw4 : wrap32 ((⌊p⌋ + 1) % (palette.palette_.length : Int))
      = (⌊p⌋ + 1) % (palette.palette_.length : Int) := by unfold wrap32; omega
  have hm4 : ((⌊p⌋ + 1) % (palette.palette_.length : Int)) % (2 : Int) ^ size_bits
      = (⌊p⌋ + 1) % (palette.palette_.length : Int) := Int.emod_eq_of_lt he3 (by omega)
  have hclamp : max (0 : ℚ) (min 1 t) = t := by
    rw [min_eq_right ht1, max_eq_right ht0]
  have hout : palette.getColorF64 size_bits smooth_value max_iterations
      = some ⟨⌊r⌋.toNat, ⌊g⌋.toNat, ⌊b⌋.toNat, ⌊a⌋.toNat⟩ := by
    unfold ColorPalette.getColorF64
    rw [if_neg (not_le.2 hlt)]
    simp only [hdiv, hsize, Option.some_bind, hmul, hsub, truncToInt, if_pos hp0, hw1, hm1, hw2, hm2, hw3,
      hm3, hnext, hw4, hm4]
    unfold ColorPalette.interpolateColorsF64
    unfold ColorPalette.entryAt at hr hg hb ha
    simp only [hclamp, hr, hg, hb, ha, Option.some_bind, hr1, hg1, hb1, ha1]
  refine ⟨normalized, p, t, hdiv, hmul, hsub, hp0, hpn, ht0, ht1, r, g, b, a, hr, hg, hb, ha,
    hout, ⟨⟨hr2, hr3⟩, ⟨hg2, hg3⟩, ⟨hb2, hb3⟩, ⟨ha2, ha3⟩⟩, ?_⟩
  intro htz
  rw [hout, hr4 htz, hg4 htz, hb4 htz, ha4 htz]

/-- The compiled arithmetic on the palette red, green, blue at `getColor(1.0, 5)`, next to
the values the exact blend formula gives there. -/
theorem getColorF64_rgb :
    ColorPalette.getColorF64 32
        ⟨[⟨255, 0, 0, 255⟩, ⟨0, 255, 0, 255⟩, ⟨0, 0, 255, 255⟩]⟩ 1 5
      = some ⟨101, 153, 0, 255⟩ ∧
    ⌊(1 : ℚ) / ((5 : Int) : ℚ) * ((3 : Nat) : ℚ)⌋ = 0 ∧
    (ColorPalette.mk [⟨255, 0, 0, 255⟩, ⟨0, 255, 0, 255⟩, ⟨0, 0, 255, 255⟩]).entryAt 0
      = ⟨255, 0, 0, 255⟩ ∧
    (ColorPalette.mk [⟨255, 0, 0, 255⟩, ⟨0, 255, 0, 255⟩, ⟨0, 0, 255, 255⟩]).entryAt (0 + 1)
      = ⟨0, 255, 0, 255⟩ ∧
    blendChannel 255 0 ((1 : ℚ) / ((5 : Int) : ℚ) * ((3 : Nat) : ℚ) - 0) = 102 := by
  refine ⟨by decide!, by decide!, by decide!, by decide!, by decide!⟩

/-- The `double` operations of `getColor` on a palette of `2^31 + 1` colours at
`smooth_value = 1 - 2^-32`, `max_iterations = 1`. -/
theorem getColorF64_oversized_steps :
    F64.div (4294967295 / 4294967296) ((1 : Int) : ℚ) = some (4294967295 / 4294967296) ∧
    F64.round ((2147483649 : Nat) : ℚ) = some ((2147483649 : Nat) : ℚ) ∧
    F64.mul (4294967295 / 4294967296) ((2147483649 : Nat) : ℚ) = some (4294967297 / 2) ∧
    ⌊(4294967297 / 2 : ℚ)⌋ = 2147483648 ∧
    F64.sub (4294967297 / 2) ((2147483648 : Int) : ℚ) = some (1 / 2) ∧
    ColorPalette.interpolateColorsF64 ⟨255, 255, 255, 255⟩ ⟨255, 255, 255, 255⟩ (1 / 2)
      = some ⟨255, 255, 255, 255⟩ := by
  refine ⟨?_, ?_, ?_, ?_, ?_, by decide!⟩
  · unfold F64.div
    rw [if_neg (by norm_num)]
    have h := round_exact 4294967295 32 (by norm_num) (by norm_num)
    norm_num at h ⊢
    exact h
  · have h := round_exact 2147483649 0 (by norm_num) (by norm_num)
    norm_num at h ⊢
    exact h
  · unfold F64.mul
    have h := round_eq_of_near ((4294967295 / 4294967296 : ℚ) * ((2147483649 : Nat) : ℚ)) 31
      4503599628419072 (by norm_num [abs_of_pos]) (by norm_num [abs_of_pos]) (by norm_num)
      (by norm_num) (by norm_num) (by norm_num [abs_of_pos])
    rw [h]
    norm_num
  · rw [Int.floor_eq_iff]
    norm_num
  · unfold F64.sub
    have h := round_exact 1 1 (by norm_num) (by norm_num)
    norm_num at h ⊢
    exact h

/-- With a 64-bit `size_t`, the compiled `getColor` on the palette of `2^31 + 1` colours
reads the entries 5 and 6 and returns white. -/
theorem getColorF64_oversized :
    (ColorPalette.twoWhite 2147483642).getColorF64 64 (4294967295 / 4294967296) 1
      = some ⟨255, 255, 255, 255⟩ := by
  obtain ⟨hdiv, hsize, hmul, hfl, hsub, hwhite⟩ := getColorF64_oversized_steps
  have hlen : (ColorPalette.twoWhite 2147483642).palette_.length = 2147483649 :=
    twoWhite_length 2147483642
  have htr : truncToInt (4294967297 / 2 : ℚ) = 2147483648 := by
    unfold truncToInt
    rw [if_pos (by norm_num), hfl]
  have hi1 : wrap32 (((wrap32 2147483648 % (2 : Int) ^ 64) % ((2147483649 : Nat) : Int)))
      = 5 := by
    norm_num [wrap32]
  have hi2 : wrap32 (((wrap32 (5 + 1) % (2 : Int) ^ 64) % ((2147483649 : Nat) : Int)))
      = 6 := by
    norm_num [wrap32]
  unfold ColorPalette.getColorF64
  rw [if_neg (by norm_num)]
  dsimp only
  rw [hlen, hdiv, Option.some_bind, hsize, Option.some_bind, hmul, Option.some_bind, htr, hfl,
    hsub, Option.some_bind, hi1, hi2,
    show ((5 : Int) % (2 : Int) ^ 64).toNat = 5 by norm_num; rfl,
    show ((6 : Int) % (2 : Int) ^ 64).toNat = 6 by norm_num; rfl,
    (twoWhite_getD 2147483642 ⟨0, 0, 0, 255⟩).1, (twoWhite_getD 2147483642 ⟨0, 0, 0, 255⟩).2.1]
  exact hwhite

/-- C20, counterexample.  (1) For the palette red, green, blue, `max_iterations = 5` and
`smooth_value = 1.0` the claim's values are `p = 3/5`, `i = 0`, `t = 3/5`, `c1` red and
`c2` green, and the integer part of `255 + 3/5 * (0 - 255)` is 102; the compiled `double`
arithmetic returns red 101.  (2) For a palette of `n = 2^31 + 1` colours that is black
except for white entries at positions 5 and 6, `max_iterations = 1` and
`smooth_value = 1 - 2^-32`, on a platform with a 64-bit `size_t`: the index `p` is
`2^31 + 1/2`, `palette[floor(p) mod n]` and `palette[(floor(p) + 1) mod n]` are both black,
but `floor(p)` is not an `int` value: `static_cast<int>` leaves `-2^31`, the index becomes
`(2^64 - 2^31) mod n = 5`, and `getColor` returns white. -/
theorem C20_getColor_blend_counterexample :
    (ColorPalette.getColorF64 32
        ⟨[⟨255, 0, 0, 255⟩, ⟨0, 255, 0, 255⟩, ⟨0, 0, 255, 255⟩]⟩ 1 5
      = some ⟨101, 153, 0, 255⟩ ∧
     ⌊(1 : ℚ) / ((5 : Int) : ℚ) * ((3 : Nat) : ℚ)⌋ = 0 ∧
     (ColorPalette.mk [⟨255, 0, 0, 255⟩, ⟨0, 255, 0, 255⟩, ⟨0, 0, 255, 255⟩]).entryAt 0
      = ⟨255, 0, 0, 255⟩ ∧
     (ColorPalette.mk [⟨255, 0, 0, 255⟩, ⟨0, 255, 0, 255⟩, ⟨0, 0, 255, 255⟩]).entryAt (0 + 1)
      = ⟨0, 255, 0, 255⟩ ∧
     blendChannel 255 0 ((1 : ℚ) / ((5 : Int) : ℚ) * ((3 : Nat) : ℚ) - 0) = 102) ∧
    ((ColorPalette.twoWhite 2147483642).palette_.length = 2147483649 ∧
     F64.div (4294967295 / 4294967296) ((1 : Int) : ℚ) = some (4294967295 / 4294967296) ∧
     F64.mul (4294967295 / 4294967296) ((2147483649 : Nat) : ℚ) = some (4294967297 / 2) ∧
     ⌊(4294967297 / 2 : ℚ)⌋ = 2147483648 ∧
     (ColorPalette.twoWhite 2147483642).entryAt 2147483648 = ⟨0, 0, 0, 255⟩ ∧
     (ColorPalette.twoWhite 2147483642).entryAt (2147483648 + 1) = ⟨0, 0, 0, 255⟩ ∧
     (ColorPalette.twoWhite 2147483642).getColorF64 64 (4294967295 / 4294967296) 1
      = some ⟨255, 255, 255, 255⟩) := by
  have hlen : (ColorPalette.twoWhite 2147483642).palette_.length = 2147483649 :=
    twoWhite_length 2147483642
  obtain ⟨hdiv, _, hmul, hfl, _, _⟩ := getColorF64_oversized_steps
  refine ⟨getColorF64_rgb, hlen, hdiv, hmul, hfl, ?_, ?_, getColorF64_oversized⟩
  · unfold ColorPalette.entryAt
    rw [hlen, show ((2147483648 : Int) % ((2147483649 : Nat) : Int)).toNat = 2147483641 + 7 by
      norm_num; rfl]
    exact (twoWhite_getD 2147483642 ⟨0, 0, 0, 255⟩).2.2.2 2147483641 (by norm_num)
  · unfold ColorPalette.entryAt
    rw [hlen, show (((2147483648 : Int) + 1) % ((2147483649 : Nat) : Int)).toNat = 0 by
      norm_num]
    exact (twoWhite_getD 2147483642 ⟨0, 0, 0, 255⟩).2.2.1

/-- C20, amended: for every non-empty palette of `n <= INT_MAX` colours (`uint8_t`
channels, `n` a `size_t` value), every `max_iterations > 0` and every `smooth_value` with
`0 <= smooth_value < max_iterations`, with `p = smooth_value / max_iterations * n`,
`i = floor(p)`, `t = p - i`, `c1 = palette[i mod n]` and `c2 = palette[(i + 1) mod n]`:
in exact arithmetic `getColor` returns the channel-wise integer part of
`c1 + t * (c2 - c1)`; in binary64 arithmetic `p`, `t` and the blend are the rounded values
of these expressions (all finite, `0 <= p <= n`, `0 <= t <= 1`) and `getColor` returns the
channel-wise integer part of the rounded blend.  In both, each returned channel lies
between the corresponding channels of `c1` and `c2`, the result is `c1` when `t = 0`, and
`getColor(0, max_iterations)` is the first palette entry. -/
theorem C20_getColor_blend {K : Type} [LinearOrderedField K] [FloorRing K]
    (size_bits : Nat) (palette : ColorPalette) (smooth_value : K) (smooth_valueF64 : ℚ)
    (max_iterations : Int)
    (hne : palette.palette_ ≠ []) (hvalid : ∀ c ∈ palette.palette_, c.valid)
    (hint : palette.palette_.length ≤ 2147483647)
    (hbits : palette.palette_.length < 2 ^ size_bits) (hmax : 0 < max_iterations)
    (h0 : 0 ≤ smooth_value) (hlt : smooth_value < (max_iterations : K))
    (h0F64 : 0 ≤ smooth_valueF64) (hltF64 : smooth_valueF64 < (max_iterations : ℚ)) :
    (let p : K := smooth_value / (max_iterations : K) * (palette.palette_.length : K)
     let i : Int := ⌊p⌋
     let t : K := p - (i : K)
     let c1 : Color := palette.entryAt i
     let c2 : Color := palette.entryAt (i + 1)
     let out : Color := palette.getColor size_bits smooth_value max_iterations
     c1 ∈ palette.palette_ ∧ c2 ∈ palette.palette_ ∧
     out = ⟨blendChannel c1.r c2.r t, blendChannel c1.g c2.g t, blendChannel c1.b c2.b t,
       blendChannel c1.a c2.a t⟩ ∧
     out.between c1 c2 ∧ (t = 0 → out = c1)) ∧
    palette.palette_[0]? = some (palette.getColor size_bits (0 : K) max_iterations) ∧
    (∃ normalized p t : ℚ,
      F64.div smooth_valueF64 (max_iterations : ℚ) = some normalized ∧
      F64.mul normalized (palette.palette_.length : ℚ) = some p ∧
      F64.sub p (⌊p⌋ : ℚ) = some t ∧
      0 ≤ p ∧ p ≤ (palette.palette_.length : ℚ) ∧ 0 ≤ t ∧ t ≤ 1 ∧
      ∃ r g b a : ℚ,
        ColorPalette.interpolateColorsF64.channel (palette.entryAt ⌊p⌋).r
          (palette.entryAt (⌊p⌋ + 1)).r t = some r ∧
        ColorPalette.interpolateColorsF64.channel (palette.entryAt ⌊p⌋).g
          (palette.entryAt (⌊p⌋ + 1)).g t = some g ∧
        ColorPalette.interpolateColorsF64.channel (palette.entryAt ⌊p⌋).b
          (palette.entryAt (⌊p⌋ + 1)).b t = some b ∧
        ColorPalette.interpolateColorsF64.channel (palette.entryAt ⌊p⌋).a
          (palette.entryAt (⌊p⌋ + 1)).a t = some a ∧
        palette.getColorF64 size_bits smooth_valueF64 max_iterations
          = some ⟨⌊r⌋.toNat, ⌊g⌋.toNat, ⌊b⌋.toNat, ⌊a⌋.toNat⟩ ∧
        Color.between ⟨⌊r⌋.toNat, ⌊g⌋.toNat, ⌊b⌋.toNat, ⌊a⌋.toNat⟩ (palette.entryAt ⌊p⌋)
          (palette.entryAt (⌊p⌋ + 1)) ∧
        (t = 0 → palette.getColorF64 size_bits smooth_valueF64 max_iterations
          = some (palette.entryAt ⌊p⌋))) ∧
    palette.getColorF64 size_bits 0 max_iterations = palette.palette_[0]? := by
  have hn : 0 < palette.palette_.length := List.length_pos.2 hne
  have hfirst : palette.entryAt 0 = palette.palette_.getD 0 ⟨0, 0, 0, 255⟩ := by
    unfold ColorPalette.entryAt
    simp
  have hfirst2 : palette.palette_[0]? = some (palette.entryAt 0) := by
    rw [hfirst, List.getD_eq_getElem _ _ hn]
    simp
  refine ⟨?_, ?_, getColorF64_blend size_bits palette smooth_valueF64 max_iterations hne hvalid
    hint hbits hmax h0F64 hltF64, ?_⟩
  · intro p i t c1 c2 out
    have h := getColor_blend size_bits palette smooth_value max_iterations hne hvalid hint
      hbits hmax h0 hlt i t c1 c2 rfl rfl rfl rfl
    have hout : out = ⟨blendChannel c1.r c2.r t, blendChannel c1.g c2.g t,
        blendChannel c1.b c2.b t, blendChannel c1.a c2.a t⟩ := h.2.2.1
    refine ⟨h.1, h.2.1, hout, ?_, h.2.2.2.2.2.2.2⟩
    rw [hout]
    exact ⟨h.2.2.2.1, h.2.2.2.2.1, h.2.2.2.2.2.1, h.2.2.2.2.2.2.1⟩
  · have hz := getColor_blend size_bits palette (0 : K) max_iterations hne hvalid hint hbits
      hmax (le_refl 0) (by exact_mod_cast hmax) 0 0 (palette.entryAt 0)
      (palette.entryAt (0 + 1)) (by simp) (by simp) rfl rfl
    rw [hz.2.2.2.2.2.2.2 rfl]
    exact hfirst2
  · obtain ⟨normalized, p, t, hdiv, hmul, hsub, _, _, _, _, r, g, b, a, _, _, _, _, _, _, hzero⟩ :=
      getColorF64_blend size_bits palette 0 max_iterations hne hvalid hint hbits hmax
        (le_refl 0) (by exact_mod_cast hmax)
    have hmaxQ : (max_iterations : ℚ) ≠ 0 := by exact_mod_cast (ne_of_gt hmax)
    have hnorm : normalized = 0 := by
      unfold F64.div at hdiv
      rw [if_neg hmaxQ, zero_div, round_zero] at hdiv
      exact (Option.some.inj hdiv).symm
    have hp : p = 0 := by
      unfold F64.mul at hmul
      rw [hnorm, zero_mul, round_zero] at hmul
      exact (Option.some.inj hmul).symm
    have ht : t = 0 := by
      unfold F64.sub at hsub
      rw [hp, Int.floor_zero, Int.cast_zero, sub_zero, round_zero] at hsub
      exact (Option.some.inj hsub).symm
    rw [hzero ht, hp, Int.floor_zero, hfirst2]

/-- C20, witness: the three-colour palette red, green, blue with `max_iterations = 4` and
`smooth_value = 1/2` on a platform with a 32-bit `size_t`. -/
theorem C20_getColor_blend_witness :
    (ColorPalette.mk [⟨255, 0, 0, 255⟩, ⟨0, 255, 0, 255⟩, ⟨0, 0, 255, 255⟩]).palette_[0]?
      = some ((ColorPalette.mk [⟨255, 0, 0, 255⟩, ⟨0, 255, 0, 255⟩,
          ⟨0, 0, 255, 255⟩]).getColor 32 (0 : ℚ) 4) ∧
    (ColorPalette.mk [⟨255, 0, 0, 255⟩, ⟨0, 255, 0, 255⟩, ⟨0, 0, 255, 255⟩]).getColorF64 32 0 4
      = (ColorPalette.mk [⟨255, 0, 0, 255⟩, ⟨0, 255, 0, 255⟩,
          ⟨0, 0, 255, 255⟩]).palette_[0]? :=
  ⟨(C20_getColor_blend 32 ⟨[⟨255, 0, 0, 255⟩, ⟨0, 255, 0, 255⟩, ⟨0, 0, 255, 255⟩]⟩
      (1 / 2 : ℚ) (1 / 2) 4 (by decide) (by simp [Color.valid]) (by decide) (by decide)
      (by decide) (by norm_num) (by norm_num) (by norm_num) (by norm_num)).2.1,
    (C20_getColor_blend 32 ⟨[⟨255, 0, 0, 255⟩, ⟨0, 255, 0, 255⟩, ⟨0, 0, 255, 255⟩]⟩
      (1 / 2 : ℚ) (1 / 2) 4 (by decide) (by simp [Color.valid]) (by decide) (by decide)
      (by decide) (by norm_num) (by norm_num) (by norm_num) (by norm_num)).2.2.2⟩

/-! ## The cardioid and period-2 short-circuits

The closed main cardioid and the closed period-2 disc lie in the Mandelbrot set.  The proof
is the classical one: if the critical orbit of `z ↦ z ^ 2 + c` escapes, it stays away from a
ball around any periodic point, all inverse branches of the iterates exist on that ball as
holomorphic functions (square roots of zero-free functions on a ball), they are uniformly
bounded, and Cauchy's estimate bounds their derivatives, so the multiplier of the cycle has
norm at least 1.  The boundary of the two regions follows by continuity. -/

section ComplexDynamics

open Metric Set MeasureTheory


/-- The derivative of `x ↦ (x - z0) * h (z0 + t * (x - z0))`. -/
theorem hasDerivAt_segment_integrand (z0 : ℂ) (r : ℝ) (h : ℂ → ℂ)
    (hh : DifferentiableOn ℂ h (ball z0 r)) (t x : ℂ) (hx : z0 + t * (x - z0) ∈ ball z0 r) :
    HasDerivAt (fun x : ℂ => (x - z0) * h (z0 + t * (x - z0)))
      (h (z0 + t * (x - z0)) + (x - z0) * (t * deriv h (z0 + t * (x - z0)))) x := by
  have hd : HasDerivAt h (deriv h (z0 + t * (x - z0))) (z0 + t * (x - z0)) :=
    (hh.differentiableAt (isOpen_ball.mem_nhds hx)).hasDerivAt
  have hin : HasDerivAt (fun x : ℂ => z0 + t * (x - z0)) t x := by
    have := ((hasDerivAt_id x).sub_const z0).const_mul t
    simpa using this.const_add z0
  have hcomp : HasDerivAt (fun x : ℂ => h (z0 + t * (x - z0)))
      (deriv h (z0 + t * (x - z0)) * t) x := hd.comp x hin
  have hmul := ((hasDerivAt_id x).sub_const z0).mul hcomp
  convert hmul using 1
  simp only [id_eq, one_mul]
  ring

/-- The derivative of `τ ↦ τ * h (z0 + τ * (z - z0))`. -/
theorem hasDerivAt_segment_parameter (z0 : ℂ) (r : ℝ) (h : ℂ → ℂ)
    (hh : DifferentiableOn ℂ h (ball z0 r)) (z τ : ℂ) (hτ : z0 + τ * (z - z0) ∈ ball z0 r) :
    HasDerivAt (fun τ : ℂ => τ * h (z0 + τ * (z - z0)))
      (h (z0 + τ * (z - z0)) + (z - z0) * (τ * deriv h (z0 + τ * (z - z0)))) τ := by
  have hd : HasDerivAt h (deriv h (z0 + τ * (z - z0))) (z0 + τ * (z - z0)) :=
    (hh.differentiableAt (isOpen_ball.mem_nhds hτ)).hasDerivAt
  have hin : HasDerivAt (fun τ : ℂ => z0 + τ * (z - z0)) (z - z0) τ := by
    have := (hasDerivAt_id τ).mul_const (z - z0)
    simpa using this.const_add z0
  have hcomp : HasDerivAt (fun τ : ℂ => h (z0 + τ * (z - z0)))
      (deriv h (z0 + τ * (z - z0)) * (z - z0)) τ := hd.comp τ hin
  have hmul := (hasDerivAt_id τ).mul hcomp
  convert hmul using 1
  simp only [id_eq, one_mul]
  ring

/-- Points of the segment from the centre to a point of a ball stay in the ball. -/
theorem segment_mem_closedBall (z0 x : ℂ) (ρ : ℝ) (hx : x ∈ closedBall z0 ρ) (t : ℝ)
    (ht0 : 0 ≤ t) (ht1 : t ≤ 1) : z0 + (t : ℂ) * (x - z0) ∈ closedBall z0 ρ := by
  rw [mem_closedBall, dist_eq_norm] at hx ⊢
  have : z0 + (t : ℂ) * (x - z0) - z0 = (t : ℂ) * (x - z0) := by ring
  rw [this, norm_mul, Complex.norm_real, Real.norm_eq_abs, abs_of_nonneg ht0]
  calc t * ‖x - z0‖ ≤ 1 * ‖x - z0‖ := by gcongr
    _ = ‖x - z0‖ := one_mul _
    _ ≤ ρ := hx

/-- A holomorphic function on an open ball has a primitive there: the integral along the
segment from the centre. -/
theorem exists_primitive_on_ball (z0 : ℂ) (r : ℝ) (h : ℂ → ℂ)
    (hh : DifferentiableOn ℂ h (ball z0 r)) :
    ∃ F : ℂ → ℂ, ∀ z ∈ ball z0 r, HasDerivAt F (h z) z := by
  refine ⟨fun z => ∫ t in (0 : ℝ)..1, (z - z0) * h (z0 + (t : ℂ) * (z - z0)), ?_⟩
  intro z hz
  have hh' : DifferentiableOn ℂ (deriv h) (ball z0 r) :=
    (hh.analyticOnNhd isOpen_ball).deriv.differentiableOn
  have hρ : dist z z0 < r := hz
  set ε : ℝ := (r - dist z z0) / 2 with hε
  have hεpos : 0 < ε := by rw [hε]; linarith
  set ρ : ℝ := dist z z0 + ε with hρdef
  have hρr : ρ < r := by rw [hρdef, hε]; linarith
  have hsub : closedBall z0 ρ ⊆ ball z0 r := closedBall_subset_ball hρr
  have hball : ∀ x ∈ ball z ε, x ∈ closedBall z0 ρ := by
    intro x hx
    rw [mem_closedBall]
    have h1 : dist x z < ε := hx
    have := dist_triangle x z z0
    rw [hρdef]; linarith
  -- bounds on `h` and `deriv h` over the compact ball
  obtain ⟨M1, hM1⟩ := (isCompact_closedBall z0 ρ).exists_bound_of_continuousOn
    (hh.continuousOn.mono hsub)
  obtain ⟨M2, hM2⟩ := (isCompact_closedBall z0 ρ).exists_bound_of_continuousOn
    (hh'.continuousOn.mono hsub)
  have hdist0 : 0 ≤ dist z z0 := dist_nonneg
  have hρ0 : 0 ≤ ρ := by rw [hρdef]; linarith
  have hM2' : 0 ≤ M2 := le_trans (norm_nonneg _) (hM2 z0 (mem_closedBall_self hρ0))
  -- continuity in the parameter
  have hpath : ∀ x : ℂ, Continuous fun t : ℝ => z0 + (t : ℂ) * (x - z0) := by
    intro x; fun_prop
  have hmaps : ∀ x ∈ closedBall z0 ρ, MapsTo (fun t : ℝ => z0 + (t : ℂ) * (x - z0))
      (Icc 0 1) (ball z0 r) := by
    intro x hx t ht
    exact hsub (segment_mem_closedBall z0 x ρ hx t ht.1 ht.2)
  have hcontF : ∀ x ∈ closedBall z0 ρ,
      ContinuousOn (fun t : ℝ => (x - z0) * h (z0 + (t : ℂ) * (x - z0))) (Icc 0 1) := by
    intro x hx
    exact continuousOn_const.mul (hh.continuousOn.comp (hpath x).continuousOn (hmaps x hx))
  have hcontF' : ∀ x ∈ closedBall z0 ρ,
      ContinuousOn (fun t : ℝ => h (z0 + (t : ℂ) * (x - z0))
        + (x - z0) * ((t : ℂ) * deriv h (z0 + (t : ℂ) * (x - z0)))) (Icc 0 1) := by
    intro x hx
    have h1 := hh.continuousOn.comp (hpath x).continuousOn (hmaps x hx)
    have h2 := hh'.continuousOn.comp (hpath x).continuousOn (hmaps x hx)
    have h3 : ContinuousOn (fun t : ℝ => (t : ℂ)) (Icc 0 1) :=
      Complex.continuous_ofReal.continuousOn
    exact h1.add (continuousOn_const.mul (h3.mul h2))
  have hzmem : z ∈ closedBall z0 ρ := hball z (mem_ball_self hεpos)
  have huIoc : Ι (0 : ℝ) 1 ⊆ Icc 0 1 := by
    rw [uIoc_of_le zero_le_one]; exact Ioc_subset_Icc_self
  have hmeasF : ∀ᶠ x in nhds z, AEStronglyMeasurable
      (fun t : ℝ => (x - z0) * h (z0 + (t : ℂ) * (x - z0))) (volume.restrict (Ι (0 : ℝ) 1)) := by
    filter_upwards [ball_mem_nhds z hεpos] with x hx
    exact ((hcontF x (hball x hx)).mono huIoc).aestronglyMeasurable measurableSet_uIoc
  have hintF : IntervalIntegrable (fun t : ℝ => (z - z0) * h (z0 + (t : ℂ) * (z - z0)))
      volume 0 1 := (hcontF z hzmem).intervalIntegrable_of_Icc zero_le_one
  have hmeasD : AEStronglyMeasurable
      (fun t : ℝ => h (z0 + (t : ℂ) * (z - z0))
        + (z - z0) * ((t : ℂ) * deriv h (z0 + (t : ℂ) * (z - z0))))
      (volume.restrict (Ι (0 : ℝ) 1)) :=
    ((hcontF' z hzmem).mono huIoc).aestronglyMeasurable measurableSet_uIoc
  have hbound : ∀ᵐ t ∂(volume : Measure ℝ), t ∈ Ι (0 : ℝ) 1 → ∀ x ∈ ball z ε,
      ‖h (z0 + (t : ℂ) * (x - z0))
        + (x - z0) * ((t : ℂ) * deriv h (z0 + (t : ℂ) * (x - z0)))‖
        ≤ (fun _ : ℝ => M1 + ρ * (1 * M2)) t := by
    refine Filter.Eventually.of_forall fun t ht x hx => ?_
    have ht' := huIoc ht
    have hxm := hball x hx
    have hp := segment_mem_closedBall z0 x ρ hxm t ht'.1 ht'.2
    have hxn : ‖x - z0‖ ≤ ρ := by rw [← dist_eq_norm]; exact hxm
    have htn : ‖(t : ℂ)‖ ≤ 1 := by
      rw [Complex.norm_real, Real.norm_eq_abs, abs_of_nonneg ht'.1]; exact ht'.2
    calc ‖h (z0 + (t : ℂ) * (x - z0))
          + (x - z0) * ((t : ℂ) * deriv h (z0 + (t : ℂ) * (x - z0)))‖
        ≤ ‖h (z0 + (t : ℂ) * (x - z0))‖
          + ‖x - z0‖ * (‖(t : ℂ)‖ * ‖deriv h (z0 + (t : ℂ) * (x - z0))‖) := by
          refine (norm_add_le _ _).trans ?_
          rw [norm_mul, norm_mul]
      _ ≤ M1 + ρ * (1 * M2) := by
          gcongr
          · exact hM1 _ hp
          · exact hM2 _ hp
  have hboundint : IntervalIntegrable (fun _ : ℝ => M1 + ρ * (1 * M2)) volume 0 1 :=
    intervalIntegrable_const
  have hdiff : ∀ᵐ t ∂(volume : Measure ℝ), t ∈ Ι (0 : ℝ) 1 → ∀ x ∈ ball z ε,
      HasDerivAt (fun x : ℂ => (x - z0) * h (z0 + (t : ℂ) * (x - z0)))
        (h (z0 + (t : ℂ) * (x - z0))
          + (x - z0) * ((t : ℂ) * deriv h (z0 + (t : ℂ) * (x - z0)))) x := by
    refine Filter.Eventually.of_forall fun t ht x hx => ?_
    have ht' := huIoc ht
    exact hasDerivAt_segment_integrand z0 r h hh (t : ℂ) x
      (hsub (segment_mem_closedBall z0 x ρ (hball x hx) t ht'.1 ht'.2))
  have key : HasDerivAt
      (fun x : ℂ => ∫ t in (0 : ℝ)..1, (x - z0) * h (z0 + (t : ℂ) * (x - z0)))
      (∫ t in (0 : ℝ)..1, (h (z0 + (t : ℂ) * (z - z0))
        + (z - z0) * ((t : ℂ) * deriv h (z0 + (t : ℂ) * (z - z0))))) z :=
    (@intervalIntegral.hasDerivAt_integral_of_dominated_loc_of_deriv_le ℂ _ volume ℂ _ _ _
      0 1 ε (fun _ : ℝ => M1 + ρ * (1 * M2))
      (fun (x : ℂ) (t : ℝ) => (x - z0) * h (z0 + (t : ℂ) * (x - z0)))
      (fun (x : ℂ) (t : ℝ) => h (z0 + (t : ℂ) * (x - z0))
        + (x - z0) * ((t : ℂ) * deriv h (z0 + (t : ℂ) * (x - z0))))
      z hεpos hmeasF hintF hmeasD hbound hboundint hdiff).2
  have hparam : ∀ t ∈ uIcc (0 : ℝ) 1,
      HasDerivAt (fun t : ℝ => (t : ℂ) * h (z0 + (t : ℂ) * (z - z0)))
        (h (z0 + (t : ℂ) * (z - z0))
          + (z - z0) * ((t : ℂ) * deriv h (z0 + (t : ℂ) * (z - z0)))) t := by
    intro t ht
    rw [uIcc_of_le zero_le_one] at ht
    exact (hasDerivAt_segment_parameter z0 r h hh z (t : ℂ)
      (hsub (segment_mem_closedBall z0 z ρ hzmem t ht.1 ht.2))).comp_ofReal
  have hval : ∫ t in (0 : ℝ)..1, (h (z0 + (t : ℂ) * (z - z0))
      + (z - z0) * ((t : ℂ) * deriv h (z0 + (t : ℂ) * (z - z0)))) = h z := by
    rw [@intervalIntegral.integral_eq_sub_of_hasDerivAt ℂ _ _ 0 1 _
      (fun t : ℝ => (t : ℂ) * h (z0 + (t : ℂ) * (z - z0)))
      (fun t : ℝ => h (z0 + (t : ℂ) * (z - z0))
        + (z - z0) * ((t : ℂ) * deriv h (z0 + (t : ℂ) * (z - z0))))
      hparam ((hcontF' z hzmem).intervalIntegrable_of_Icc zero_le_one)]
    simp
  rw [← hval]
  exact key

/-- A zero-free holomorphic function on an open ball has a holomorphic square root there. -/
theorem exists_sqrt_on_ball (z0 : ℂ) (r : ℝ) (hr : 0 < r) (h : ℂ → ℂ)
    (hh : DifferentiableOn ℂ h (ball z0 r)) (hne : ∀ z ∈ ball z0 r, h z ≠ 0) :
    ∃ s : ℂ → ℂ, DifferentiableOn ℂ s (ball z0 r) ∧ ∀ z ∈ ball z0 r, s z ^ 2 = h z := by
  have hh' : DifferentiableOn ℂ (deriv h) (ball z0 r) :=
    (hh.analyticOnNhd isOpen_ball).deriv.differentiableOn
  have hquot : DifferentiableOn ℂ (fun z => deriv h z / h z) (ball z0 r) := hh'.div hh hne
  obtain ⟨L, hL⟩ := exists_primitive_on_ball z0 r _ hquot
  -- `h * exp (-L)` is constant on the ball
  have hE : ∀ z ∈ ball z0 r, HasDerivAt (fun z => h z * Complex.exp (-L z)) 0 z := by
    intro z hz
    have h1 : HasDerivAt h (deriv h z) z :=
      (hh.differentiableAt (isOpen_ball.mem_nhds hz)).hasDerivAt
    have h2 : HasDerivAt (fun z => Complex.exp (-L z))
        (Complex.exp (-L z) * -(deriv h z / h z)) z := (hL z hz).neg.cexp
    have h3 := h1.mul h2
    convert h3 using 1
    field_simp [hne z hz]
    ring
  have hconst : ∀ z ∈ ball z0 r, h z * Complex.exp (-L z) = h z0 * Complex.exp (-L z0) := by
    intro z hz
    have hdiff : DifferentiableOn ℂ (fun z => h z * Complex.exp (-L z)) (ball z0 r) :=
      fun w hw => (hE w hw).differentiableAt.differentiableWithinAt
    have hderiv : ∀ w ∈ ball z0 r,
        fderivWithin ℂ (fun z => h z * Complex.exp (-L z)) (ball z0 r) w = 0 := by
      intro w hw
      rw [fderivWithin_of_isOpen isOpen_ball hw, (hE w hw).hasFDerivAt.fderiv]
      ext
      simp
    exact (convex_ball z0 r).is_const_of_fderivWithin_eq_zero hdiff hderiv hz (mem_ball_self hr)
  have hz0 : h z0 ≠ 0 := hne z0 (mem_ball_self hr)
  refine ⟨fun z => Complex.exp ((L z - L z0 + Complex.log (h z0)) / 2), ?_, ?_⟩
  · intro z hz
    have hLd : DifferentiableAt ℂ L z := (hL z hz).differentiableAt
    exact (((hLd.sub_const _).add_const _).div_const _).cexp.differentiableWithinAt
  · intro z hz
    rw [← Complex.exp_nat_mul]
    have e : ((2 : ℕ) : ℂ) * ((L z - L z0 + Complex.log (h z0)) / 2)
        = L z - L z0 + Complex.log (h z0) := by push_cast; ring
    rw [e, Complex.exp_add, Complex.exp_log hz0, Complex.exp_sub]
    have hc := hconst z hz
    rw [Complex.exp_neg, Complex.exp_neg] at hc
    have e1 : Complex.exp (L z) ≠ 0 := Complex.exp_ne_zero _
    have e2 : Complex.exp (L z0) ≠ 0 := Complex.exp_ne_zero _
    field_simp at hc ⊢
    rw [hc]
    ring

/-! ### The quadratic family `z ↦ z ^ 2 + c` -/

/-- Outside the disc of radius 2 the map `z ↦ z ^ 2 + c` with `‖c‖ ≤ 2` increases norms. -/
theorem norm_lt_norm_sq_add (c z : ℂ) (hc : ‖c‖ ≤ 2) (hz : 2 < ‖z‖) : ‖z‖ < ‖z ^ 2 + c‖ := by
  have h1 : ‖z ^ 2‖ - ‖c‖ ≤ ‖z ^ 2 + c‖ := by
    have := norm_sub_norm_le (z ^ 2) (-c)
    simpa [sub_neg_eq_add] using this
  rw [norm_pow] at h1
  nlinarith [norm_nonneg z]

/-- Once outside the disc of radius 2, an orbit never gets closer to the origin. -/
theorem norm_le_norm_iterate (c z : ℂ) (hc : ‖c‖ ≤ 2) (hz : 2 < ‖z‖) (n : ℕ) :
    ‖z‖ ≤ ‖(fun w : ℂ => w ^ 2 + c)^[n] z‖ := by
  induction n with
  | zero => simp
  | succ n ih =>
    rw [Function.iterate_succ_apply']
    exact le_trans ih (le_of_lt (norm_lt_norm_sq_add c _ hc (lt_of_lt_of_le hz ih)))

/-- A periodic point of `z ↦ z ^ 2 + c` with `‖c‖ ≤ 2` lies in the disc of radius 2. -/
theorem norm_le_two_of_periodic (c a0 : ℂ) (hc : ‖c‖ ≤ 2) (p : ℕ) (hp : 0 < p)
    (hper : (fun w : ℂ => w ^ 2 + c)^[p] a0 = a0) : ‖a0‖ ≤ 2 := by
  by_contra hcon
  rw [not_le] at hcon
  obtain ⟨q, rfl⟩ : ∃ q, p = q + 1 := ⟨p - 1, by omega⟩
  have h1 := norm_lt_norm_sq_add c a0 hc hcon
  have h2 := norm_le_norm_iterate c (a0 ^ 2 + c) hc (lt_trans hcon h1) q
  rw [Function.iterate_succ_apply] at hper
  rw [hper] at h2
  linarith

/-- When the critical orbit leaves the disc of radius 2, it stays a positive distance away
from every periodic point. -/
theorem exists_pos_le_dist_critical_orbit (c a0 : ℂ) (hc : ‖c‖ ≤ 2) (N : ℕ)
    (hN : 2 < ‖(fun w : ℂ => w ^ 2 + c)^[N] 0‖) (p : ℕ) (hp : 0 < p)
    (hper : (fun w : ℂ => w ^ 2 + c)^[p] a0 = a0) :
    ∃ r : ℝ, 0 < r ∧ ∀ j : ℕ, r ≤ ‖(fun w : ℂ => w ^ 2 + c)^[j] 0 - a0‖ := by
  have ha0 : ‖a0‖ ≤ 2 := norm_le_two_of_periodic c a0 hc p hp hper
  have hfar : ∀ j, N ≤ j → ‖(fun w : ℂ => w ^ 2 + c)^[N] 0‖ - 2
      ≤ ‖(fun w : ℂ => w ^ 2 + c)^[j] 0 - a0‖ := by
    intro j hj
    obtain ⟨k, rfl⟩ : ∃ k, j = k + N := ⟨j - N, by omega⟩
    have h1 := norm_le_norm_iterate c _ hc hN k
    rw [← Function.iterate_add_apply] at h1
    have h2 := norm_sub_norm_le ((fun w : ℂ => w ^ 2 + c)^[k + N] 0) a0
    linarith
  have hperk : ∀ k : ℕ, (fun w : ℂ => w ^ 2 + c)^[p * k] a0 = a0 := by
    intro k
    induction k with
    | zero => simp
    | succ k ih =>
      rw [Nat.mul_succ, Function.iterate_add_apply, hper, ih]
  have hne : ∀ j, (fun w : ℂ => w ^ 2 + c)^[j] 0 ≠ a0 := by
    intro j hj
    have h1 : (fun w : ℂ => w ^ 2 + c)^[p * N + j] 0 = a0 := by
      rw [Function.iterate_add_apply, hj, hperk]
    have h2 := hfar (p * N + j) (by nlinarith)
    rw [h1, sub_self, norm_zero] at h2
    linarith
  have hnear : ∀ M : ℕ, ∃ r : ℝ, 0 < r ∧
      ∀ j, j < M → r ≤ ‖(fun w : ℂ => w ^ 2 + c)^[j] 0 - a0‖ := by
    intro M
    induction M with
    | zero => exact ⟨1, one_pos, fun j hj => absurd hj (by omega)⟩
    | succ M ih =>
      obtain ⟨r, hr, hrj⟩ := ih
      have hpos : 0 < ‖(fun w : ℂ => w ^ 2 + c)^[M] 0 - a0‖ :=
        norm_pos_iff.2 (sub_ne_zero.2 (hne M))
      refine ⟨min r ‖(fun w : ℂ => w ^ 2 + c)^[M] 0 - a0‖, lt_min hr hpos, ?_⟩
      intro j hj
      rcases Nat.lt_succ_iff_lt_or_eq.1 hj with h | h
      · exact le_trans (min_le_left _ _) (hrj j h)
      · rw [h]; exact min_le_right _ _
  obtain ⟨r, hr, hrj⟩ := hnear N
  refine ⟨min r (‖(fun w : ℂ => w ^ 2 + c)^[N] 0‖ - 2), lt_min hr (by linarith), ?_⟩
  intro j
  rcases Nat.lt_or_ge j N with h | h
  · exact le_trans (min_le_left _ _) (hrj j h)
  · exact le_trans (min_le_right _ _) (hfar j h)

/-- Inverse branches: if the critical orbit avoids the ball `B(a 0, r)`, every iterate
`f^[n]` has a holomorphic right inverse on that ball that follows the backward orbit `a`. -/
theorem exists_inverse_branch (c : ℂ) (r : ℝ) (hr : 0 < r) (a : ℕ → ℂ)
    (hcrit : ∀ j : ℕ, ∀ w ∈ ball (a 0) r, (fun w : ℂ => w ^ 2 + c)^[j + 1] 0 ≠ w)
    (ha : ∀ n, a (n + 1) ^ 2 + c = a n) (n : ℕ) :
    ∃ G : ℂ → ℂ, DifferentiableOn ℂ G (ball (a 0) r) ∧ G (a 0) = a n ∧
      ∀ w ∈ ball (a 0) r, (fun w : ℂ => w ^ 2 + c)^[n] (G w) = w := by
  induction n with
  | zero => exact ⟨id, differentiableOn_id, rfl, fun w _ => rfl⟩
  | succ n ih =>
    obtain ⟨G, hG, hG0, hGinv⟩ := ih
    have hne : ∀ w ∈ ball (a 0) r, G w - c ≠ 0 := by
      intro w hw h0
      have hGc : G w = c := sub_eq_zero.1 h0
      have := hGinv w hw
      rw [hGc] at this
      apply hcrit n w hw
      rw [Function.iterate_succ_apply]
      simpa using this
    obtain ⟨s, hs, hsq⟩ := exists_sqrt_on_ball (a 0) r hr (fun w => G w - c)
      (hG.sub_const c) hne
    have hcenter : s (a 0) ^ 2 = a (n + 1) ^ 2 := by
      rw [hsq (a 0) (mem_ball_self hr), hG0, ← ha n]
      ring
    rcases sq_eq_sq_iff_eq_or_eq_neg.1 hcenter with h1 | h1
    · refine ⟨s, hs, h1, ?_⟩
      intro w hw
      rw [Function.iterate_succ_apply]
      show (fun w : ℂ => w ^ 2 + c)^[n] (s w ^ 2 + c) = w
      rw [hsq w hw, sub_add_cancel]
      exact hGinv w hw
    · refine ⟨fun w => -s w, hs.neg, by simp [h1], ?_⟩
      intro w hw
      rw [Function.iterate_succ_apply]
      show (fun w : ℂ => w ^ 2 + c)^[n] ((-s w) ^ 2 + c) = w
      rw [neg_sq, hsq w hw, sub_add_cancel]
      exact hGinv w hw

/-- The derivative of `f^[n]` at the `n`-th point of a backward orbit is the product of the
derivatives along the orbit. -/
theorem hasDerivAt_iterate_backward (c : ℂ) (a : ℕ → ℂ) (ha : ∀ n, a (n + 1) ^ 2 + c = a n)
    (n : ℕ) :
    HasDerivAt ((fun w : ℂ => w ^ 2 + c)^[n]) (∏ k in Finset.range n, 2 * a (k + 1)) (a n) := by
  induction n with
  | zero => simpa using hasDerivAt_id (a 0)
  | succ n ih =>
    have hf : HasDerivAt (fun w : ℂ => w ^ 2 + c) (2 * a (n + 1)) (a (n + 1)) := by
      have := ((hasDerivAt_id (a (n + 1))).pow 2).add_const c
      simpa using this
    have ih' : HasDerivAt ((fun w : ℂ => w ^ 2 + c)^[n]) (∏ k in Finset.range n, 2 * a (k + 1))
        ((fun w : ℂ => w ^ 2 + c) (a (n + 1))) := by
      show HasDerivAt _ _ (a (n + 1) ^ 2 + c)
      rw [ha n]
      exact ih
    have hcomp := ih'.comp (a (n + 1)) hf
    rw [Function.iterate_succ, Finset.prod_range_succ]
    exact hcomp

/-- Cauchy's estimate for the inverse branches: if the critical orbit avoids the ball
`B(a 0, r)`, the derivative products along the backward orbit `a` are bounded below. -/
theorem le_norm_prod_backward (c : ℂ) (hc : ‖c‖ ≤ 2) (r : ℝ) (hr : 0 < r) (a : ℕ → ℂ)
    (hcrit : ∀ j : ℕ, ∀ w ∈ ball (a 0) r, (fun w : ℂ => w ^ 2 + c)^[j + 1] 0 ≠ w)
    (ha : ∀ n, a (n + 1) ^ 2 + c = a n) (n : ℕ) :
    r / 2 / max 2 (‖a 0‖ + r) ≤ ‖∏ k in Finset.range n, 2 * a (k + 1)‖ := by
  obtain ⟨G, hG, hG0, hGinv⟩ := exists_inverse_branch c r hr a hcrit ha n
  set R : ℝ := max 2 (‖a 0‖ + r) with hR
  have hR2 : 2 ≤ R := le_max_left _ _
  have hRpos : 0 < R := by linarith
  have hbound : ∀ w ∈ ball (a 0) r, ‖G w‖ ≤ R := by
    intro w hw
    by_contra hcon
    rw [not_le] at hcon
    have h1 := norm_le_norm_iterate c (G w) hc (lt_of_le_of_lt hR2 hcon) n
    rw [hGinv w hw] at h1
    have h2 : ‖w‖ < ‖a 0‖ + r := by
      have hd : ‖w - a 0‖ < r := by rw [← dist_eq_norm]; exact hw
      have := norm_le_insert' w (a 0)
      linarith
    have h3 : ‖a 0‖ + r ≤ R := le_max_right _ _
    linarith
  have hsub : closedBall (a 0) (r / 2) ⊆ ball (a 0) r := closedBall_subset_ball (by linarith)
  have hcauchy : ‖deriv G (a 0)‖ ≤ R / (r / 2) :=
    Complex.norm_deriv_le_of_forall_mem_sphere_norm_le (by linarith)
      (hG.diffContOnCl_ball hsub)
      (fun z hz => hbound z (hsub (sphere_subset_closedBall hz)))
  have hGd : HasDerivAt G (deriv G (a 0)) (a 0) :=
    (hG.differentiableAt (isOpen_ball.mem_nhds (mem_ball_self hr))).hasDerivAt
  have hit := hasDerivAt_iterate_backward c a ha n
  rw [← hG0] at hit
  have hcomp := hit.comp (a 0) hGd
  have hid : HasDerivAt ((fun w : ℂ => w ^ 2 + c)^[n] ∘ G) 1 (a 0) := by
    refine (hasDerivAt_id (a 0)).congr_of_eventuallyEq ?_
    filter_upwards [isOpen_ball.mem_nhds (mem_ball_self hr)] with w hw
    exact hGinv w hw
  have hprod : (∏ k in Finset.range n, 2 * a (k + 1)) * deriv G (a 0) = 1 :=
    hcomp.unique hid
  have hnorm : ‖∏ k in Finset.range n, 2 * a (k + 1)‖ * ‖deriv G (a 0)‖ = 1 := by
    rw [← norm_mul, hprod, norm_one]
  have hdpos : 0 < ‖deriv G (a 0)‖ := by
    rcases (norm_nonneg (deriv G (a 0))).lt_or_eq with h | h
    · exact h
    · rw [← h, mul_zero] at hnorm; exact absurd hnorm (by norm_num)
  have hPnonneg := norm_nonneg (∏ k in Finset.range n, 2 * a (k + 1))
  have hr2 : 0 < r / 2 := by linarith
  rw [div_le_iff₀ hRpos]
  have h4 : ‖deriv G (a 0)‖ * (r / 2) ≤ R := by
    rw [le_div_iff₀ hr2] at hcauchy
    exact hcauchy
  calc r / 2 = (‖∏ k in Finset.range n, 2 * a (k + 1)‖ * ‖deriv G (a 0)‖) * (r / 2) := by
        rw [hnorm, one_mul]
    _ = ‖∏ k in Finset.range n, 2 * a (k + 1)‖ * (‖deriv G (a 0)‖ * (r / 2)) := by ring
    _ ≤ ‖∏ k in Finset.range n, 2 * a (k + 1)‖ * R := by gcongr

/-- If the critical orbit of `z ↦ z ^ 2 + c` leaves the disc of radius 2, every fixed point
has a multiplier of norm at least 1. -/
theorem one_le_norm_multiplier_fixed (c α : ℂ) (hc : ‖c‖ ≤ 2) (hα : α ^ 2 + c = α) (N : ℕ)
    (hN : 2 < ‖(fun w : ℂ => w ^ 2 + c)^[N] 0‖) : 1 ≤ ‖2 * α‖ := by
  obtain ⟨r, hr, hdist⟩ := exists_pos_le_dist_critical_orbit c α hc N hN 1 one_pos
    (by simpa using hα)
  by_contra hcon
  rw [not_le] at hcon
  have hlow := le_norm_prod_backward c hc r hr (fun _ => α)
    (by
      intro j w hw hj
      have h1 := hdist (j + 1)
      rw [hj] at h1
      have h2 : ‖w - α‖ < r := by rw [← dist_eq_norm]; exact hw
      linarith)
    (fun _ => hα)
  have hε : 0 < r / 2 / max 2 (‖α‖ + r) :=
    div_pos (by linarith) (lt_of_lt_of_le two_pos (le_max_left _ _))
  obtain ⟨n, hn⟩ := exists_pow_lt_of_lt_one hε hcon
  have := hlow n
  rw [Finset.prod_const, Finset.card_range, norm_pow] at this
  linarith

/-- If the critical orbit of `z ↦ z ^ 2 + c` leaves the disc of radius 2, every cycle of
period two has a multiplier of norm at least 1. -/
theorem one_le_norm_multiplier_two_cycle (c z1 z2 : ℂ) (hc : ‖c‖ ≤ 2) (h12 : z1 ^ 2 + c = z2)
    (h21 : z2 ^ 2 + c = z1) (N : ℕ) (hN : 2 < ‖(fun w : ℂ => w ^ 2 + c)^[N] 0‖) :
    1 ≤ ‖4 * z1 * z2‖ := by
  obtain ⟨r, hr, hdist⟩ := exists_pos_le_dist_critical_orbit c z1 hc N hN 2 two_pos
    (by
      show (fun w : ℂ => w ^ 2 + c) ((fun w : ℂ => w ^ 2 + c) z1) = z1
      simp only [h12, h21])
  by_contra hcon
  rw [not_le] at hcon
  have hlow := le_norm_prod_backward c hc r hr (fun n => if n % 2 = 0 then z1 else z2)
    (by
      intro j w hw hj
      have h1 := hdist (j + 1)
      rw [hj] at h1
      have h2 : ‖w - z1‖ < r := by rw [← dist_eq_norm]; simpa using hw
      linarith)
    (by
      intro n
      rcases Nat.mod_two_eq_zero_or_one n with h | h
      · have h' : (n + 1) % 2 = 1 := by omega
        simp [h, h', h21]
      · have h' : (n + 1) % 2 = 0 := by omega
        simp [h, h', h12])
  have hprod : ∀ m : ℕ, ∏ k in Finset.range (2 * m),
      2 * (fun n => if n % 2 = 0 then z1 else z2) (k + 1) = (4 * z1 * z2) ^ m := by
    intro m
    induction m with
    | zero => simp
    | succ m ih =>
      have e : 2 * (m + 1) = 2 * m + 1 + 1 := by ring
      have h1 : (2 * m + 1) % 2 = 1 := by omega
      have h2 : (2 * m + 1 + 1) % 2 = 0 := by omega
      rw [e, Finset.prod_range_succ, Finset.prod_range_succ, ih]
      simp only [h1, h2, if_true, if_false, one_ne_zero]
      ring
  have hε : 0 < r / 2 / max 2 (‖z1‖ + r) :=
    div_pos (by linarith) (lt_of_lt_of_le two_pos (le_max_left _ _))
  obtain ⟨m, hm⟩ := exists_pow_lt_of_lt_one hε hcon
  have := hlow (2 * m)
  rw [hprod m, norm_pow] at this
  simp only [if_true, Nat.zero_mod] at this
  linarith

/-- The `n`-th point of the critical orbit depends continuously on the parameter. -/
theorem continuous_critical_orbit (n : ℕ) :
    Continuous fun c : ℂ => (fun w : ℂ => w ^ 2 + c)^[n] 0 := by
  induction n with
  | zero => simpa using continuous_const
  | succ n ih =>
    have : (fun c : ℂ => (fun w : ℂ => w ^ 2 + c)^[n + 1] 0)
        = fun c : ℂ => ((fun w : ℂ => w ^ 2 + c)^[n] 0) ^ 2 + c := by
      funext c
      rw [Function.iterate_succ_apply']
    rw [this]
    exact (ih.pow 2).add continuous_id

/-- Parameters `c = μ / 2 - μ ^ 2 / 4` with `‖μ‖ < 1` (the open main cardioid) have a
critical orbit inside the disc of radius 2. -/
theorem cardioid_interior_bounded (μ : ℂ) (hμ : ‖μ‖ < 1) (n : ℕ) :
    ‖(fun w : ℂ => w ^ 2 + (μ / 2 - μ ^ 2 / 4))^[n] 0‖ ≤ 2 := by
  by_contra hcon
  rw [not_le] at hcon
  have hc : ‖μ / 2 - μ ^ 2 / 4‖ ≤ 2 := by
    have h1 : ‖μ / 2‖ = ‖μ‖ / 2 := by rw [norm_div]; simp
    have h2 : ‖μ ^ 2 / 4‖ = ‖μ‖ ^ 2 / 4 := by rw [norm_div, norm_pow]; simp
    have := norm_sub_le (μ / 2) (μ ^ 2 / 4)
    rw [h1, h2] at this
    nlinarith [norm_nonneg μ]
  have hfix : (μ / 2) ^ 2 + (μ / 2 - μ ^ 2 / 4) = μ / 2 := by ring
  have h := one_le_norm_multiplier_fixed _ (μ / 2) hc hfix n hcon
  have e : 2 * (μ / 2) = μ := by ring
  rw [e] at h
  linarith

/-- Parameters with `‖c + 1‖ < 1 / 4` (the open period-2 disc) have a critical orbit inside
the disc of radius 2. -/
theorem bulb_interior_bounded (c : ℂ) (hb : ‖c + 1‖ < 1 / 4) (n : ℕ) :
    ‖(fun w : ℂ => w ^ 2 + c)^[n] 0‖ ≤ 2 := by
  by_contra hcon
  rw [not_le] at hcon
  have hc : ‖c‖ ≤ 2 := by
    have h1 : ‖c‖ ≤ ‖c + 1‖ + ‖(1 : ℂ)‖ := by
      have := norm_sub_le (c + 1) 1
      simpa using this
    rw [norm_one] at h1
    linarith
  obtain ⟨d, hd⟩ := IsAlgClosed.exists_pow_nat_eq (-3 - 4 * c) two_pos
  have h12 : ((-1 + d) / 2) ^ 2 + c = (-1 - d) / 2 := by
    linear_combination (1 / 4 : ℂ) * hd
  have h21 : ((-1 - d) / 2) ^ 2 + c = (-1 + d) / 2 := by
    linear_combination (1 / 4 : ℂ) * hd
  have h := one_le_norm_multiplier_two_cycle c _ _ hc h12 h21 n hcon
  have e : 4 * ((-1 + d) / 2) * ((-1 - d) / 2) = 4 * (c + 1) := by
    linear_combination (-1 : ℂ) * hd
  rw [e, norm_mul] at h
  have h4 : ‖(4 : ℂ)‖ = 4 := by simp
  rw [h4] at h
  linarith

/-- The closed main cardioid, parametrised by the closed unit disc, has bounded critical
orbits. -/
theorem cardioid_bounded (μ : ℂ) (hμ : ‖μ‖ ≤ 1) (n : ℕ) :
    ‖(fun w : ℂ => w ^ 2 + (μ / 2 - μ ^ 2 / 4))^[n] 0‖ ≤ 2 := by
  have hcont : Continuous fun μ : ℂ =>
      ‖(fun w : ℂ => w ^ 2 + (μ / 2 - μ ^ 2 / 4))^[n] 0‖ :=
    ((continuous_critical_orbit n).comp (by fun_prop)).norm
  have hclosed : IsClosed {μ : ℂ | ‖(fun w : ℂ => w ^ 2 + (μ / 2 - μ ^ 2 / 4))^[n] 0‖ ≤ 2} :=
    isClosed_le hcont continuous_const
  have hsub : closure (ball (0 : ℂ) 1)
      ⊆ {μ : ℂ | ‖(fun w : ℂ => w ^ 2 + (μ / 2 - μ ^ 2 / 4))^[n] 0‖ ≤ 2} :=
    closure_minimal (fun ν hν => cardioid_interior_bounded ν (by simpa using hν) n) hclosed
  rw [closure_ball (0 : ℂ) one_ne_zero] at hsub
  exact hsub (by simpa using hμ)

/-- The closed period-2 disc has bounded critical orbits. -/
theorem bulb_bounded (c : ℂ) (hb : ‖c + 1‖ ≤ 1 / 4) (n : ℕ) :
    ‖(fun w : ℂ => w ^ 2 + c)^[n] 0‖ ≤ 2 := by
  have hclosed : IsClosed {c : ℂ | ‖(fun w : ℂ => w ^ 2 + c)^[n] 0‖ ≤ 2} :=
    isClosed_le (continuous_critical_orbit n).norm continuous_const
  have hsub : closure (ball (-1 : ℂ) (1 / 4))
      ⊆ {c : ℂ | ‖(fun w : ℂ => w ^ 2 + c)^[n] 0‖ ≤ 2} :=
    closure_minimal (fun ν hν => bulb_interior_bounded ν (by
      rw [mem_ball, dist_eq_norm] at hν
      simpa [sub_neg_eq_add] using hν) n) hclosed
  rw [closure_ball (-1 : ℂ) (by norm_num)] at hsub
  exact hsub (by
    rw [mem_closedBall, dist_eq_norm]
    simpa [sub_neg_eq_add] using hb)

/-- The cardioid test of `inMainCardioid` puts `c` in the image of the closed unit disc under
`μ ↦ μ / 2 - μ ^ 2 / 4`. -/
theorem exists_multiplier_of_cardioid_test (x y : ℝ)
    (htest : ((x - 0.25) * (x - 0.25) + y * y) * (((x - 0.25) * (x - 0.25) + y * y) + (x - 0.25))
      ≤ 0.25 * y * y) :
    ∃ μ : ℂ, ‖μ‖ ≤ 1 ∧ (⟨x, y⟩ : ℂ) = μ / 2 - μ ^ 2 / 4 := by
  obtain ⟨s0, hs0⟩ := IsAlgClosed.exists_pow_nat_eq (1 - 4 * (⟨x, y⟩ : ℂ)) two_pos
  obtain ⟨s, hs, hre⟩ : ∃ s : ℂ, s ^ 2 = 1 - 4 * (⟨x, y⟩ : ℂ) ∧ 0 ≤ s.re := by
    rcases le_total 0 s0.re with h | h
    · exact ⟨s0, hs0, h⟩
    · exact ⟨-s0, by rw [neg_sq, hs0], by simpa using h⟩
  have h1 : s.re * s.re - s.im * s.im = 1 - 4 * x := by
    have := congrArg Complex.re hs
    simpa [pow_two] using this
  have h2 : s.re * s.im + s.im * s.re = -(4 * y) := by
    have := congrArg Complex.im hs
    simpa [pow_two] using this
  refine ⟨1 - s, ?_, ?_⟩
  · have hx : x = (1 - (s.re * s.re - s.im * s.im)) / 4 := by linarith
    have hy : y = -(s.re * s.im) / 2 := by linarith
    have hkey : ((s.re ^ 2 + s.im ^ 2) ^ 2 - 4 * s.re ^ 2) * ((s.re ^ 2 + s.im ^ 2) ^ 2
        + 4 * s.im ^ 2) ≤ 0 := by
      have e : ((s.re ^ 2 + s.im ^ 2) ^ 2 - 4 * s.re ^ 2) * ((s.re ^ 2 + s.im ^ 2) ^ 2
          + 4 * s.im ^ 2)
          = 256 * (((x - 0.25) * (x - 0.25) + y * y)
              * (((x - 0.25) * (x - 0.25) + y * y) + (x - 0.25)) - 0.25 * y * y) := by
        rw [hx, hy]
        ring
      rw [e]
      linarith
    have hm : s.re ^ 2 + s.im ^ 2 ≤ 2 * s.re := by
      by_contra hcon
      rw [not_le] at hcon
      have hmpos : 0 < s.re ^ 2 + s.im ^ 2 := by linarith
      have h3 : 4 * s.re ^ 2 < (s.re ^ 2 + s.im ^ 2) ^ 2 := by nlinarith
      have h4 : 0 < (s.re ^ 2 + s.im ^ 2) ^ 2 + 4 * s.im ^ 2 := by positivity
      have : 0 < ((s.re ^ 2 + s.im ^ 2) ^ 2 - 4 * s.re ^ 2) * ((s.re ^ 2 + s.im ^ 2) ^ 2
          + 4 * s.im ^ 2) := mul_pos (by linarith) h4
      linarith
    have hsq : ‖1 - s‖ ^ 2 ≤ 1 := by
      rw [Complex.norm_eq_abs, Complex.sq_abs, Complex.normSq_apply]
      simp only [Complex.sub_re, Complex.one_re, Complex.sub_im, Complex.one_im]
      nlinarith
    nlinarith [norm_nonneg (1 - s)]
  · linear_combination (1 / 4 : ℂ) * hs

/-- The disc test of `inPeriod2Bulb` puts `c` in the closed disc of radius `1 / 4` around
`-1`. -/
theorem norm_add_one_le_of_bulb_test (x y : ℝ)
    (htest : (x + 1.0) * (x + 1.0) + y * y ≤ 0.0625) : ‖(⟨x, y⟩ : ℂ) + 1‖ ≤ 1 / 4 := by
  have hsq : ‖(⟨x, y⟩ : ℂ) + 1‖ ^ 2 ≤ (1 / 4) ^ 2 := by
    rw [Complex.norm_eq_abs, Complex.sq_abs, Complex.normSq_apply]
    simp only [Complex.add_re, Complex.one_re, Complex.add_im, Complex.one_im]
    norm_num at htest ⊢
    linarith
  exact (abs_le_of_sq_le_sq' hsq (by norm_num)).2

/-- The plain iteration on real and imaginary parts is the complex iteration of
`z ↦ z ^ 2 + c`. -/
theorem plainOrbit_eq_iterate (c_real c_imag : ℝ) (n : ℕ) :
    (⟨(Mandelbrot.plainOrbit c_real c_imag n).1, (Mandelbrot.plainOrbit c_real c_imag n).2⟩ : ℂ)
      = (fun w : ℂ => w ^ 2 + (⟨c_real, c_imag⟩ : ℂ))^[n] 0 := by
  induction n with
  | zero => rfl
  | succ n ih =>
    rw [Function.iterate_succ_apply', ← ih]
    apply Complex.ext
    · simp [Mandelbrot.plainOrbit, pow_two]
    · simp [Mandelbrot.plainOrbit, pow_two]
      ring

/-- Every point passing the test of `inMainCardioid` or of `inPeriod2Bulb` has a plain orbit
that stays in the closed disc of radius 2: `|z_n|^2 <= 4` for all `n`. -/
theorem plainOrbit_bounded (c_real c_imag : ℝ)
    (hin : Mandelbrot.inMainCardioid c_real c_imag = true ∨
      Mandelbrot.inPeriod2Bulb c_real c_imag = true) (n : ℕ) :
    (Mandelbrot.plainOrbit c_real c_imag n).1 ^ 2 + (Mandelbrot.plainOrbit c_real c_imag n).2 ^ 2
      ≤ 4 := by
  have hnorm : ‖(fun w : ℂ => w ^ 2 + (⟨c_real, c_imag⟩ : ℂ))^[n] 0‖ ≤ 2 := by
    rcases hin with h | h
    · simp only [Mandelbrot.inMainCardioid, decide_eq_true_eq] at h
      obtain ⟨μ, hμ, hc⟩ := exists_multiplier_of_cardioid_test c_real c_imag h
      rw [hc]
      exact cardioid_bounded μ hμ n
    · simp only [Mandelbrot.inPeriod2Bulb, decide_eq_true_eq] at h
      exact bulb_bounded _ (norm_add_one_le_of_bulb_test c_real c_imag h) n
  rw [← plainOrbit_eq_iterate] at hnorm
  have hsq : ‖(⟨(Mandelbrot.plainOrbit c_real c_imag n).1,
      (Mandelbrot.plainOrbit c_real c_imag n).2⟩ : ℂ)‖ ^ 2 ≤ 4 := by
    have h0 := norm_nonneg (⟨(Mandelbrot.plainOrbit c_real c_imag n).1,
      (Mandelbrot.plainOrbit c_real c_imag n).2⟩ : ℂ)
    nlinarith
  rw [Complex.norm_eq_abs, Complex.sq_abs, Complex.normSq_apply] at hsq
  simp only at hsq
  nlinarith

/-- When the plain orbit never leaves the closed disc of radius 2, the loop of
`Mandelbrot::compute` with bailout radius 4, entered in the state reached after `k` steps,
runs until the counter equals `max_iterations`. -/
theorem mandelbrot_loop_runs_to_cap (c_real c_imag : ℝ) (max_iterations : Int)
    (hb : ∀ n : ℕ, (Mandelbrot.plainOrbit c_real c_imag n).1 ^ 2
      + (Mandelbrot.plainOrbit c_real c_imag n).2 ^ 2 ≤ 4) (s : IterState ℝ) :
    ∀ k : ℕ, s.iter = (k : Int) → s.iter ≤ max_iterations →
      s.z_real = (Mandelbrot.plainOrbit c_real c_imag k).1 →
      s.z_imag = (Mandelbrot.plainOrbit c_real c_imag k).2 →
      s.z_real2 = s.z_real * s.z_real → s.z_imag2 = s.z_imag * s.z_imag →
      (Mandelbrot.compute.loop c_real c_imag max_iterations 4 s).iter = max_iterations := by
  induction s using Mandelbrot.compute.loop.induct c_real c_imag max_iterations 4 with
  | case1 s h z_imag z_real ih =>
    intro k hk hle hre him hre2 him2
    rw [Mandelbrot.compute.loop, if_pos h]
    refine ih (k + 1) (by simp [hk]) (by simp only; omega) ?_ ?_ rfl rfl
    · simp only [z_real, Mandelbrot.plainOrbit, hre2, him2, hre, him]
    · simp only [z_imag, Mandelbrot.plainOrbit, hre, him]
      norm_num
  | case2 s h =>
    intro k hk hle hre him hre2 him2
    rw [Mandelbrot.compute.loop, if_neg h]
    have hk4 := hb k
    rw [← hre, ← him] at hk4
    have hm : s.z_real2 + s.z_imag2 ≤ 4 := by rw [hre2, him2]; nlinarith
    have : ¬ s.iter < max_iterations := fun hlt => h ⟨hm, hlt⟩
    omega

/-- C5: in exact real arithmetic with bailout radius 4, for every `max_iterations >= 1` and
every point `c` that passes `inMainCardioid` or `inPeriod2Bulb`, the plain iteration
`z ↦ z^2 + c` from `z = 0` never has `|z_n|^2 > 4` (for any `n`, in particular within
`max_iterations` steps), and `Mandelbrot::compute` returns the `FractalPoint`
(`iterations = max_iterations`, `smooth_value = max_iterations`, `inside_set = true`) that
the iteration loop alone, without the short-circuits, returns as well. -/
theorem C5_short_circuits_exact (log : ℝ → ℝ) (c_real c_imag : ℝ) (max_iterations : Int)
    (smooth_coloring : Bool) (hmax : 1 ≤ max_iterations)
    (hin : Mandelbrot.inMainCardioid c_real c_imag = true ∨
      Mandelbrot.inPeriod2Bulb c_real c_imag = true) :
    (∀ n : ℕ, (Mandelbrot.plainOrbit c_real c_imag n).1 ^ 2
        + (Mandelbrot.plainOrbit c_real c_imag n).2 ^ 2 ≤ 4) ∧
    Mandelbrot.compute log c_real c_imag max_iterations 4 smooth_coloring
      = ⟨max_iterations, (max_iterations : ℝ), true⟩ ∧
    smoothResult log
        (Mandelbrot.compute.loop c_real c_imag max_iterations 4 ⟨0.0, 0.0, 0.0, 0.0, 0⟩)
        max_iterations smooth_coloring
      = ⟨max_iterations, (max_iterations : ℝ), true⟩ := by
  have hb := plainOrbit_bounded c_real c_imag hin
  refine ⟨hb, ?_, ?_⟩
  · unfold Mandelbrot.compute
    rcases hin with h | h
    · rw [if_pos h]
    · by_cases h1 : Mandelbrot.inMainCardioid c_real c_imag = true
      · rw [if_pos h1]
      · rw [if_neg h1, if_pos h]
  · have hiter := mandelbrot_loop_runs_to_cap c_real c_imag max_iterations hb
      ⟨0.0, 0.0, 0.0, 0.0, 0⟩ 0 rfl (by simp only; omega)
      (by norm_num [Mandelbrot.plainOrbit]) (by norm_num [Mandelbrot.plainOrbit])
      (by norm_num) (by norm_num)
    unfold smoothResult
    simp only [hiter, lt_irrefl, and_false, if_false, ge_iff_le, le_refl, decide_True]

/-- Witness of C5 at `c = (0, 0)`, which passes the cardioid test, with 10 iterations. -/
theorem C5_short_circuits_exact_witness :
    (∀ n : ℕ, (Mandelbrot.plainOrbit (0 : ℝ) 0 n).1 ^ 2
        + (Mandelbrot.plainOrbit (0 : ℝ) 0 n).2 ^ 2 ≤ 4) ∧
    Mandelbrot.compute Real.log 0 0 10 4 true = ⟨10, ((10 : Int) : ℝ), true⟩ ∧
    smoothResult Real.log
        (Mandelbrot.compute.loop (0 : ℝ) 0 10 4 ⟨0.0, 0.0, 0.0, 0.0, 0⟩) 10 true
      = ⟨10, ((10 : Int) : ℝ), true⟩ :=
  C5_short_circuits_exact Real.log 0 0 10 true (by decide)
    (Or.inl (by norm_num [Mandelbrot.inMainCardioid]))

end ComplexDynamics

end Fractal
